import Mathlib

/-!
# channeldb/migration28: deleting failed htlcs from settled payments

A shallow embedding of `channeldb/migration28/migration.go` and a verification
of its contract.  The key-value store is a tree of nested buckets; the Go
functions `htlcBucketKey`, `getAttemptIdFromHtlcBucketKey`, `paymentIsSettled`,
`deleteFailedHtlcs` and `MigratePayments` are translated one to one, with the
store passed explicitly and returned together with the outcome of the call.
-/

namespace Migration28

/-! ## Data model -/

/-- A byte string (`[]byte`, or a Go `string` seen as its bytes). -/
abbrev Bytes := List UInt8

/-- What a key of a bucket holds: a plain value or a nested bucket.  The entries
of a bucket are listed in the order in which `ForEach` enumerates them. -/
inductive Node where
  | value (v : Bytes) : Node
  | bucket (entries : List (Bytes × Node)) : Node

/-- A bucket: its entries in enumeration order. -/
abbrev Bucket := List (Bytes × Node)

/-- The errors `MigratePayments` can return. -/
inductive MigrationError where
  /-- Case `fmt.Errorf("key must be a bucket: '%v'", name)`. -/
  | keyMustBeBucket (name : Bytes) : MigrationError
  /-- Case `fmt.Errorf("key must not be a bucket: '%v'", key)`. -/
  | keyMustNotBeBucket (key : Bytes) : MigrationError
  /-- An error reported by the store itself (here: by `Delete`). -/
  | storeFailure : MigrationError
  deriving DecidableEq

/-- How a call ends: it returns normally (`err == nil`), it returns an error, or
it panics (`slice bounds out of range`). -/
inductive Outcome (α : Type) where
  | ok (a : α) : Outcome α
  | error (e : MigrationError) : Outcome α
  | panic : Outcome α
  deriving DecidableEq

/-- The bytes of an ASCII string literal. -/
def ascii (s : String) : Bytes := s.data.map (fun c => UInt8.ofNat c.toNat)

/-- Variable `paymentsRootBucket`. -/
def paymentsRootBucket : Bytes := ascii "payments-root-bucket"

/-- Variable `paymentHtlcsBucket`. -/
def paymentHtlcsBucket : Bytes := ascii "payment-htlcs-bucket"

/-- Variable `htlcAttemptInfoKey`. -/
def htlcAttemptInfoKey : Bytes := ascii "ai"

/-- Variable `htlcSettleInfoKey`. -/
def htlcSettleInfoKey : Bytes := ascii "si"

/-- Variable `htlcFailInfoKey`. -/
def htlcFailInfoKey : Bytes := ascii "fi"

/-! ## The store interface -/

/-- Modelled from the spec: the store is external; this is what a key of a
bucket resolves to (`Absent | Scalar | Collection`), the first entry with that
key. -/
def Bucket.lookup (b : Bucket) (k : Bytes) : Option Node :=
  match b with
  | [] => none
  | (k', n) :: rest => if k' = k then some n else Bucket.lookup rest k

/-- Modelled from the spec: `Get`, "get a scalar value by key (nil/absent if
missing or if the key is actually a bucket)". -/
def Bucket.Get (b : Bucket) (k : Bytes) : Option Bytes :=
  match b.lookup k with
  | some (.value v) => some v
  | _ => none

/-- Modelled from the spec: `NestedReadWriteBucket`, "open-or-nil a nested
read-write sub-collection by key". -/
def Bucket.NestedReadWriteBucket (b : Bucket) (k : Bytes) : Option Bucket :=
  match b.lookup k with
  | some (.bucket es) => some es
  | _ => none

/-- Modelled from the spec: `NestedReadBucket`, "open-or-nil a nested read-only
sub-collection by key". -/
def Bucket.NestedReadBucket (b : Bucket) (k : Bytes) : Option Bucket :=
  b.NestedReadWriteBucket k

/-- Modelled from the spec: `Delete`, "delete a scalar value by key".  Deleting
an absent key succeeds and changes nothing; a key that holds a nested bucket is
not a scalar and the store reports a failure. -/
def Bucket.Delete (b : Bucket) (k : Bytes) : Except MigrationError Bucket :=
  match b.lookup k with
  | some (.bucket _) => .error .storeFailure
  | _ => .ok (b.filter (fun e => decide (e.1 ≠ k)))

/-- Modelled from the spec: `ForEach`, "enumerate all direct entries of a
collection"; the keys, in the order of the enumeration. -/
def Bucket.keys (b : Bucket) : List Bytes := b.map (fun e => e.1)

/-- The effect, on the parent bucket, of a write made through the handle of the
nested bucket under `k`: the first entry with key `k` now holds `nb`. -/
def Bucket.setBucket (b : Bucket) (k : Bytes) (nb : Bucket) : Bucket :=
  match b with
  | [] => []
  | (k', n) :: rest =>
    if k' = k then (k', .bucket nb) :: rest else (k', n) :: Bucket.setBucket rest k nb

/-! ## The migration -/

/-- Go's builtin `copy(dst, src)`: the first `min(len(dst), len(src))` bytes of
`dst` are overwritten. -/
def copy (dst src : Bytes) : Bytes := src.take dst.length ++ dst.drop src.length

/-- Function `htlcBucketKey`. -/
def htlcBucketKey (pfx id : Bytes) : Bytes :=
  let key : Bytes := List.replicate (pfx.length + id.length) 0
  let key := copy key pfx
  key.take pfx.length ++ copy (key.drop pfx.length) id

/-- Function `getAttemptIdFromHtlcBucketKey`: `string(htlcBucketKey)[2:]`, which
panics (`none`) on a key of fewer than 2 bytes. -/
def getAttemptIdFromHtlcBucketKey (htlcBucketKey : Bytes) : Option Bytes :=
  if 2 ≤ htlcBucketKey.length then some (htlcBucketKey.drop 2) else none

/-- The statement `aids[id] = true` on the set `aids`, kept as the list of its
distinct elements. -/
def aidsInsert (aids : List Bytes) (id : Bytes) : List Bytes :=
  if id ∈ aids then aids else aids ++ [id]

/-- The loop `htlcs.ForEach(func(htlcBucketKey, v) { aids[getAttemptIdFromHtlcBucketKey(htlcBucketKey)] = true })`
over the remaining entries, from the set `aids` collected so far. -/
def collectAids : Bucket → List Bytes → Option (List Bytes)
  | [], aids => some aids
  | (k, _) :: rest, aids =>
    match getAttemptIdFromHtlcBucketKey k with
    | none => none
    | some id => collectAids rest (aidsInsert aids id)

/-- The order in which `for aid := range aids` visits a set: Go leaves it
unspecified, so it is a parameter of every function that ranges over a map. -/
abbrev RangeOrder := List Bytes → List Bytes

/-- A range order visits every element of the set exactly once. -/
def RangeOrder.Valid (ord : RangeOrder) : Prop := ∀ l : List Bytes, (ord l).Perm l

/-- The loop `for aid := range aids` of `paymentIsSettled`, over the ids still
to visit. -/
def settledLoop (htlcs : Bucket) : List Bytes → Outcome Bool
  | [] => .ok false
  | aid :: rest =>
    let settleInfoBucketKey := htlcBucketKey htlcSettleInfoKey aid
    if (htlcs.NestedReadBucket settleInfoBucketKey).isSome then
      .error (.keyMustNotBeBucket settleInfoBucketKey)
    else
      let settleInfo := (htlcs.Get settleInfoBucketKey).getD []
      if 0 < settleInfo.length then .ok true else settledLoop htlcs rest

/-- Function `paymentIsSettled`. -/
def paymentIsSettled (ord : RangeOrder) (htlcs : Bucket) : Outcome Bool :=
  match collectAids htlcs [] with
  | none => .panic
  | some aids => settledLoop htlcs (ord aids)

/-- The loop `for aid := range aids` of `deleteFailedHtlcs`, over the ids still
to visit; returns the bucket as it is when the loop ends. -/
def deleteLoop : Bucket → List Bytes → Bucket × Outcome Unit
  | htlcs, [] => (htlcs, .ok ())
  | htlcs, aid :: rest =>
    let failInfoBucketKey := htlcBucketKey htlcFailInfoKey aid
    let attemptInfoBucketKey := htlcBucketKey htlcAttemptInfoKey aid
    let settleInfoBucketKey := htlcBucketKey htlcSettleInfoKey aid
    if (htlcs.NestedReadBucket failInfoBucketKey).isSome then
      (htlcs, .error (.keyMustNotBeBucket failInfoBucketKey))
    else if (htlcs.NestedReadBucket attemptInfoBucketKey).isSome then
      (htlcs, .error (.keyMustNotBeBucket attemptInfoBucketKey))
    else if (htlcs.NestedReadBucket settleInfoBucketKey).isSome then
      (htlcs, .error (.keyMustNotBeBucket settleInfoBucketKey))
    else
      let failInfo := (htlcs.Get failInfoBucketKey).getD []
      if 0 < failInfo.length then
        match htlcs.Delete failInfoBucketKey with
        | .error e => (htlcs, .error e)
        | .ok h1 =>
          match h1.Delete attemptInfoBucketKey with
          | .error e => (h1, .error e)
          | .ok h2 =>
            match h2.Delete settleInfoBucketKey with
            | .error e => (h2, .error e)
            | .ok h3 => deleteLoop h3 rest
      else deleteLoop htlcs rest

/-- Function `deleteFailedHtlcs` (its `hash` argument is unused). -/
def deleteFailedHtlcs (ord : RangeOrder) (htlcs : Bucket) : Bucket × Outcome Unit :=
  match collectAids htlcs [] with
  | none => (htlcs, .panic)
  | some aids => deleteLoop htlcs (ord aids)

/-- The range orders of one run of the migration: for each payment hash, the
order used by `paymentIsSettled` and the one used by `deleteFailedHtlcs`. -/
structure Schedule where
  settled : Bytes → RangeOrder
  delete : Bytes → RangeOrder

/-- Every range of the run visits every element of its set exactly once. -/
def Schedule.Valid (σ : Schedule) : Prop :=
  ∀ hash : Bytes, (σ.settled hash).Valid ∧ (σ.delete hash).Valid

/-- The schedule that visits the ids in the order of their first key. -/
def Schedule.inOrder : Schedule := ⟨fun _ l => l, fun _ l => l⟩

/-- The callback of `payments.ForEach` in `MigratePayments`, applied to the key
`hash` of the root bucket `payments`. -/
def migratePayment (σ : Schedule) (payments : Bucket) (hash : Bytes) : Bucket × Outcome Unit :=
  match payments.NestedReadWriteBucket hash with
  | none => (payments, .error (.keyMustBeBucket paymentsRootBucket))
  | some payment =>
    if (payment.Get paymentHtlcsBucket).isSome then
      (payments, .error (.keyMustBeBucket paymentHtlcsBucket))
    else
      match payment.NestedReadWriteBucket paymentHtlcsBucket with
      | none => (payments, .ok ())
      | some htlcs =>
        match paymentIsSettled (σ.settled hash) htlcs with
        | .panic => (payments, .panic)
        | .error e => (payments, .error e)
        | .ok false => (payments, .ok ())
        | .ok true =>
          let r := deleteFailedHtlcs (σ.delete hash) htlcs
          (payments.setBucket hash (payment.setBucket paymentHtlcsBucket r.1), r.2)

/-- The loop `payments.ForEach(...)`, over the keys still to visit. -/
def forEachPayment (σ : Schedule) : List Bytes → Bucket → Bucket × Outcome Unit
  | [], payments => (payments, .ok ())
  | hash :: rest, payments =>
    match migratePayment σ payments hash with
    | (payments', .ok ()) => forEachPayment σ rest payments'
    | r => r

/-- Function `MigratePayments`, on the transaction `tx` (the bucket of the
top-level buckets); returns the transaction as it is when the call ends. -/
def MigratePayments (σ : Schedule) (tx : Bucket) : Bucket × Outcome Unit :=
  match tx.NestedReadWriteBucket paymentsRootBucket with
  | none => (tx, .ok ())
  | some payments =>
    let r := forEachPayment σ payments.keys payments
    (tx.setBucket paymentsRootBucket r.1, r.2)

/-! ## Vocabulary of the specification -/

/-- The key `k` of the bucket holds a non-empty plain value. -/
def Bucket.NonEmptyAt (b : Bucket) (k : Bytes) : Prop :=
  ∃ v : Bytes, b.Get k = some v ∧ 0 < v.length

/-- A payment is settled iff at least one of its attempts has a non-empty value
under its settle-info key. -/
def Settled (htlcs : Bucket) : Prop :=
  ∃ id : Bytes, htlcs.NonEmptyAt (htlcBucketKey htlcSettleInfoKey id)

/-- An attempt is failed iff it has a non-empty value under its fail-info
key. -/
def Failed (htlcs : Bucket) (id : Bytes) : Prop :=
  htlcs.NonEmptyAt (htlcBucketKey htlcFailInfoKey id)

/-- The record of payment `hash` in the transaction `tx`, when there is one. -/
def paymentOf (tx : Bucket) (hash : Bytes) : Option Bucket :=
  (tx.NestedReadWriteBucket paymentsRootBucket).bind (fun ps => ps.NestedReadWriteBucket hash)

/-- The attempt collection of payment `hash` in the transaction `tx`, when there
is one. -/
def htlcsOf (tx : Bucket) (hash : Bytes) : Option Bucket :=
  (paymentOf tx hash).bind (fun p => p.NestedReadWriteBucket paymentHtlcsBucket)

/-! ## The net effect of the loops -/

/-- The bucket without the entries whose key fails the test `keep`. -/
def Bucket.restrict (b : Bucket) (keep : Bytes → Bool) : Bucket :=
  b.filter (fun e => keep e.1)

/-- The test `len(b.Get(k)) > 0`. -/
def nonEmptyAt (b : Bucket) (k : Bytes) : Bool :=
  decide (0 < ((b.Get k).getD []).length)

/-- The key `k` is one of the three keys of attempt `id`. -/
def inTriple (id k : Bytes) : Bool :=
  decide (k = htlcBucketKey htlcFailInfoKey id) ||
    (decide (k = htlcBucketKey htlcAttemptInfoKey id) ||
      decide (k = htlcBucketKey htlcSettleInfoKey id))

/-- The key `k` belongs to an attempt among `ids` that has non-empty fail
info in `htlcs`. -/
def pruned (htlcs : Bucket) (ids : List Bytes) (k : Bytes) : Bool :=
  ids.any (fun id => nonEmptyAt htlcs (htlcBucketKey htlcFailInfoKey id) && inTriple id k)

/-- The attempt collection without the entries of the failed attempts among
`ids`. -/
def prune (htlcs : Bucket) (ids : List Bytes) : Bucket :=
  htlcs.restrict (fun k => !pruned htlcs ids k)

/-- None of the three keys of attempt `id` resolves to a nested bucket. -/
def NoBucketAt (htlcs : Bucket) (id : Bytes) : Prop :=
  htlcs.NestedReadBucket (htlcBucketKey htlcFailInfoKey id) = none ∧
  htlcs.NestedReadBucket (htlcBucketKey htlcAttemptInfoKey id) = none ∧
  htlcs.NestedReadBucket (htlcBucketKey htlcSettleInfoKey id) = none

/-- The part of the callback of `MigratePayments` that works on the attempt
collection `htlcs` of payment `hash`: classify, then prune if settled. -/
def migrateHtlcs (σ : Schedule) (hash : Bytes) (htlcs : Bucket) : Bucket × Outcome Unit :=
  match paymentIsSettled (σ.settled hash) htlcs with
  | .panic => (htlcs, .panic)
  | .error e => (htlcs, .error e)
  | .ok false => (htlcs, .ok ())
  | .ok true => deleteFailedHtlcs (σ.delete hash) htlcs

/-- The part of the callback of `MigratePayments` that works on the record
`payment` of payment `hash`. -/
def migrateRecord (σ : Schedule) (hash : Bytes) (payment : Bucket) : Bucket × Outcome Unit :=
  if (payment.Get paymentHtlcsBucket).isSome then
    (payment, .error (.keyMustBeBucket paymentHtlcsBucket))
  else
    match payment.NestedReadWriteBucket paymentHtlcsBucket with
    | none => (payment, .ok ())
    | some htlcs =>
      ((payment.setBucket paymentHtlcsBucket (migrateHtlcs σ hash htlcs).1),
        (migrateHtlcs σ hash htlcs).2)

/-- The record `rec'` is the record `rec` up to deletions in its attempt
collection: either nothing changed, or the payment was settled and its attempt
collection lost entries that all belong to attempts with non-empty fail info. -/
def OnlyPruned (rec rec' : Bucket) : Prop :=
  rec' = rec ∨
    ∃ (h : Bucket) (keep : Bytes → Bool),
      rec.NestedReadWriteBucket paymentHtlcsBucket = some h ∧ Settled h ∧
      rec' = rec.setBucket paymentHtlcsBucket (h.restrict keep) ∧
      ∀ k, keep k = false → ∃ id, Failed h id ∧ inTriple id k = true

/-- The root bucket `ps'` is the root bucket `ps` up to deletions in attempt
collections: the same keys, the same plain values, and every payment record only
pruned. -/
def OnlyPrunedRoot (ps ps' : Bucket) : Prop :=
  ps'.keys = ps.keys ∧
    (∀ hash, ps.NestedReadWriteBucket hash = none → ps'.lookup hash = ps.lookup hash) ∧
    (∀ hash rec, ps.NestedReadWriteBucket hash = some rec →
      ∃ rec', ps'.NestedReadWriteBucket hash = some rec' ∧ OnlyPruned rec rec')

/-- Every key of every attempt collection under the root bucket `ps` has at
least 2 bytes. -/
def LongKeys (ps : Bucket) : Prop :=
  ∀ hash rec htlcs, ps.NestedReadWriteBucket hash = some rec →
    rec.NestedReadWriteBucket paymentHtlcsBucket = some htlcs →
    ∀ k ∈ htlcs.keys, 2 ≤ k.length

/-- Every key of every attempt collection of the transaction `tx` has at least
2 bytes. -/
def TxLongKeys (tx : Bucket) : Prop :=
  ∀ hash htlcs, htlcsOf tx hash = some htlcs → ∀ k ∈ htlcs.keys, 2 ≤ k.length

/-- A check that implies `TxLongKeys`: every entry of every bucket found under
`payment-htlcs-bucket` in a record of the root bucket has a key of at least 2
bytes. -/
def checkLongKeys (tx : Bucket) : Bool :=
  match tx.NestedReadWriteBucket paymentsRootBucket with
  | none => true
  | some ps =>
    ps.all (fun e =>
      match e.2 with
      | .value _ => true
      | .bucket rec =>
        rec.all (fun f =>
          match f.2 with
          | .value _ => true
          | .bucket h => decide (f.1 ≠ paymentHtlcsBucket) || h.all (fun g => decide (2 ≤ g.1.length))))

/-- The ids of the attempt collection `h` that have non-empty fail info. -/
def failedIds (h : Bucket) : List Bytes :=
  (h.keys.map (List.drop 2)).filter
    (fun id => nonEmptyAt h (htlcBucketKey htlcFailInfoKey id))

/-- Some entry directly under the root payments bucket is a plain value. -/
def HasPlainPayment (tx : Bucket) : Prop :=
  ∃ ps hash v, tx.NestedReadWriteBucket paymentsRootBucket = some ps ∧ ps.Get hash = some v

/-- Some payment record holds a plain value under `payment-htlcs-bucket`. -/
def HasPlainAttempts (tx : Bucket) : Prop :=
  ∃ hash rec v, paymentOf tx hash = some rec ∧ rec.Get paymentHtlcsBucket = some v

/-- In the attempt collection `htlcs`, some key `ai`+id, `si`+id or `fi`+id
resolves to a nested bucket. -/
def HasBucketKey (htlcs : Bucket) : Prop :=
  ∃ id, (htlcs.NestedReadBucket (htlcBucketKey htlcAttemptInfoKey id)).isSome = true ∨
    (htlcs.NestedReadBucket (htlcBucketKey htlcSettleInfoKey id)).isSome = true ∨
    (htlcs.NestedReadBucket (htlcBucketKey htlcFailInfoKey id)).isSome = true

/-! ## The stores of `migration_test.go` -/

/-- The value of a hexadecimal digit. -/
def hexVal (c : Char) : Nat :=
  if c.isDigit then c.toNat - 48 else c.toNat - 87

/-- The bytes written by a list of hexadecimal digits. -/
def hexBytes : List Char → Bytes
  | a :: b :: rest => UInt8.ofNat (16 * hexVal a + hexVal b) :: hexBytes rest
  | _ => []

/-- Function `hexStr` (`migtest.Hex`): the bytes written by a hexadecimal
string. -/
def hexStr (s : String) : Bytes := hexBytes s.data

/-- Variable `hash1`. -/
def hash1 : Bytes := hexStr "02acee76ebd53d00824410cf6adecad4f50334dac702bd5a2d3ba01b91709f0e"

/-- Variable `hash2`. -/
def hash2 : Bytes := hexStr "62eb3f0a48f954e495d0c14ac63df04a67cefa59dafdbcd3d5046d1f5647840c"

/-- Variable `hash3`. -/
def hash3 : Bytes := hexStr "99eb3f0a48f954e495d0c14ac63df04af8cefa59dafdbcd3d5046d1f564784d1"

/-- Variable `hash4`. -/
def hash4 : Bytes := hexStr "e312b334ac65ccf950d2411a04f43d7de7143685d87fbf270403433adf2b4961"

/-- Variable `paymentID1`. -/
def paymentID1 : Bytes := hexStr "0000000000000001"

/-- Variable `paymentID2`. -/
def paymentID2 : Bytes := hexStr "0000000000000002"

/-- Variable `attemptID1`. -/
def attemptID1 : Bytes := hexStr "0000000000000001"

/-- Variable `attemptID2`. -/
def attemptID2 : Bytes := hexStr "0000000000000002"

/-- Variable `attemptID3`. -/
def attemptID3 : Bytes := hexStr "0000000000000003"

/-- The attempt collection of `hash2` in `pre`. -/
def preHtlcs2 : Bucket :=
  [(ascii "ai" ++ attemptID2, .value (ascii "ffff")),
   (ascii "ai" ++ attemptID3, .value (ascii "hhhh")),
   (ascii "fi" ++ attemptID2, .value (ascii "gggg")),
   (ascii "si" ++ attemptID3, .value (ascii "iiii"))]

/-- The attempt collection of `hash2` in `post`. -/
def postHtlcs2 : Bucket :=
  [(ascii "ai" ++ attemptID3, .value (ascii "hhhh")),
   (ascii "si" ++ attemptID3, .value (ascii "iiii"))]

/-- The attempt collection of `hash1` in `pre` and in `post`. -/
def preHtlcs1 : Bucket :=
  [(ascii "ai" ++ attemptID1, .value (ascii "cccc")),
   (ascii "fi" ++ attemptID1, .value (ascii "dddd"))]

/-- The record of `hash3` in `pre` and in `post`. -/
def preRecord3 : Bucket :=
  [(ascii "payment-creation-info", .value (ascii "aaaa")),
   (ascii "payment-fail-info", .value (ascii "bbbb")),
   (ascii "payment-sequence-key", .value paymentID1)]

/-- The root bucket of `pre`, the sample snapshot before the migration, in the
order of the keys. -/
def prePayments : Bucket :=
  [(hash1, .bucket
     [(ascii "payment-creation-info", .value (ascii "aaaa")),
      (ascii "payment-fail-info", .value (ascii "bbbb")),
      (ascii "payment-htlcs-bucket", .bucket preHtlcs1),
      (ascii "payment-sequence-key", .value paymentID1)]),
   (hash2, .bucket
     [(ascii "payment-creation-info", .value (ascii "eeee")),
      (ascii "payment-htlcs-bucket", .bucket preHtlcs2),
      (ascii "payment-sequence-key", .value paymentID2)]),
   (hash3, .bucket preRecord3),
   (hash4, .bucket
     [(ascii "payment-creation-info", .value (ascii "cccc")),
      (ascii "payment-htlcs-bucket", .bucket
        [(ascii "ai" ++ attemptID1, .value (ascii "eeee")),
         (ascii "fi" ++ attemptID1, .value (ascii "gggg")),
         (ascii "si" ++ attemptID1, .value (ascii "ffff"))]),
      (ascii "payment-sequence-key", .value paymentID2)])]

/-- The root bucket of `post`, the expected data after the migration. -/
def postPayments : Bucket :=
  [(hash1, .bucket
     [(ascii "payment-creation-info", .value (ascii "aaaa")),
      (ascii "payment-fail-info", .value (ascii "bbbb")),
      (ascii "payment-htlcs-bucket", .bucket preHtlcs1),
      (ascii "payment-sequence-key", .value paymentID1)]),
   (hash2, .bucket
     [(ascii "payment-creation-info", .value (ascii "eeee")),
      (ascii "payment-htlcs-bucket", .bucket postHtlcs2),
      (ascii "payment-sequence-key", .value paymentID2)]),
   (hash3, .bucket preRecord3),
   (hash4, .bucket
     [(ascii "payment-creation-info", .value (ascii "cccc")),
      (ascii "payment-htlcs-bucket", .bucket []),
      (ascii "payment-sequence-key", .value paymentID2)])]

/-- The store `failing1`: a payment hash that points to a value. -/
def failing1 : Bucket :=
  [(paymentsRootBucket, .bucket [(hash1, .value (ascii "bogus"))])]

/-- The attempt collection of `hash1` in `failing5`. -/
def failing5Htlcs : Bucket :=
  [(ascii "ai" ++ attemptID1, .value (ascii "cccc")),
   (ascii "fi" ++ attemptID2, .bucket []),
   (ascii "si" ++ attemptID1, .value (ascii "dddd"))]

/-- The store `failing5`: the fail info of an attempt is a bucket. -/
def failing5 : Bucket :=
  [(paymentsRootBucket, .bucket
    [(hash1, .bucket
      [(ascii "payment-creation-info", .value (ascii "aaaa")),
       (ascii "payment-fail-info", .value (ascii "bbbb")),
       (ascii "payment-htlcs-bucket", .bucket failing5Htlcs),
       (ascii "payment-sequence-key", .value paymentID1)])])]

/-- A store in which the payment `hash1` has an attempt key of 1 byte and the
entry `hash2` of the root bucket is a plain value. -/
def shortKeyThenPlain : Bucket :=
  [(paymentsRootBucket, .bucket
    [(hash1, .bucket [(ascii "payment-htlcs-bucket", .bucket [(ascii "x", .value (ascii "v"))])]),
     (hash2, .value (ascii "bogus"))])]

/-- The store `failing3` without the settle info: the attempt info of an attempt
of an unsettled payment is a bucket. -/
def unsettledBucketKey : Bucket :=
  [(paymentsRootBucket, .bucket
    [(hash1, .bucket
      [(ascii "payment-creation-info", .value (ascii "aaaa")),
       (ascii "payment-fail-info", .value (ascii "bbbb")),
       (ascii "payment-htlcs-bucket", .bucket
         [(ascii "ai" ++ attemptID2, .bucket []),
          (ascii "fi" ++ attemptID2, .value (ascii "dddd"))]),
       (ascii "payment-sequence-key", .value paymentID1)])])]

/-- A store in which the payment `hash1` has an attempt key of 1 byte and the
settle info of an attempt of the payment `hash2` is a bucket. -/
def shortKeyThenBucket : Bucket :=
  [(paymentsRootBucket, .bucket
    [(hash1, .bucket [(ascii "payment-htlcs-bucket", .bucket [(ascii "x", .value (ascii "v"))])]),
     (hash2, .bucket
       [(ascii "payment-htlcs-bucket", .bucket [(ascii "si" ++ attemptID1, .bucket [])])])])]

/-- The attempt collection of `hash1` in `settledThenPlain`. -/
def settledHtlcs : Bucket :=
  [(ascii "fi" ++ attemptID1, .value (ascii "dddd")),
   (ascii "si" ++ attemptID1, .value (ascii "cccc"))]

/-- A store in which the payment `hash1` is settled with a failed attempt and
the entry `hash2` of the root bucket is a plain value. -/
def settledThenPlain : Bucket :=
  [(paymentsRootBucket, .bucket
    [(hash1, .bucket [(ascii "payment-htlcs-bucket", .bucket settledHtlcs)]),
     (hash2, .value (ascii "bogus"))])]

/-- The store `settledThenPlain` as `MigratePayments` leaves it when it returns
its error. -/
def settledThenPlainAfter : Bucket :=
  [(paymentsRootBucket, .bucket
    [(hash1, .bucket [(ascii "payment-htlcs-bucket", .bucket [])]),
     (hash2, .value (ascii "bogus"))])]

/-- The transaction after `RestoreDB(tx, paymentsRootBucket, pre)`. -/
def pre : Bucket := [(paymentsRootBucket, .bucket prePayments)]

/-- The transaction that `VerifyDB(tx, paymentsRootBucket, post)` accepts. -/
def post : Bucket := [(paymentsRootBucket, .bucket postPayments)]

/-- An attempt collection in which the settle info of attempt 1 is a bucket and
the settle info of attempt 2 is a non-empty value. -/
def bucketAndSettled : Bucket :=
  [(ascii "si" ++ attemptID1, .bucket []),
   (ascii "si" ++ attemptID2, .value (ascii "cccc"))]

/-- The store `failing2`: the key `payment-htlcs-bucket` points to a value. -/
def failing2 : Bucket :=
  [(paymentsRootBucket, .bucket
    [(hash1, .bucket [(ascii "payment-htlcs-bucket", .value (ascii "bogus"))])])]

/-- What the callback of `MigratePayments` makes of an entry of the root bucket
when it succeeds on it. -/
def migrateEntry (σ : Schedule) (e : Bytes × Node) : Bytes × Node :=
  match e.2 with
  | .bucket rec => (e.1, .bucket (migrateRecord σ e.1 rec).1)
  | .value _ => e

/-- The transaction whose root bucket holds the single payment `hash` with the
record `rec`. -/
def singlePayment (hash : Bytes) (rec : Bucket) : Bucket :=
  [(paymentsRootBucket, .bucket [(hash, .bucket rec)])]

/-- The record of `hash2` in `pre`. -/
def preRecord2 : Bucket :=
  [(ascii "payment-creation-info", .value (ascii "eeee")),
   (ascii "payment-htlcs-bucket", .bucket preHtlcs2),
   (ascii "payment-sequence-key", .value paymentID2)]

/-- The record of `hash2` in `post`. -/
def postRecord2 : Bucket :=
  [(ascii "payment-creation-info", .value (ascii "eeee")),
   (ascii "payment-htlcs-bucket", .bucket postHtlcs2),
   (ascii "payment-sequence-key", .value paymentID2)]

/-! ## The store operations issued by the migration -/

/-- The bucket handles of the migration: `payments`, the root bucket, and `htlcs`,
the attempt collection of the payment `hash`. -/
inductive Handle where
  | payments : Handle
  | htlcs (hash : Bytes) : Handle
  deriving DecidableEq

/-- The store operations that matter for cursors: the start of a `ForEach` over a
bucket, its return, and a `Delete` on a bucket. -/
inductive StoreOp where
  | forEachBegin (b : Handle) : StoreOp
  | forEachEnd (b : Handle) : StoreOp
  | delete (b : Handle) (key : Bytes) : StoreOp
  deriving DecidableEq

/-- Function `paymentIsSettled` on the handle `b`, with the operations it issues:
the `ForEach` does not return when its callback panics. -/
def paymentIsSettledT (b : Handle) (ord : RangeOrder) (htlcs : Bucket) :
    Outcome Bool × List StoreOp :=
  match collectAids htlcs [] with
  | none => (.panic, [.forEachBegin b])
  | some aids => (settledLoop htlcs (ord aids), [.forEachBegin b, .forEachEnd b])

/-- The loop `for aid := range aids` of `deleteFailedHtlcs` on the handle `b`, with
the operations it issues. -/
def deleteLoopT (b : Handle) : Bucket → List Bytes → (Bucket × Outcome Unit) × List StoreOp
  | htlcs, [] => ((htlcs, .ok ()), [])
  | htlcs, aid :: rest =>
    let failInfoBucketKey := htlcBucketKey htlcFailInfoKey aid
    let attemptInfoBucketKey := htlcBucketKey htlcAttemptInfoKey aid
    let settleInfoBucketKey := htlcBucketKey htlcSettleInfoKey aid
    if (htlcs.NestedReadBucket failInfoBucketKey).isSome then
      ((htlcs, .error (.keyMustNotBeBucket failInfoBucketKey)), [])
    else if (htlcs.NestedReadBucket attemptInfoBucketKey).isSome then
      ((htlcs, .error (.keyMustNotBeBucket attemptInfoBucketKey)), [])
    else if (htlcs.NestedReadBucket settleInfoBucketKey).isSome then
      ((htlcs, .error (.keyMustNotBeBucket settleInfoBucketKey)), [])
    else
      let failInfo := (htlcs.Get failInfoBucketKey).getD []
      if 0 < failInfo.length then
        match htlcs.Delete failInfoBucketKey with
        | .error e => ((htlcs, .error e), [.delete b failInfoBucketKey])
        | .ok h1 =>
          match h1.Delete attemptInfoBucketKey with
          | .error e =>
            ((h1, .error e), [.delete b failInfoBucketKey, .delete b attemptInfoBucketKey])
          | .ok h2 =>
            match h2.Delete settleInfoBucketKey with
            | .error e =>
              ((h2, .error e), [.delete b failInfoBucketKey, .delete b attemptInfoBucketKey,
                .delete b settleInfoBucketKey])
            | .ok h3 =>
              ((deleteLoopT b h3 rest).1,
                [.delete b failInfoBucketKey, .delete b attemptInfoBucketKey,
                  .delete b settleInfoBucketKey] ++ (deleteLoopT b h3 rest).2)
      else deleteLoopT b htlcs rest

/-- Function `deleteFailedHtlcs` on the handle `b`, with the operations it
issues. -/
def deleteFailedHtlcsT (b : Handle) (ord : RangeOrder) (htlcs : Bucket) :
    (Bucket × Outcome Unit) × List StoreOp :=
  match collectAids htlcs [] with
  | none => ((htlcs, .panic), [.forEachBegin b])
  | some aids =>
    ((deleteLoopT b htlcs (ord aids)).1,
      [.forEachBegin b, .forEachEnd b] ++ (deleteLoopT b htlcs (ord aids)).2)

/-- The callback of `payments.ForEach` in `MigratePayments`, with the operations
it issues. -/
def migratePaymentT (σ : Schedule) (payments : Bucket) (hash : Bytes) :
    (Bucket × Outcome Unit) × List StoreOp :=
  match payments.NestedReadWriteBucket hash with
  | none => ((payments, .error (.keyMustBeBucket paymentsRootBucket)), [])
  | some payment =>
    if (payment.Get paymentHtlcsBucket).isSome then
      ((payments, .error (.keyMustBeBucket paymentHtlcsBucket)), [])
    else
      match payment.NestedReadWriteBucket paymentHtlcsBucket with
      | none => ((payments, .ok ()), [])
      | some htlcs =>
        match (paymentIsSettledT (.htlcs hash) (σ.settled hash) htlcs).1 with
        | .panic =>
          ((payments, .panic), (paymentIsSettledT (.htlcs hash) (σ.settled hash) htlcs).2)
        | .error e =>
          ((payments, .error e), (paymentIsSettledT (.htlcs hash) (σ.settled hash) htlcs).2)
        | .ok false =>
          ((payments, .ok ()), (paymentIsSettledT (.htlcs hash) (σ.settled hash) htlcs).2)
        | .ok true =>
          let r := deleteFailedHtlcsT (.htlcs hash) (σ.delete hash) htlcs
          ((payments.setBucket hash (payment.setBucket paymentHtlcsBucket r.1.1), r.1.2),
            (paymentIsSettledT (.htlcs hash) (σ.settled hash) htlcs).2 ++ r.2)

/-- The calls of the callback by `payments.ForEach(...)`, over the keys still to
visit, with the operations they issue. -/
def forEachPaymentT (σ : Schedule) : List Bytes → Bucket → (Bucket × Outcome Unit) × List StoreOp
  | [], payments => ((payments, .ok ()), [])
  | hash :: rest, payments =>
    match (migratePaymentT σ payments hash).1.2 with
    | .ok () =>
      ((forEachPaymentT σ rest (migratePaymentT σ payments hash).1.1).1,
        (migratePaymentT σ payments hash).2 ++
          (forEachPaymentT σ rest (migratePaymentT σ payments hash).1.1).2)
    | _ => migratePaymentT σ payments hash

/-- Function `MigratePayments`, with the operations it issues: the `ForEach` over
the root bucket returns unless the callback panics. -/
def MigratePaymentsT (σ : Schedule) (tx : Bucket) : (Bucket × Outcome Unit) × List StoreOp :=
  match tx.NestedReadWriteBucket paymentsRootBucket with
  | none => ((tx, .ok ()), [])
  | some payments =>
    let r := forEachPaymentT σ payments.keys payments
    ((tx.setBucket paymentsRootBucket r.1.1, r.1.2),
      StoreOp.forEachBegin .payments :: r.2 ++
        (if r.1.2 = .panic then [] else [StoreOp.forEachEnd .payments]))

/-- The number of `ForEach` over the bucket `b` started in the operations `t`. -/
def started (b : Handle) (t : List StoreOp) : Nat := t.count (.forEachBegin b)

/-- The number of `ForEach` over the bucket `b` that returned in the operations
`t`. -/
def completed (b : Handle) (t : List StoreOp) : Nat := t.count (.forEachEnd b)

/-- Every `Delete` on a bucket is issued when a `ForEach` over that bucket has
returned and none is in progress. -/
def DeletesAfterTraversal (t : List StoreOp) : Prop :=
  ∀ pre post b k, t = pre ++ StoreOp.delete b k :: post →
    completed b pre = started b pre ∧ 0 < completed b pre

/-- The entry `en'` of the root bucket is the entry `en` up to deletions in an
attempt collection: either it is the same entry, or `en` holds the record of a
settled payment and `en'` holds, under the same key, that record with an attempt
collection that lost only entries `ai`+id, `si`+id or `fi`+id of attempts with
non-empty fail info. -/
def PrunedEntry (en en' : Bytes × Node) : Prop :=
  en' = en ∨
    ∃ (rec htlcs : Bucket) (keep : Bytes → Bool),
      en.2 = .bucket rec ∧
      rec.NestedReadWriteBucket paymentHtlcsBucket = some htlcs ∧ Settled htlcs ∧
      en' = (en.1, .bucket (rec.setBucket paymentHtlcsBucket (htlcs.restrict keep))) ∧
      ∀ k, keep k = false →
        ∃ id, Failed htlcs id ∧ (k = htlcBucketKey htlcAttemptInfoKey id ∨
          k = htlcBucketKey htlcSettleInfoKey id ∨ k = htlcBucketKey htlcFailInfoKey id)

/-! ## Basic facts about buckets -/

section Basic

theorem lookup_cons (k' : Bytes) (n : Node) (rest : Bucket) (k : Bytes) :
    Bucket.lookup ((k', n) :: rest) k = if k' = k then some n else Bucket.lookup rest k := rfl

theorem lookup_filter (b : Bucket) (P : Bytes → Bool) (k : Bytes) :
    Bucket.lookup (b.filter (fun e => P e.1)) k = if P k then b.lookup k else none := by
  induction b with
  | nil => simp [Bucket.lookup]
  | cons e rest ih =>
    obtain ⟨k', n⟩ := e
    by_cases hP : P k' = true
    · rw [List.filter_cons_of_pos (by simpa using hP), lookup_cons, lookup_cons, ih]
      by_cases hk : k' = k
      · subst hk; simp [hP]
      · simp [hk]
    · rw [List.filter_cons_of_neg (by simpa using hP), lookup_cons, ih]
      by_cases hk : k' = k
      · subst hk; simp [hP]
      · simp [hk]

theorem lookup_mem_keys {b : Bucket} {k : Bytes} {n : Node} (h : b.lookup k = some n) :
    k ∈ b.keys := by
  induction b with
  | nil => simp [Bucket.lookup] at h
  | cons e rest ih =>
    obtain ⟨k', n'⟩ := e
    rw [lookup_cons] at h
    by_cases hk : k' = k
    · simp [Bucket.keys, hk]
    · simp only [hk, if_false] at h
      have := ih h
      simp [Bucket.keys] at this ⊢
      exact Or.inr this

theorem keys_setBucket (b : Bucket) (k : Bytes) (nb : Bucket) :
    (b.setBucket k nb).keys = b.keys := by
  induction b with
  | nil => rfl
  | cons e rest ih =>
    obtain ⟨k', n⟩ := e
    by_cases hk : k' = k
    · simp [Bucket.setBucket, hk, Bucket.keys]
    · simp only [Bucket.setBucket, hk, if_false]
      simp only [Bucket.keys, List.map_cons] at ih ⊢
      rw [ih]

theorem lookup_setBucket_ne (b : Bucket) {k k' : Bytes} (nb : Bucket) (h : k' ≠ k) :
    (b.setBucket k nb).lookup k' = b.lookup k' := by
  induction b with
  | nil => rfl
  | cons e rest ih =>
    obtain ⟨k0, n⟩ := e
    by_cases hk : k0 = k
    · subst hk
      have : ¬ k0 = k' := fun h' => h h'.symm
      simp [Bucket.setBucket, lookup_cons, this]
    · simp only [Bucket.setBucket, hk, if_false, lookup_cons, ih]

theorem lookup_setBucket_self (b : Bucket) (k : Bytes) (nb : Bucket) :
    (b.setBucket k nb).lookup k = (b.lookup k).map (fun _ => Node.bucket nb) := by
  induction b with
  | nil => rfl
  | cons e rest ih =>
    obtain ⟨k0, n⟩ := e
    by_cases hk : k0 = k
    · simp [Bucket.setBucket, lookup_cons, hk]
    · simp only [Bucket.setBucket, hk, if_false, lookup_cons, ih]

theorem setBucket_self {b : Bucket} {k : Bytes} {nb : Bucket}
    (h : b.lookup k = some (.bucket nb)) : b.setBucket k nb = b := by
  induction b with
  | nil => rfl
  | cons e rest ih =>
    obtain ⟨k0, n⟩ := e
    rw [lookup_cons] at h
    by_cases hk : k0 = k
    · simp only [hk, if_true, Option.some.injEq] at h
      simp [Bucket.setBucket, hk, h]
    · simp only [hk, if_false] at h
      simp only [Bucket.setBucket, hk, if_false, ih h]

theorem setBucket_setBucket (b : Bucket) (k : Bytes) (nb nb' : Bucket) :
    (b.setBucket k nb).setBucket k nb' = b.setBucket k nb' := by
  induction b with
  | nil => rfl
  | cons e rest ih =>
    obtain ⟨k0, n⟩ := e
    by_cases hk : k0 = k
    · simp [Bucket.setBucket, hk]
    · simp only [Bucket.setBucket, hk, if_false, ih]

theorem nested_eq_some {b : Bucket} {k : Bytes} {nb : Bucket} :
    b.NestedReadWriteBucket k = some nb ↔ b.lookup k = some (.bucket nb) := by
  unfold Bucket.NestedReadWriteBucket
  split
  · next es h => simp [h]
  · next h =>
    constructor
    · intro h'; simp at h'
    · intro h'; exact absurd h' (h nb)

theorem nested_eq_none {b : Bucket} {k : Bytes} :
    b.NestedReadWriteBucket k = none ↔ ∀ nb, b.lookup k ≠ some (.bucket nb) := by
  unfold Bucket.NestedReadWriteBucket
  split
  · next es h => simp [h]
  · next h => simp; exact h

theorem get_eq_some {b : Bucket} {k v : Bytes} :
    b.Get k = some v ↔ b.lookup k = some (.value v) := by
  unfold Bucket.Get
  split
  · next v' h => simp [h]
  · next h =>
    constructor
    · intro h'; simp at h'
    · intro h'; exact absurd h' (h v)

theorem nested_setBucket_self {b : Bucket} {k : Bytes} {nb0 : Bucket} (nb : Bucket)
    (h : b.NestedReadWriteBucket k = some nb0) :
    (b.setBucket k nb).NestedReadWriteBucket k = some nb := by
  rw [nested_eq_some] at h ⊢
  rw [lookup_setBucket_self, h]; rfl

theorem nested_setBucket_ne (b : Bucket) {k k' : Bytes} (nb : Bucket) (h : k' ≠ k) :
    (b.setBucket k nb).NestedReadWriteBucket k' = b.NestedReadWriteBucket k' := by
  unfold Bucket.NestedReadWriteBucket
  rw [lookup_setBucket_ne b nb h]

end Basic

/-! ## Keys -/

section Keys

theorem htlcBucketKey_eq (pfx id : Bytes) : htlcBucketKey pfx id = pfx ++ id := by
  simp [htlcBucketKey, copy, List.take_append_eq_append_take, List.drop_append_eq_append_drop,
    List.take_replicate, List.drop_replicate]

theorem failKey_val : htlcFailInfoKey = [102, 105] := by decide

theorem attemptKey_val : htlcAttemptInfoKey = [97, 105] := by decide

theorem settleKey_val : htlcSettleInfoKey = [115, 105] := by decide

theorem getAttemptId_eq_some {k id : Bytes} :
    getAttemptIdFromHtlcBucketKey k = some id ↔ 2 ≤ k.length ∧ k.drop 2 = id := by
  unfold getAttemptIdFromHtlcBucketKey
  split <;> simp_all

theorem getAttemptId_eq_none {k : Bytes} :
    getAttemptIdFromHtlcBucketKey k = none ↔ k.length < 2 := by
  unfold getAttemptIdFromHtlcBucketKey
  split <;> simp_all

end Keys

/-! ## Restricting a bucket -/

section Restrict

theorem lookup_restrict (b : Bucket) (P : Bytes → Bool) (k : Bytes) :
    (b.restrict P).lookup k = if P k then b.lookup k else none :=
  lookup_filter b P k

theorem restrict_restrict (b : Bucket) (P Q : Bytes → Bool) :
    (b.restrict P).restrict Q = b.restrict (fun k => P k && Q k) := by
  simp [Bucket.restrict, List.filter_filter, Bool.and_comm]

theorem restrict_congr (b : Bucket) {P Q : Bytes → Bool} (h : ∀ k, P k = Q k) :
    b.restrict P = b.restrict Q := by
  have : P = Q := funext h
  rw [this]

theorem restrict_true (b : Bucket) {P : Bytes → Bool} (h : ∀ k ∈ b.keys, P k = true) :
    b.restrict P = b := by
  unfold Bucket.restrict
  rw [List.filter_eq_self]
  intro e he
  exact h e.1 (List.mem_map_of_mem _ he)

theorem nested_restrict (b : Bucket) (P : Bytes → Bool) (k : Bytes) :
    (b.restrict P).NestedReadWriteBucket k = if P k then b.NestedReadWriteBucket k else none := by
  unfold Bucket.NestedReadWriteBucket
  rw [lookup_restrict]
  by_cases h : P k = true <;> simp [h]

theorem get_restrict (b : Bucket) (P : Bytes → Bool) (k : Bytes) :
    (b.restrict P).Get k = if P k then b.Get k else none := by
  unfold Bucket.Get
  rw [lookup_restrict]
  by_cases h : P k = true <;> simp [h]

theorem keys_restrict_subset (b : Bucket) (P : Bytes → Bool) :
    ∀ k ∈ (b.restrict P).keys, k ∈ b.keys := by
  intro k hk
  simp only [Bucket.keys, Bucket.restrict, List.mem_map, List.mem_filter] at hk ⊢
  obtain ⟨e, ⟨he, _⟩, rfl⟩ := hk
  exact ⟨e, he, rfl⟩

theorem delete_ok {b : Bucket} {k : Bytes} (h : b.NestedReadBucket k = none) :
    b.Delete k = .ok (b.restrict (fun k' => decide (k' ≠ k))) := by
  unfold Bucket.Delete
  split
  · next es hl =>
    have := (nested_eq_none.mp h) es
    exact absurd hl this
  · rfl

end Restrict

/-! ## Attempt keys -/

section Triple

theorem inTriple_iff (id k : Bytes) :
    inTriple id k = true ↔ k = htlcFailInfoKey ++ id ∨ k = htlcAttemptInfoKey ++ id ∨
      k = htlcSettleInfoKey ++ id := by
  simp [inTriple, htlcBucketKey_eq]

theorem inTriple_failKey (id id' : Bytes) :
    inTriple id (htlcBucketKey htlcFailInfoKey id') = decide (id' = id) := by
  simp [inTriple, htlcBucketKey_eq, failKey_val, attemptKey_val, settleKey_val]

theorem inTriple_settleKey (id id' : Bytes) :
    inTriple id (htlcBucketKey htlcSettleInfoKey id') = decide (id' = id) := by
  simp [inTriple, htlcBucketKey_eq, failKey_val, attemptKey_val, settleKey_val]

theorem inTriple_attemptKey (id id' : Bytes) :
    inTriple id (htlcBucketKey htlcAttemptInfoKey id') = decide (id' = id) := by
  simp [inTriple, htlcBucketKey_eq, failKey_val, attemptKey_val, settleKey_val]

theorem inTriple_drop {id k : Bytes} (h : inTriple id k = true) : 2 ≤ k.length ∧ k.drop 2 = id := by
  rw [inTriple_iff] at h
  rcases h with h | h | h <;> subst h <;>
    simp [failKey_val, attemptKey_val, settleKey_val]

theorem inTriple_unique {id id' k : Bytes} (h : inTriple id k = true) (h' : inTriple id' k = true) :
    id = id' := by
  rw [← (inTriple_drop h).2, ← (inTriple_drop h').2]

end Triple

/-! ## The loop of `deleteFailedHtlcs` -/

section DeleteLoop

theorem nested_restrict_of_noBucket {h : Bucket} {P : Bytes → Bool}
    (hP : ∀ k, P k = false → h.NestedReadBucket k = none) (k : Bytes) :
    (h.restrict P).NestedReadBucket k = h.NestedReadBucket k := by
  unfold Bucket.NestedReadBucket at *
  rw [nested_restrict]
  by_cases hk : P k = true
  · simp [hk]
  · have hk' : P k = false := by simpa using hk
    simp [hk', hP k hk']

theorem nested_dropTriple {h : Bucket} {id : Bytes} (hnb : NoBucketAt h id) (k : Bytes) :
    (h.restrict (fun k => !inTriple id k)).NestedReadBucket k = h.NestedReadBucket k := by
  apply nested_restrict_of_noBucket
  intro k' hk'
  have hk2 : inTriple id k' = true := by simpa using hk'
  rw [inTriple_iff] at hk2
  obtain ⟨h1, h2, h3⟩ := hnb
  rw [htlcBucketKey_eq] at h1 h2 h3
  rcases hk2 with e | e | e <;> subst e <;> assumption

theorem noBucketAt_dropTriple {h : Bucket} {id : Bytes} (hnb : NoBucketAt h id) (id' : Bytes) :
    NoBucketAt (h.restrict (fun k => !inTriple id k)) id' ↔ NoBucketAt h id' := by
  unfold NoBucketAt
  rw [nested_dropTriple hnb, nested_dropTriple hnb, nested_dropTriple hnb]

theorem deleteLoop_nil (h : Bucket) : deleteLoop h [] = (h, .ok ()) := rfl

theorem deleteLoop_cons_failed {h : Bucket} {id : Bytes} (rest : List Bytes)
    (hnb : NoBucketAt h id) (hf : nonEmptyAt h (htlcBucketKey htlcFailInfoKey id) = true) :
    deleteLoop h (id :: rest) = deleteLoop (h.restrict (fun k => !inTriple id k)) rest := by
  obtain ⟨h1, h2, h3⟩ := hnb
  have hf' : 0 < ((h.Get (htlcBucketKey htlcFailInfoKey id)).getD []).length := by
    simpa [nonEmptyAt] using hf
  have d1 := delete_ok h1
  have h2' : (h.restrict (fun k' => decide (k' ≠ htlcBucketKey htlcFailInfoKey id))).NestedReadBucket
      (htlcBucketKey htlcAttemptInfoKey id) = none := by
    unfold Bucket.NestedReadBucket at *
    rw [nested_restrict, h2]; simp
  have d2 := delete_ok h2'
  rw [restrict_restrict] at d2
  have h3' : (h.restrict (fun k => decide (k ≠ htlcBucketKey htlcFailInfoKey id) &&
      decide (k ≠ htlcBucketKey htlcAttemptInfoKey id))).NestedReadBucket
      (htlcBucketKey htlcSettleInfoKey id) = none := by
    unfold Bucket.NestedReadBucket at *
    rw [nested_restrict, h3]; simp
  have d3 := delete_ok h3'
  rw [restrict_restrict] at d3
  have e : (fun k => (decide (k ≠ htlcBucketKey htlcFailInfoKey id) &&
      decide (k ≠ htlcBucketKey htlcAttemptInfoKey id)) &&
      decide (k ≠ htlcBucketKey htlcSettleInfoKey id)) = (fun k => !inTriple id k) := by
    funext k
    simp [inTriple, Bool.and_assoc]
  rw [e] at d3
  rw [deleteLoop]
  simp only [h1, h2, h3, Option.isSome_none, Bool.false_eq_true, if_false, hf', if_true, d1]
  simp only [d2, d3]

theorem deleteLoop_cons_skip {h : Bucket} {id : Bytes} (rest : List Bytes)
    (hnb : NoBucketAt h id) (hf : nonEmptyAt h (htlcBucketKey htlcFailInfoKey id) = false) :
    deleteLoop h (id :: rest) = deleteLoop h rest := by
  obtain ⟨h1, h2, h3⟩ := hnb
  have hf' : ¬ 0 < ((h.Get (htlcBucketKey htlcFailInfoKey id)).getD []).length := by
    simpa [nonEmptyAt] using hf
  rw [deleteLoop]
  simp only [h1, h2, h3, Option.isSome_none, Bool.false_eq_true, if_false, hf']

theorem deleteLoop_cons_bad {h : Bucket} {id : Bytes} (rest : List Bytes)
    (hnb : ¬ NoBucketAt h id) :
    ∃ k, inTriple id k = true ∧ (h.NestedReadBucket k).isSome = true ∧
      deleteLoop h (id :: rest) = (h, .error (.keyMustNotBeBucket k)) := by
  by_cases h1 : (h.NestedReadBucket (htlcBucketKey htlcFailInfoKey id)).isSome = true
  · refine ⟨_, ?_, h1, ?_⟩
    · simp [inTriple]
    · rw [deleteLoop]; simp only [h1, if_true]
  · by_cases h2 : (h.NestedReadBucket (htlcBucketKey htlcAttemptInfoKey id)).isSome = true
    · refine ⟨_, ?_, h2, ?_⟩
      · simp [inTriple]
      · rw [deleteLoop]; simp [h1, h2]
    · by_cases h3 : (h.NestedReadBucket (htlcBucketKey htlcSettleInfoKey id)).isSome = true
      · refine ⟨_, ?_, h3, ?_⟩
        · simp [inTriple]
        · rw [deleteLoop]; simp [h1, h2, h3]
      · exfalso
        apply hnb
        simp only [Option.isSome_iff_ne_none, ne_eq, not_not] at h1 h2 h3
        exact ⟨h1, h2, h3⟩

theorem prune_nil (h : Bucket) : prune h [] = h := by
  unfold prune
  apply restrict_true
  intro k _
  simp [pruned]

theorem pruned_cons (h : Bucket) (id : Bytes) (rest : List Bytes) (k : Bytes) :
    pruned h (id :: rest) k =
      ((nonEmptyAt h (htlcBucketKey htlcFailInfoKey id) && inTriple id k) || pruned h rest k) := by
  simp [pruned]

theorem pruned_iff (h : Bucket) (ids : List Bytes) (k : Bytes) :
    pruned h ids k = true ↔
      ∃ id ∈ ids, nonEmptyAt h (htlcBucketKey htlcFailInfoKey id) = true ∧ inTriple id k = true := by
  simp [pruned]

theorem prune_cons_skip {h : Bucket} {id : Bytes} (rest : List Bytes)
    (hf : nonEmptyAt h (htlcBucketKey htlcFailInfoKey id) = false) :
    prune h (id :: rest) = prune h rest := by
  unfold prune
  apply restrict_congr
  intro k
  rw [pruned_cons, hf]; simp

theorem nonEmptyAt_dropTriple (h : Bucket) {id id' : Bytes} (hne : id' ≠ id) :
    nonEmptyAt (h.restrict (fun k => !inTriple id k)) (htlcBucketKey htlcFailInfoKey id') =
      nonEmptyAt h (htlcBucketKey htlcFailInfoKey id') := by
  unfold nonEmptyAt
  rw [get_restrict, inTriple_failKey]
  simp [hne]

theorem nonEmptyAt_dropTriple_self (h : Bucket) (id : Bytes) :
    nonEmptyAt (h.restrict (fun k => !inTriple id k)) (htlcBucketKey htlcFailInfoKey id) = false := by
  unfold nonEmptyAt
  rw [get_restrict, inTriple_failKey]
  simp

theorem prune_cons_failed {h : Bucket} {id : Bytes} (rest : List Bytes)
    (hf : nonEmptyAt h (htlcBucketKey htlcFailInfoKey id) = true) :
    prune (h.restrict (fun k => !inTriple id k)) rest = prune h (id :: rest) := by
  unfold prune
  rw [restrict_restrict]
  apply restrict_congr
  intro k
  rw [pruned_cons, hf]
  by_cases hk : inTriple id k = true
  · simp [hk]
  · have hk' : inTriple id k = false := by simpa using hk
    have e : pruned (h.restrict (fun k => !inTriple id k)) rest k = pruned h rest k := by
      rw [Bool.eq_iff_iff, pruned_iff, pruned_iff]
      constructor
      · rintro ⟨id', hm, h1, h2⟩
        have hne : id' ≠ id := by
          rintro rfl; rw [hk'] at h2; exact Bool.noConfusion h2
        rw [nonEmptyAt_dropTriple h hne] at h1
        exact ⟨id', hm, h1, h2⟩
      · rintro ⟨id', hm, h1, h2⟩
        have hne : id' ≠ id := by
          rintro rfl; rw [hk'] at h2; exact Bool.noConfusion h2
        rw [← nonEmptyAt_dropTriple h hne] at h1
        exact ⟨id', hm, h1, h2⟩
    rw [e, hk']; simp

/-- What the loop of `deleteFailedHtlcs` does: it visits an initial segment `done`
of the ids, none of which has a bucket under one of its keys, prunes the failed
attempts among them, and either reaches the end or stops with the error of the
first id that has a bucket under one of its keys. -/
theorem deleteLoop_spec (ids : List Bytes) (h : Bucket) :
    ∃ done, done <+: ids ∧ (∀ id ∈ done, NoBucketAt h id) ∧
      (deleteLoop h ids).1 = prune h done ∧
      (((deleteLoop h ids).2 = .ok () ∧ done = ids) ∨
        (∃ id ∈ ids, ∃ k, inTriple id k = true ∧ (h.NestedReadBucket k).isSome = true ∧
          (deleteLoop h ids).2 = .error (.keyMustNotBeBucket k))) := by
  induction ids generalizing h with
  | nil => exact ⟨[], List.prefix_refl _, by simp, by rw [prune_nil]; rfl, Or.inl ⟨rfl, rfl⟩⟩
  | cons id rest ih =>
    by_cases hnb : NoBucketAt h id
    · cases hf : nonEmptyAt h (htlcBucketKey htlcFailInfoKey id) with
      | true =>
        rw [deleteLoop_cons_failed rest hnb hf]
        obtain ⟨done, hpre, hall, hst, hout⟩ := ih (h.restrict (fun k => !inTriple id k))
        refine ⟨id :: done, ?_, ?_, ?_, ?_⟩
        · exact (List.prefix_cons_inj id).mpr hpre
        · intro id' hm
          rcases List.mem_cons.mp hm with rfl | hm
          · exact hnb
          · exact (noBucketAt_dropTriple hnb id').mp (hall id' hm)
        · rw [hst, prune_cons_failed done hf]
        · rcases hout with ⟨hok, hd⟩ | ⟨id', hm, k, hk, hb, he⟩
          · exact Or.inl ⟨hok, by rw [hd]⟩
          · refine Or.inr ⟨id', List.mem_cons_of_mem _ hm, k, hk, ?_, he⟩
            rw [← nested_dropTriple hnb]; exact hb
      | false =>
        rw [deleteLoop_cons_skip rest hnb hf]
        obtain ⟨done, hpre, hall, hst, hout⟩ := ih h
        refine ⟨id :: done, ?_, ?_, ?_, ?_⟩
        · exact (List.prefix_cons_inj id).mpr hpre
        · intro id' hm
          rcases List.mem_cons.mp hm with rfl | hm
          · exact hnb
          · exact hall id' hm
        · rw [hst, prune_cons_skip done hf]
        · rcases hout with ⟨hok, hd⟩ | ⟨id', hm, k, hk, hb, he⟩
          · exact Or.inl ⟨hok, by rw [hd]⟩
          · exact Or.inr ⟨id', List.mem_cons_of_mem _ hm, k, hk, hb, he⟩
    · obtain ⟨k, hk, hb, he⟩ := deleteLoop_cons_bad rest hnb
      refine ⟨[], List.nil_prefix, by simp, ?_, Or.inr ⟨id, List.mem_cons_self _ _, k, hk, hb, ?_⟩⟩
      · rw [he, prune_nil]
      · rw [he]

theorem deleteLoop_ok {ids : List Bytes} {h : Bucket} (hall : ∀ id ∈ ids, NoBucketAt h id) :
    deleteLoop h ids = (prune h ids, .ok ()) := by
  obtain ⟨done, _, _, hst, hout⟩ := deleteLoop_spec ids h
  rcases hout with ⟨hok, hd⟩ | ⟨id, hm, k, hk, hb, _⟩
  · subst hd
    exact Prod.ext hst hok
  · exfalso
    obtain ⟨h1, h2, h3⟩ := hall id hm
    rw [htlcBucketKey_eq] at h1 h2 h3
    rw [inTriple_iff] at hk
    rcases hk with e | e | e <;> subst e <;> simp_all

theorem deleteLoop_ok_inv {ids : List Bytes} {h h' : Bucket}
    (hrun : deleteLoop h ids = (h', .ok ())) :
    (∀ id ∈ ids, NoBucketAt h id) ∧ h' = prune h ids := by
  obtain ⟨done, _, hall, hst, hout⟩ := deleteLoop_spec ids h
  rw [hrun] at hst hout
  rcases hout with ⟨_, hd⟩ | ⟨id, _, k, _, _, he⟩
  · subst hd
    exact ⟨hall, hst⟩
  · exact Outcome.noConfusion he

end DeleteLoop

/-! ## Collecting the attempt ids -/

section Collect

theorem mem_aidsInsert (aids : List Bytes) (id x : Bytes) :
    x ∈ aidsInsert aids id ↔ x ∈ aids ∨ x = id := by
  unfold aidsInsert
  split
  · next h =>
    constructor
    · exact Or.inl
    · rintro (h' | rfl)
      · exact h'
      · exact h
  · simp

theorem nodup_aidsInsert {aids : List Bytes} (id : Bytes) (h : aids.Nodup) :
    (aidsInsert aids id).Nodup := by
  unfold aidsInsert
  split
  · exact h
  · next hm =>
    rw [List.nodup_append]
    refine ⟨h, List.nodup_singleton _, ?_⟩
    intro a ha hb
    rw [List.mem_singleton] at hb
    subst hb
    exact hm ha

theorem collectAids_some {b : Bucket} {acc aids : List Bytes}
    (h : collectAids b acc = some aids) :
    (∀ k ∈ b.keys, 2 ≤ k.length) ∧
      (∀ id, id ∈ aids ↔ id ∈ acc ∨ ∃ k ∈ b.keys, k.drop 2 = id) ∧
      (acc.Nodup → aids.Nodup) := by
  induction b generalizing acc with
  | nil =>
    simp only [collectAids, Option.some.injEq] at h
    subst h
    simp [Bucket.keys]
  | cons e rest ih =>
    obtain ⟨k, n⟩ := e
    rw [collectAids] at h
    cases hk : getAttemptIdFromHtlcBucketKey k with
    | none => rw [hk] at h; exact Option.noConfusion h
    | some id =>
      rw [hk] at h
      simp only at h
      obtain ⟨hlen, hdrop⟩ := getAttemptId_eq_some.mp hk
      obtain ⟨h1, h2, h3⟩ := ih h
      refine ⟨?_, ?_, ?_⟩
      · intro k' hk'
        simp only [Bucket.keys, List.map_cons, List.mem_cons] at hk'
        rcases hk' with rfl | hk'
        · exact hlen
        · exact h1 k' hk'
      · intro x
        rw [h2, mem_aidsInsert]
        simp only [Bucket.keys, List.map_cons, List.mem_cons, exists_eq_or_imp, hdrop] at *
        constructor
        · rintro ((h' | h') | h')
          · exact Or.inl h'
          · exact Or.inr (Or.inl h'.symm)
          · exact Or.inr (Or.inr h')
        · rintro (h' | h' | h')
          · exact Or.inl (Or.inl h')
          · exact Or.inl (Or.inr h'.symm)
          · exact Or.inr h'
      · intro hacc
        exact h3 (nodup_aidsInsert id hacc)

theorem collectAids_of_long {b : Bucket} (h : ∀ k ∈ b.keys, 2 ≤ k.length) (acc : List Bytes) :
    ∃ aids, collectAids b acc = some aids := by
  induction b generalizing acc with
  | nil => exact ⟨acc, rfl⟩
  | cons e rest ih =>
    obtain ⟨k, n⟩ := e
    have hk : 2 ≤ k.length := h k (by simp [Bucket.keys])
    have hr : ∀ k' ∈ Bucket.keys rest, 2 ≤ k'.length := by
      intro k' hk'
      apply h k'
      simp only [Bucket.keys, List.map_cons, List.mem_cons] at hk' ⊢
      exact Or.inr hk'
    rw [collectAids]
    have : getAttemptIdFromHtlcBucketKey k = some (k.drop 2) := by
      simp [getAttemptIdFromHtlcBucketKey, hk]
    rw [this]
    exact ih hr _

theorem collectAids_none {b : Bucket} {acc : List Bytes} (h : collectAids b acc = none) :
    ∃ k ∈ b.keys, k.length < 2 := by
  by_contra hc
  have hl : ∀ k ∈ b.keys, 2 ≤ k.length := by
    intro k hk
    by_contra hk2
    exact hc ⟨k, hk, by omega⟩
  obtain ⟨aids, ha⟩ := collectAids_of_long hl acc
  rw [ha] at h
  exact Option.noConfusion h

theorem key_mem_aids {b : Bucket} {aids : List Bytes} (h : collectAids b [] = some aids)
    {id k : Bytes} (hk : k ∈ b.keys) (ht : inTriple id k = true) : id ∈ aids := by
  rw [(collectAids_some h).2.1]
  exact Or.inr ⟨k, hk, (inTriple_drop ht).2⟩

theorem nonEmptyAt_iff (b : Bucket) (k : Bytes) : nonEmptyAt b k = true ↔ b.NonEmptyAt k := by
  unfold nonEmptyAt Bucket.NonEmptyAt
  cases b.Get k with
  | none => simp
  | some v => simp

theorem nonEmptyAt_mem_keys {b : Bucket} {k : Bytes} (h : nonEmptyAt b k = true) : k ∈ b.keys := by
  obtain ⟨v, hv, _⟩ := (nonEmptyAt_iff b k).mp h
  exact lookup_mem_keys (get_eq_some.mp hv)

theorem nested_mem_keys {b : Bucket} {k : Bytes} (h : (b.NestedReadBucket k).isSome = true) :
    k ∈ b.keys := by
  obtain ⟨nb, hnb⟩ := Option.isSome_iff_exists.mp h
  exact lookup_mem_keys (nested_eq_some.mp hnb)

end Collect

/-! ## The loop of `paymentIsSettled` -/

section SettledLoop

/-- What the loop of `paymentIsSettled` returns: `true` with a settled attempt
among the ids, `false` when no id is settled nor has a bucket as settle info, or
the error of an id whose settle info is a bucket. -/
theorem settledLoop_spec (ids : List Bytes) (h : Bucket) :
    (settledLoop h ids = .ok true ∧
        ∃ id ∈ ids, nonEmptyAt h (htlcBucketKey htlcSettleInfoKey id) = true) ∨
      (settledLoop h ids = .ok false ∧
        ∀ id ∈ ids, h.NestedReadBucket (htlcBucketKey htlcSettleInfoKey id) = none ∧
          nonEmptyAt h (htlcBucketKey htlcSettleInfoKey id) = false) ∨
      (∃ id ∈ ids, (h.NestedReadBucket (htlcBucketKey htlcSettleInfoKey id)).isSome = true ∧
        settledLoop h ids = .error (.keyMustNotBeBucket (htlcBucketKey htlcSettleInfoKey id))) := by
  induction ids with
  | nil => exact Or.inr (Or.inl ⟨rfl, by simp⟩)
  | cons id rest ih =>
    rw [settledLoop]
    by_cases hb : (h.NestedReadBucket (htlcBucketKey htlcSettleInfoKey id)).isSome = true
    · exact Or.inr (Or.inr ⟨id, List.mem_cons_self _ _, hb, by simp [hb]⟩)
    · have hb' : h.NestedReadBucket (htlcBucketKey htlcSettleInfoKey id) = none := by
        simpa using hb
      cases hs : nonEmptyAt h (htlcBucketKey htlcSettleInfoKey id) with
      | true =>
        have hs' : 0 < ((h.Get (htlcBucketKey htlcSettleInfoKey id)).getD []).length := by
          simpa [nonEmptyAt] using hs
        exact Or.inl ⟨by simp [hb', hs'], id, List.mem_cons_self _ _, hs⟩
      | false =>
        have hs' : ¬ 0 < ((h.Get (htlcBucketKey htlcSettleInfoKey id)).getD []).length := by
          simpa [nonEmptyAt] using hs
        simp only [hb', Option.isSome_none, Bool.false_eq_true, if_false, hs']
        rcases ih with ⟨h1, id', hm, h2⟩ | ⟨h1, h2⟩ | ⟨id', hm, h1, h2⟩
        · exact Or.inl ⟨h1, id', List.mem_cons_of_mem _ hm, h2⟩
        · refine Or.inr (Or.inl ⟨h1, ?_⟩)
          intro id' hm
          rcases List.mem_cons.mp hm with rfl | hm
          · exact ⟨hb', hs⟩
          · exact h2 id' hm
        · exact Or.inr (Or.inr ⟨id', List.mem_cons_of_mem _ hm, h1, h2⟩)

theorem settledLoop_of_noBucket {ids : List Bytes} {h : Bucket}
    (hnb : ∀ id ∈ ids, h.NestedReadBucket (htlcBucketKey htlcSettleInfoKey id) = none) :
    settledLoop h ids =
      .ok (ids.any (fun id => nonEmptyAt h (htlcBucketKey htlcSettleInfoKey id))) := by
  rcases settledLoop_spec ids h with ⟨h1, id, hm, h2⟩ | ⟨h1, h2⟩ | ⟨id, hm, h1, _⟩
  · rw [h1]
    congr 1
    symm
    rw [List.any_eq_true]
    exact ⟨id, hm, h2⟩
  · rw [h1]
    congr 1
    symm
    rw [List.any_eq_false]
    intro id hm
    simp [(h2 id hm).2]
  · rw [hnb id hm] at h1
    exact Bool.noConfusion h1

end SettledLoop

/-! ## One attempt collection -/

section Htlcs

theorem prune_congr_mem (h : Bucket) {l l' : List Bytes} (hl : ∀ id, id ∈ l ↔ id ∈ l') :
    prune h l = prune h l' := by
  unfold prune
  apply restrict_congr
  intro k
  congr 1
  rw [Bool.eq_iff_iff, pruned_iff, pruned_iff]
  constructor
  · rintro ⟨id, hm, h1⟩; exact ⟨id, (hl id).mp hm, h1⟩
  · rintro ⟨id, hm, h1⟩; exact ⟨id, (hl id).mpr hm, h1⟩

theorem settled_iff_aids {h : Bucket} {aids : List Bytes} (ha : collectAids h [] = some aids) :
    Settled h ↔ ∃ id ∈ aids, nonEmptyAt h (htlcBucketKey htlcSettleInfoKey id) = true := by
  constructor
  · rintro ⟨id, hid⟩
    have hne := (nonEmptyAt_iff h _).mpr hid
    refine ⟨id, ?_, hne⟩
    exact key_mem_aids ha (nonEmptyAt_mem_keys hne) (by simp [inTriple])
  · rintro ⟨id, _, hid⟩
    exact ⟨id, (nonEmptyAt_iff h _).mp hid⟩

theorem pruned_aids_iff {h : Bucket} {aids : List Bytes} (ha : collectAids h [] = some aids)
    (k : Bytes) : pruned h aids k = true ↔ ∃ id, Failed h id ∧ inTriple id k = true := by
  rw [pruned_iff]
  constructor
  · rintro ⟨id, _, h1, h2⟩
    exact ⟨id, (nonEmptyAt_iff h _).mp h1, h2⟩
  · rintro ⟨id, h1, h2⟩
    have hne := (nonEmptyAt_iff h _).mpr h1
    exact ⟨id, key_mem_aids ha (nonEmptyAt_mem_keys hne) (by simp [inTriple]), hne, h2⟩

/-- A successful run on an attempt collection: either the payment is not
settled and nothing changes, or it is settled and the failed attempts are
pruned. -/
theorem migrateHtlcs_ok {σ : Schedule} (hσ : σ.Valid) {hash : Bytes} {h h' : Bucket}
    (hrun : migrateHtlcs σ hash h = (h', .ok ())) :
    ∃ aids, collectAids h [] = some aids ∧
      ((¬ Settled h ∧ h' = h ∧
          ∀ id ∈ aids, h.NestedReadBucket (htlcBucketKey htlcSettleInfoKey id) = none) ∨
        (Settled h ∧ h' = prune h aids ∧ ∀ id ∈ aids, NoBucketAt h id)) := by
  unfold migrateHtlcs paymentIsSettled at hrun
  cases ha : collectAids h [] with
  | none =>
    rw [ha] at hrun
    simp only [Prod.mk.injEq] at hrun
    exact Outcome.noConfusion hrun.2
  | some aids =>
    refine ⟨aids, rfl, ?_⟩
    rw [ha] at hrun
    simp only at hrun
    have hps := (hσ hash).1 aids
    have hpd := (hσ hash).2 aids
    rcases settledLoop_spec (σ.settled hash aids) h with
      ⟨h1, id, hm, h2⟩ | ⟨h1, h2⟩ | ⟨id, hm, _, h2⟩
    · rw [h1] at hrun
      simp only [deleteFailedHtlcs, ha] at hrun
      obtain ⟨hall, hst⟩ := deleteLoop_ok_inv hrun
      refine Or.inr ⟨(settled_iff_aids ha).mpr ⟨id, hps.mem_iff.mp hm, h2⟩, ?_, ?_⟩
      · rw [hst]
        exact prune_congr_mem h (fun id => hpd.mem_iff)
      · intro id' hm'
        exact hall id' (hpd.mem_iff.mpr hm')
    · rw [h1] at hrun
      simp only [Prod.mk.injEq] at hrun
      refine Or.inl ⟨?_, hrun.1.symm, ?_⟩
      · rw [settled_iff_aids ha]
        rintro ⟨id, hm, hid⟩
        have := (h2 id (hps.mem_iff.mpr hm)).2
        rw [hid] at this
        exact Bool.noConfusion this
      · intro id hm
        exact (h2 id (hps.mem_iff.mpr hm)).1
    · rw [h2] at hrun
      simp only [Prod.mk.injEq] at hrun
      exact Outcome.noConfusion hrun.2

theorem migrateHtlcs_of_unsettled {σ : Schedule} (hσ : σ.Valid) (hash : Bytes) {h : Bucket}
    {aids : List Bytes} (ha : collectAids h [] = some aids)
    (hnb : ∀ id ∈ aids, h.NestedReadBucket (htlcBucketKey htlcSettleInfoKey id) = none)
    (hns : ¬ Settled h) : migrateHtlcs σ hash h = (h, .ok ()) := by
  unfold migrateHtlcs paymentIsSettled
  rw [ha]
  have hps := (hσ hash).1 aids
  have e : settledLoop h (σ.settled hash aids) = .ok false := by
    rw [settledLoop_of_noBucket (fun id hm => hnb id (hps.mem_iff.mp hm))]
    congr 1
    rw [List.any_eq_false]
    intro id hm hid
    exact hns ((settled_iff_aids ha).mpr ⟨id, hps.mem_iff.mp hm, hid⟩)
  simp only [e]

theorem migrateHtlcs_of_settled {σ : Schedule} (hσ : σ.Valid) (hash : Bytes) {h : Bucket}
    {aids : List Bytes} (ha : collectAids h [] = some aids)
    (hnb : ∀ id ∈ aids, NoBucketAt h id)
    (hs : Settled h) : migrateHtlcs σ hash h = (prune h aids, .ok ()) := by
  unfold migrateHtlcs paymentIsSettled
  rw [ha]
  have hps := (hσ hash).1 aids
  have hpd := (hσ hash).2 aids
  have e : settledLoop h (σ.settled hash aids) = .ok true := by
    rw [settledLoop_of_noBucket (fun id hm => (hnb id (hps.mem_iff.mp hm)).2.2)]
    congr 1
    rw [List.any_eq_true]
    obtain ⟨id, hm, hid⟩ := (settled_iff_aids ha).mp hs
    exact ⟨id, hps.mem_iff.mpr hm, hid⟩
  simp only [e, deleteFailedHtlcs, ha]
  rw [deleteLoop_ok (fun id hm => hnb id (hpd.mem_iff.mp hm))]
  rw [prune_congr_mem h (fun id => hpd.mem_iff)]

theorem collectAids_restrict {h : Bucket} {aids : List Bytes}
    (ha : collectAids h [] = some aids) (P : Bytes → Bool) :
    ∃ aids', collectAids (h.restrict P) [] = some aids' ∧ ∀ id ∈ aids', id ∈ aids := by
  obtain ⟨hlong, hmem, _⟩ := collectAids_some ha
  have hlong' : ∀ k ∈ (h.restrict P).keys, 2 ≤ k.length :=
    fun k hk => hlong k (keys_restrict_subset h P k hk)
  obtain ⟨aids', ha'⟩ := collectAids_of_long hlong' []
  refine ⟨aids', ha', ?_⟩
  intro id hid
  rw [(collectAids_some ha').2.1] at hid
  rcases hid with hid | ⟨k, hk, hd⟩
  · simp at hid
  · rw [hmem]
    exact Or.inr ⟨k, keys_restrict_subset h P k hk, hd⟩

theorem nested_prune {h : Bucket} {ids : List Bytes} (hnb : ∀ id ∈ ids, NoBucketAt h id)
    (k : Bytes) : (prune h ids).NestedReadBucket k = h.NestedReadBucket k := by
  unfold prune
  apply nested_restrict_of_noBucket
  intro k' hk'
  have hp : pruned h ids k' = true := by simpa using hk'
  obtain ⟨id, hm, _, ht⟩ := (pruned_iff h ids k').mp hp
  obtain ⟨h1, h2, h3⟩ := hnb id hm
  rw [htlcBucketKey_eq] at h1 h2 h3
  rw [inTriple_iff] at ht
  rcases ht with e | e | e <;> subst e <;> assumption

theorem nonEmptyAt_prune_fail {h : Bucket} {aids : List Bytes}
    (ha : collectAids h [] = some aids) (id : Bytes) :
    nonEmptyAt (prune h aids) (htlcBucketKey htlcFailInfoKey id) = false := by
  cases hf : nonEmptyAt h (htlcBucketKey htlcFailInfoKey id) with
  | false =>
    unfold nonEmptyAt prune at *
    rw [get_restrict]
    split
    · exact hf
    · simp
  | true =>
    have hp : pruned h aids (htlcBucketKey htlcFailInfoKey id) = true := by
      rw [pruned_iff]
      exact ⟨id, key_mem_aids ha (nonEmptyAt_mem_keys hf) (by simp [inTriple]), hf,
        by simp [inTriple]⟩
    unfold nonEmptyAt prune
    rw [get_restrict, hp]
    simp

theorem prune_prune {h : Bucket} {aids : List Bytes} (ha : collectAids h [] = some aids)
    (ids : List Bytes) : prune (prune h aids) ids = prune h aids := by
  have : ∀ k, pruned (prune h aids) ids k = false := by
    intro k
    rw [Bool.eq_false_iff]
    intro hk
    obtain ⟨id, _, h1, _⟩ := (pruned_iff _ _ _).mp hk
    rw [nonEmptyAt_prune_fail ha id] at h1
    exact Bool.noConfusion h1
  have e : prune (prune h aids) ids =
      (prune h aids).restrict (fun k => !pruned (prune h aids) ids k) := rfl
  rw [e]
  apply restrict_true
  intro k _
  rw [this k]; rfl

/-- Running the callback again on the attempt collection left by a successful
run succeeds and changes nothing. -/
theorem migrateHtlcs_idem {σ σ' : Schedule} (hσ : σ.Valid) (hσ' : σ'.Valid) {hash hash' : Bytes}
    {h h' : Bucket} (hrun : migrateHtlcs σ hash h = (h', .ok ())) :
    migrateHtlcs σ' hash' h' = (h', .ok ()) := by
  obtain ⟨aids, ha, hcase⟩ := migrateHtlcs_ok hσ hrun
  rcases hcase with ⟨hns, rfl, hnb⟩ | ⟨_, rfl, hnb⟩
  · exact migrateHtlcs_of_unsettled hσ' hash' ha hnb hns
  · obtain ⟨aids', ha', hsub⟩ := collectAids_restrict ha (fun k => !pruned h aids k)
    have hnb' : ∀ id ∈ aids', NoBucketAt (prune h aids) id := by
      intro id hid
      unfold NoBucketAt
      rw [nested_prune hnb, nested_prune hnb, nested_prune hnb]
      exact hnb id (hsub id hid)
    by_cases hs : Settled (prune h aids)
    · have := migrateHtlcs_of_settled hσ' hash' (h := prune h aids) ha' hnb' hs
      rw [this, prune_prune ha]
    · exact migrateHtlcs_of_unsettled hσ' hash' (h := prune h aids) ha'
        (fun id hid => (hnb' id hid).2.2) hs

end Htlcs

/-! ## One payment record -/

section Record

theorem get_none_of_nested {b : Bucket} {k : Bytes} {nb : Bucket}
    (h : b.NestedReadWriteBucket k = some nb) : b.Get k = none := by
  rw [nested_eq_some] at h
  unfold Bucket.Get
  rw [h]

theorem migratePayment_of_not_bucket (σ : Schedule) {ps : Bucket} {hash : Bytes}
    (h : ps.NestedReadWriteBucket hash = none) :
    migratePayment σ ps hash = (ps, .error (.keyMustBeBucket paymentsRootBucket)) := by
  unfold migratePayment
  rw [h]

/-- The callback of `MigratePayments` acts on the record of the payment alone. -/
theorem migratePayment_of_bucket (σ : Schedule) {ps : Bucket} {hash : Bytes} {rec : Bucket}
    (h : ps.NestedReadWriteBucket hash = some rec) :
    migratePayment σ ps hash =
      (ps.setBucket hash (migrateRecord σ hash rec).1, (migrateRecord σ hash rec).2) := by
  have hself : ps.setBucket hash rec = ps := setBucket_self (nested_eq_some.mp h)
  unfold migratePayment migrateRecord
  rw [h]
  simp only
  by_cases hg : (rec.Get paymentHtlcsBucket).isSome = true
  · simp only [hg, if_true, hself]
  · simp only [hg, Bool.false_eq_true, if_false]
    cases hn : rec.NestedReadWriteBucket paymentHtlcsBucket with
    | none => simp only [hself]
    | some htlcs =>
      have hself2 : rec.setBucket paymentHtlcsBucket htlcs = rec :=
        setBucket_self (nested_eq_some.mp hn)
      simp only [migrateHtlcs]
      cases hp : paymentIsSettled (σ.settled hash) htlcs with
      | panic => simp only [hself2, hself]
      | error e => simp only [hself2, hself]
      | ok b =>
        cases b with
        | false => simp only [hself2, hself]
        | true => rfl

theorem migrateRecord_ok {σ : Schedule} {hash : Bytes} {rec rec' : Bucket}
    (hrun : migrateRecord σ hash rec = (rec', .ok ())) :
    rec.Get paymentHtlcsBucket = none ∧
      ((rec.NestedReadWriteBucket paymentHtlcsBucket = none ∧ rec' = rec) ∨
        (∃ h h', rec.NestedReadWriteBucket paymentHtlcsBucket = some h ∧
          migrateHtlcs σ hash h = (h', .ok ()) ∧ rec' = rec.setBucket paymentHtlcsBucket h')) := by
  unfold migrateRecord at hrun
  by_cases hg : (rec.Get paymentHtlcsBucket).isSome = true
  · simp only [hg, if_true, Prod.mk.injEq] at hrun
    exact Outcome.noConfusion hrun.2
  · simp only [hg, Bool.false_eq_true, if_false] at hrun
    have hg' : rec.Get paymentHtlcsBucket = none := by simpa using hg
    refine ⟨hg', ?_⟩
    cases hn : rec.NestedReadWriteBucket paymentHtlcsBucket with
    | none =>
      rw [hn] at hrun
      simp only [Prod.mk.injEq] at hrun
      exact Or.inl ⟨rfl, hrun.1.symm⟩
    | some htlcs =>
      rw [hn] at hrun
      simp only [Prod.mk.injEq] at hrun
      exact Or.inr ⟨htlcs, (migrateHtlcs σ hash htlcs).1, rfl, Prod.ext rfl hrun.2, hrun.1.symm⟩

theorem migrateRecord_of_htlcs (σ : Schedule) (hash : Bytes) {rec h : Bucket}
    (hn : rec.NestedReadWriteBucket paymentHtlcsBucket = some h) :
    migrateRecord σ hash rec =
      (rec.setBucket paymentHtlcsBucket (migrateHtlcs σ hash h).1, (migrateHtlcs σ hash h).2) := by
  unfold migrateRecord
  rw [get_none_of_nested hn, hn]
  rfl

theorem migrateRecord_of_absent (σ : Schedule) (hash : Bytes) {rec : Bucket}
    (hl : rec.lookup paymentHtlcsBucket = none) : migrateRecord σ hash rec = (rec, .ok ()) := by
  unfold migrateRecord Bucket.Get Bucket.NestedReadWriteBucket
  rw [hl]
  rfl

/-- Running the callback again on the record left by a successful run succeeds
and changes nothing. -/
theorem migrateRecord_idem {σ σ' : Schedule} (hσ : σ.Valid) (hσ' : σ'.Valid) {hash : Bytes}
    (hash' : Bytes) {rec rec' : Bucket} (hrun : migrateRecord σ hash rec = (rec', .ok ())) :
    migrateRecord σ' hash' rec' = (rec', .ok ()) := by
  obtain ⟨hg, hcase⟩ := migrateRecord_ok hrun
  rcases hcase with ⟨hn, rfl⟩ | ⟨h, h', hn, hh, rfl⟩
  · unfold migrateRecord
    rw [hg, hn]
    rfl
  · have hn' := nested_setBucket_self h' hn
    rw [migrateRecord_of_htlcs σ' hash' hn', migrateHtlcs_idem hσ hσ' hh, setBucket_setBucket]

end Record

/-! ## The loop over the payments -/

section ForEach

theorem forEachPayment_nil (σ : Schedule) (ps : Bucket) :
    forEachPayment σ [] ps = (ps, .ok ()) := rfl

theorem forEachPayment_cons_ok {σ : Schedule} {ps ps1 : Bucket} {k : Bytes} (rest : List Bytes)
    (h : migratePayment σ ps k = (ps1, .ok ())) :
    forEachPayment σ (k :: rest) ps = forEachPayment σ rest ps1 := by
  rw [forEachPayment, h]

theorem forEachPayment_cons_stop {σ : Schedule} {ps : Bucket} {k : Bytes} (rest : List Bytes)
    (h : (migratePayment σ ps k).2 ≠ .ok ()) :
    forEachPayment σ (k :: rest) ps = migratePayment σ ps k := by
  rw [forEachPayment]
  split
  · next ps' heq =>
    rw [heq] at h
    exact absurd rfl h
  · rfl

theorem forEachPayment_cons_inv {σ : Schedule} {ps ps' : Bucket} {k : Bytes} {rest : List Bytes}
    (h : forEachPayment σ (k :: rest) ps = (ps', .ok ())) :
    ∃ ps1, migratePayment σ ps k = (ps1, .ok ()) ∧ forEachPayment σ rest ps1 = (ps', .ok ()) := by
  by_cases hk : (migratePayment σ ps k).2 = .ok ()
  · refine ⟨(migratePayment σ ps k).1, Prod.ext rfl hk, ?_⟩
    rw [← h, forEachPayment_cons_ok rest (Prod.ext rfl hk)]
  · rw [forEachPayment_cons_stop rest hk] at h
    rw [h] at hk
    exact absurd rfl hk

theorem migratePayment_ok_inv {σ : Schedule} {ps ps1 : Bucket} {k : Bytes}
    (h : migratePayment σ ps k = (ps1, .ok ())) :
    ∃ rec rec1, ps.NestedReadWriteBucket k = some rec ∧
      migrateRecord σ k rec = (rec1, .ok ()) ∧ ps1 = ps.setBucket k rec1 := by
  cases hn : ps.NestedReadWriteBucket k with
  | none =>
    rw [migratePayment_of_not_bucket σ hn] at h
    simp only [Prod.mk.injEq] at h
    exact Outcome.noConfusion h.2
  | some rec =>
    rw [migratePayment_of_bucket σ hn] at h
    simp only [Prod.mk.injEq] at h
    exact ⟨rec, (migrateRecord σ k rec).1, rfl, Prod.ext rfl h.2, h.1.symm⟩

/-- A successful loop over the keys `ks`: every key visited is a payment
record, and every record of the root bucket ends as the callback leaves it
(visited) or as it was (not visited). -/
theorem forEachPayment_ok {σ : Schedule} (hσ : σ.Valid) (ks : List Bytes) (ps ps' : Bucket)
    (hrun : forEachPayment σ ks ps = (ps', .ok ())) :
    ps'.keys = ps.keys ∧
      (∀ h ∈ ks, ∃ rec, ps.NestedReadWriteBucket h = some rec) ∧
      (∀ h rec, ps.NestedReadWriteBucket h = some rec →
        ∃ rec', ps'.NestedReadWriteBucket h = some rec' ∧
          (h ∈ ks → migrateRecord σ h rec = (rec', .ok ())) ∧ (h ∉ ks → rec' = rec)) ∧
      (∀ h, ps.NestedReadWriteBucket h = none → ps'.lookup h = ps.lookup h) := by
  induction ks generalizing ps with
  | nil =>
    rw [forEachPayment_nil] at hrun
    simp only [Prod.mk.injEq, and_true] at hrun
    subst hrun
    refine ⟨rfl, by simp, ?_, fun _ _ => rfl⟩
    intro h rec hrec
    exact ⟨rec, hrec, by simp, fun _ => rfl⟩
  | cons k rest ih =>
    obtain ⟨ps1, hstep, hrest⟩ := forEachPayment_cons_inv hrun
    obtain ⟨reck, reck1, hk, hmr, rfl⟩ := migratePayment_ok_inv hstep
    obtain ⟨ih1, ih2, ih3, ih4⟩ := ih _ hrest
    refine ⟨?_, ?_, ?_, ?_⟩
    · rw [ih1, keys_setBucket]
    · intro h hm
      rcases List.mem_cons.mp hm with rfl | hm
      · exact ⟨reck, hk⟩
      · obtain ⟨rec1, hrec1⟩ := ih2 h hm
        by_cases hhk : h = k
        · subst hhk; exact ⟨reck, hk⟩
        · rw [nested_setBucket_ne _ _ hhk] at hrec1
          exact ⟨rec1, hrec1⟩
    · intro h rec hrec
      by_cases hhk : h = k
      · subst hhk
        rw [hk] at hrec
        simp only [Option.some.injEq] at hrec
        subst hrec
        obtain ⟨rec', hrec', hin, hout⟩ := ih3 h reck1 (nested_setBucket_self reck1 hk)
        refine ⟨rec', hrec', ?_, ?_⟩
        · intro _
          by_cases hm : h ∈ rest
          · have h2 := hin hm
            have h3 := migrateRecord_idem hσ hσ h hmr
            rw [h3] at h2
            simp only [Prod.mk.injEq, and_true] at h2
            rw [← h2]; exact hmr
          · rw [hout hm]; exact hmr
        · intro hn
          exact absurd (List.mem_cons_self _ _) hn
      · have hrec1 : (Bucket.setBucket ps k reck1).NestedReadWriteBucket h = some rec := by
          rw [nested_setBucket_ne _ _ hhk]; exact hrec
        obtain ⟨rec', hrec', hin, hout⟩ := ih3 h rec hrec1
        refine ⟨rec', hrec', ?_, ?_⟩
        · intro hm
          rcases List.mem_cons.mp hm with e | hm
          · exact absurd e hhk
          · exact hin hm
        · intro hn
          exact hout (fun hm => hn (List.mem_cons_of_mem _ hm))
    · intro h hnone
      have hhk : h ≠ k := by
        rintro rfl
        rw [hk] at hnone
        exact Option.noConfusion hnone
      have : (Bucket.setBucket ps k reck1).NestedReadWriteBucket h = none := by
        rw [nested_setBucket_ne _ _ hhk]; exact hnone
      rw [ih4 h this, lookup_setBucket_ne _ _ hhk]

end ForEach

/-! ## The whole migration, when it succeeds -/

section Migrate

theorem MigratePayments_of_no_root (σ : Schedule) {tx : Bucket}
    (h : tx.NestedReadWriteBucket paymentsRootBucket = none) :
    MigratePayments σ tx = (tx, .ok ()) := by
  unfold MigratePayments
  rw [h]

theorem MigratePayments_of_root (σ : Schedule) {tx ps : Bucket}
    (h : tx.NestedReadWriteBucket paymentsRootBucket = some ps) :
    MigratePayments σ tx =
      (tx.setBucket paymentsRootBucket (forEachPayment σ ps.keys ps).1,
        (forEachPayment σ ps.keys ps).2) := by
  unfold MigratePayments
  rw [h]

theorem paymentOf_eq_some {tx : Bucket} {hash : Bytes} {rec : Bucket} :
    paymentOf tx hash = some rec ↔
      ∃ ps, tx.NestedReadWriteBucket paymentsRootBucket = some ps ∧
        ps.NestedReadWriteBucket hash = some rec := by
  unfold paymentOf
  cases tx.NestedReadWriteBucket paymentsRootBucket with
  | none => simp
  | some ps => simp

theorem htlcsOf_eq_some {tx : Bucket} {hash : Bytes} {htlcs : Bucket} :
    htlcsOf tx hash = some htlcs ↔
      ∃ rec, paymentOf tx hash = some rec ∧
        rec.NestedReadWriteBucket paymentHtlcsBucket = some htlcs := by
  unfold htlcsOf
  cases paymentOf tx hash with
  | none => simp
  | some rec => simp

/-- After a successful migration every payment record is what the callback
makes of the record it was before. -/
theorem MigratePayments_payment {σ : Schedule} (hσ : σ.Valid) {tx tx' : Bucket}
    (hrun : MigratePayments σ tx = (tx', .ok ())) {hash : Bytes} {rec : Bucket}
    (hrec : paymentOf tx hash = some rec) :
    ∃ rec', paymentOf tx' hash = some rec' ∧ migrateRecord σ hash rec = (rec', .ok ()) := by
  obtain ⟨ps, hps, hh⟩ := paymentOf_eq_some.mp hrec
  rw [MigratePayments_of_root σ hps] at hrun
  simp only [Prod.mk.injEq] at hrun
  obtain ⟨htx, hout⟩ := hrun
  have hfe : forEachPayment σ ps.keys ps = ((forEachPayment σ ps.keys ps).1, .ok ()) :=
    Prod.ext rfl hout
  obtain ⟨_, _, h3, _⟩ := forEachPayment_ok hσ _ _ _ hfe
  obtain ⟨rec', hrec', hin, _⟩ := h3 hash rec hh
  refine ⟨rec', ?_, hin (lookup_mem_keys (nested_eq_some.mp hh))⟩
  rw [paymentOf_eq_some]
  exact ⟨_, by rw [← htx]; exact nested_setBucket_self _ hps, hrec'⟩

/-- After a successful migration every payment record comes from a record of the
store before it. -/
theorem MigratePayments_payment_inv {σ : Schedule} (hσ : σ.Valid) {tx tx' : Bucket}
    (hrun : MigratePayments σ tx = (tx', .ok ())) {hash : Bytes} {rec' : Bucket}
    (hrec' : paymentOf tx' hash = some rec') :
    ∃ rec, paymentOf tx hash = some rec := by
  cases hps : tx.NestedReadWriteBucket paymentsRootBucket with
  | none =>
    rw [MigratePayments_of_no_root σ hps] at hrun
    simp only [Prod.mk.injEq, and_true] at hrun
    subst hrun
    exact ⟨rec', hrec'⟩
  | some ps =>
    rw [MigratePayments_of_root σ hps] at hrun
    simp only [Prod.mk.injEq] at hrun
    obtain ⟨htx, hout⟩ := hrun
    have hfe : forEachPayment σ ps.keys ps = ((forEachPayment σ ps.keys ps).1, .ok ()) :=
      Prod.ext rfl hout
    obtain ⟨h1, h2, _, _⟩ := forEachPayment_ok hσ _ _ _ hfe
    obtain ⟨ps', hps', hh'⟩ := paymentOf_eq_some.mp hrec'
    rw [← htx, nested_setBucket_self _ hps] at hps'
    simp only [Option.some.injEq] at hps'
    subst hps'
    have hm : hash ∈ ps.keys := by
      rw [← h1]; exact lookup_mem_keys (nested_eq_some.mp hh')
    obtain ⟨rec, hrec⟩ := h2 hash hm
    exact ⟨rec, paymentOf_eq_some.mpr ⟨ps, hps, hrec⟩⟩

/-- After a successful migration every attempt collection is what the callback
makes of the collection it was before. -/
theorem MigratePayments_htlcs {σ : Schedule} (hσ : σ.Valid) {tx tx' : Bucket}
    (hrun : MigratePayments σ tx = (tx', .ok ())) {hash : Bytes} {htlcs : Bucket}
    (hh : htlcsOf tx hash = some htlcs) :
    ∃ htlcs', htlcsOf tx' hash = some htlcs' ∧ migrateHtlcs σ hash htlcs = (htlcs', .ok ()) := by
  obtain ⟨rec, hrec, hn⟩ := htlcsOf_eq_some.mp hh
  obtain ⟨rec', hrec', hmr⟩ := MigratePayments_payment hσ hrun hrec
  rw [migrateRecord_of_htlcs σ hash hn] at hmr
  simp only [Prod.mk.injEq] at hmr
  refine ⟨(migrateHtlcs σ hash htlcs).1, ?_, Prod.ext rfl hmr.2⟩
  rw [htlcsOf_eq_some]
  exact ⟨rec', hrec', by rw [← hmr.1]; exact nested_setBucket_self _ hn⟩

theorem MigratePayments_htlcs_inv {σ : Schedule} (hσ : σ.Valid) {tx tx' : Bucket}
    (hrun : MigratePayments σ tx = (tx', .ok ())) {hash : Bytes} {htlcs' : Bucket}
    (hh' : htlcsOf tx' hash = some htlcs') :
    ∃ htlcs, htlcsOf tx hash = some htlcs ∧ migrateHtlcs σ hash htlcs = (htlcs', .ok ()) := by
  obtain ⟨rec', hrec', hn'⟩ := htlcsOf_eq_some.mp hh'
  obtain ⟨rec, hrec⟩ := MigratePayments_payment_inv hσ hrun hrec'
  obtain ⟨rec'', hrec'', hmr⟩ := MigratePayments_payment hσ hrun hrec
  rw [hrec'] at hrec''
  simp only [Option.some.injEq] at hrec''
  subst hrec''
  obtain ⟨_, hcase⟩ := migrateRecord_ok hmr
  rcases hcase with ⟨hn, rfl⟩ | ⟨h, h', hn, hmh, rfl⟩
  · rw [hn] at hn'
    exact Option.noConfusion hn'
  · rw [nested_setBucket_self _ hn] at hn'
    simp only [Option.some.injEq] at hn'
    subst hn'
    exact ⟨h, htlcsOf_eq_some.mpr ⟨rec, hrec, hn⟩, hmh⟩

end Migrate

/-! ## The migration, whatever its outcome -/

section General

theorem settled_restrict {h : Bucket} {P : Bytes → Bool} (hs : Settled (h.restrict P)) :
    Settled h := by
  obtain ⟨id, v, hv, hl⟩ := hs
  rw [get_restrict] at hv
  by_cases hp : P (htlcBucketKey htlcSettleInfoKey id) = true
  · rw [if_pos hp] at hv; exact ⟨id, v, hv, hl⟩
  · rw [if_neg hp] at hv; exact Option.noConfusion hv

theorem failed_restrict {h : Bucket} {P : Bytes → Bool} {id : Bytes}
    (hf : Failed (h.restrict P) id) : Failed h id := by
  obtain ⟨v, hv, hl⟩ := hf
  rw [get_restrict] at hv
  by_cases hp : P (htlcBucketKey htlcFailInfoKey id) = true
  · rw [if_pos hp] at hv; exact ⟨v, hv, hl⟩
  · rw [if_neg hp] at hv; exact Option.noConfusion hv

/-- Whatever its outcome, the callback leaves an attempt collection as it was or,
if the payment is settled, without some entries of failed attempts; it never
panics on keys of at least 2 bytes. -/
theorem migrateHtlcs_fst (σ : Schedule) (hash : Bytes) (h : Bucket) :
    ((migrateHtlcs σ hash h).1 = h ∨
      (Settled h ∧ ∃ ids, (migrateHtlcs σ hash h).1 = prune h ids)) ∧
    ((∀ k ∈ h.keys, 2 ≤ k.length) → (migrateHtlcs σ hash h).2 ≠ .panic) := by
  unfold migrateHtlcs paymentIsSettled
  cases ha : collectAids h [] with
  | none =>
    refine ⟨Or.inl rfl, ?_⟩
    intro hl
    obtain ⟨aids, ha'⟩ := collectAids_of_long hl []
    rw [ha] at ha'
    exact Option.noConfusion ha'
  | some aids =>
    simp only
    rcases settledLoop_spec (σ.settled hash aids) h with
      ⟨h1, id, _, h2⟩ | ⟨h1, _⟩ | ⟨id, _, _, h2⟩
    · rw [h1]
      simp only [deleteFailedHtlcs, ha]
      obtain ⟨done, _, _, hst, hout⟩ := deleteLoop_spec (σ.delete hash aids) h
      refine ⟨Or.inr ⟨⟨id, (nonEmptyAt_iff h _).mp h2⟩, done, hst⟩, ?_⟩
      intro _ hp
      rcases hout with ⟨hok, _⟩ | ⟨_, _, _, _, _, he⟩
      · rw [hok] at hp; exact Outcome.noConfusion hp
      · rw [he] at hp; exact Outcome.noConfusion hp
    · rw [h1]
      exact ⟨Or.inl rfl, fun _ hp => Outcome.noConfusion hp⟩
    · rw [h2]
      exact ⟨Or.inl rfl, fun _ hp => Outcome.noConfusion hp⟩

theorem onlyPruned_refl (rec : Bucket) : OnlyPruned rec rec := Or.inl rfl

theorem onlyPruned_trans {a b c : Bucket} (hab : OnlyPruned a b) (hbc : OnlyPruned b c) :
    OnlyPruned a c := by
  rcases hab with rfl | ⟨h, P, hn, hs, rfl, hP⟩
  · exact hbc
  · rcases hbc with rfl | ⟨h2, Q, hn2, _, rfl, hQ⟩
    · exact Or.inr ⟨h, P, hn, hs, rfl, hP⟩
    · rw [nested_setBucket_self _ hn] at hn2
      simp only [Option.some.injEq] at hn2
      subst hn2
      refine Or.inr ⟨h, fun k => P k && Q k, hn, hs, ?_, ?_⟩
      · rw [setBucket_setBucket, restrict_restrict]
      · intro k hk
        by_cases hp : P k = true
        · have hq : Q k = false := by simpa [hp] using hk
          obtain ⟨id, hf, ht⟩ := hQ k hq
          exact ⟨id, failed_restrict hf, ht⟩
        · exact hP k (by simpa using hp)

theorem migrateRecord_fst (σ : Schedule) (hash : Bytes) (rec : Bucket) :
    OnlyPruned rec (migrateRecord σ hash rec).1 ∧
      ((∀ htlcs, rec.NestedReadWriteBucket paymentHtlcsBucket = some htlcs →
        ∀ k ∈ htlcs.keys, 2 ≤ k.length) → (migrateRecord σ hash rec).2 ≠ .panic) := by
  unfold migrateRecord
  by_cases hg : (rec.Get paymentHtlcsBucket).isSome = true
  · simp only [hg, if_true]
    exact ⟨Or.inl rfl, fun _ hp => Outcome.noConfusion hp⟩
  · simp only [hg, Bool.false_eq_true, if_false]
    cases hn : rec.NestedReadWriteBucket paymentHtlcsBucket with
    | none => exact ⟨Or.inl rfl, fun _ hp => Outcome.noConfusion hp⟩
    | some h =>
      simp only
      obtain ⟨hfst, hnp⟩ := migrateHtlcs_fst σ hash h
      refine ⟨?_, fun hl => hnp (hl h rfl)⟩
      rcases hfst with he | ⟨hs, ids, he⟩
      · rw [he, setBucket_self (nested_eq_some.mp hn)]
        exact Or.inl rfl
      · rw [he]
        refine Or.inr ⟨h, fun k => !pruned h ids k, hn, hs, rfl, ?_⟩
        intro k hk
        have hp : pruned h ids k = true := by simpa using hk
        obtain ⟨id, _, h1, h2⟩ := (pruned_iff h ids k).mp hp
        exact ⟨id, (nonEmptyAt_iff h _).mp h1, h2⟩

theorem onlyPrunedRoot_refl (ps : Bucket) : OnlyPrunedRoot ps ps :=
  ⟨rfl, fun _ _ => rfl, fun _ rec hrec => ⟨rec, hrec, onlyPruned_refl rec⟩⟩

theorem onlyPrunedRoot_trans {a b c : Bucket} (hab : OnlyPrunedRoot a b)
    (hbc : OnlyPrunedRoot b c) : OnlyPrunedRoot a c := by
  obtain ⟨k1, n1, r1⟩ := hab
  obtain ⟨k2, n2, r2⟩ := hbc
  refine ⟨k2.trans k1, ?_, ?_⟩
  · intro hash hn
    have hb : b.NestedReadWriteBucket hash = none := by
      unfold Bucket.NestedReadWriteBucket at hn ⊢
      rw [n1 hash (by unfold Bucket.NestedReadWriteBucket; exact hn)]
      exact hn
    rw [n2 hash hb, n1 hash hn]
  · intro hash rec hrec
    obtain ⟨rec1, hrec1, hp1⟩ := r1 hash rec hrec
    obtain ⟨rec2, hrec2, hp2⟩ := r2 hash rec1 hrec1
    exact ⟨rec2, hrec2, onlyPruned_trans hp1 hp2⟩

theorem onlyPrunedRoot_setBucket {ps : Bucket} {k : Bytes} {rec rec1 : Bucket}
    (hk : ps.NestedReadWriteBucket k = some rec) (hp : OnlyPruned rec rec1) :
    OnlyPrunedRoot ps (ps.setBucket k rec1) := by
  refine ⟨keys_setBucket _ _ _, ?_, ?_⟩
  · intro hash hn
    have hne : hash ≠ k := by
      rintro rfl; rw [hk] at hn; exact Option.noConfusion hn
    exact lookup_setBucket_ne _ _ hne
  · intro hash rec0 hrec0
    by_cases hne : hash = k
    · subst hne
      rw [hk] at hrec0
      simp only [Option.some.injEq] at hrec0
      subst hrec0
      exact ⟨rec1, nested_setBucket_self _ hk, hp⟩
    · exact ⟨rec0, by rw [nested_setBucket_ne _ _ hne]; exact hrec0, onlyPruned_refl _⟩

theorem migratePayment_fst (σ : Schedule) (ps : Bucket) (k : Bytes) :
    OnlyPrunedRoot ps (migratePayment σ ps k).1 ∧
      (LongKeys ps → (migratePayment σ ps k).2 ≠ .panic) := by
  cases hk : ps.NestedReadWriteBucket k with
  | none =>
    rw [migratePayment_of_not_bucket σ hk]
    exact ⟨onlyPrunedRoot_refl ps, fun _ hp => Outcome.noConfusion hp⟩
  | some rec =>
    rw [migratePayment_of_bucket σ hk]
    obtain ⟨h1, h2⟩ := migrateRecord_fst σ k rec
    exact ⟨onlyPrunedRoot_setBucket hk h1, fun hl => h2 (fun htlcs hh => hl k rec htlcs hk hh)⟩

theorem longKeys_of_onlyPrunedRoot {ps ps' : Bucket} (hp : OnlyPrunedRoot ps ps')
    (hl : LongKeys ps) : LongKeys ps' := by
  obtain ⟨hkeys, hnone, hrec⟩ := hp
  intro hash rec' htlcs' hrec' hh' k hk
  cases hps : ps.NestedReadWriteBucket hash with
  | none =>
    have := hnone hash hps
    rw [nested_eq_some, this, ← nested_eq_some, hps] at hrec'
    exact Option.noConfusion hrec'
  | some rec =>
    obtain ⟨rec'', hrec'', hop⟩ := hrec hash rec hps
    rw [hrec'] at hrec''
    simp only [Option.some.injEq] at hrec''
    subst hrec''
    rcases hop with rfl | ⟨h, P, hn, _, rfl, _⟩
    · exact hl hash _ htlcs' hps hh' k hk
    · rw [nested_setBucket_self _ hn] at hh'
      simp only [Option.some.injEq] at hh'
      subst hh'
      exact hl hash rec h hps hn k (keys_restrict_subset h P k hk)

/-- Whatever its outcome, the loop over the payments only prunes attempt
collections, and it never panics when every key of every attempt collection has
at least 2 bytes. -/
theorem forEachPayment_fst (σ : Schedule) (ks : List Bytes) (ps : Bucket) :
    OnlyPrunedRoot ps (forEachPayment σ ks ps).1 ∧
      (LongKeys ps → (forEachPayment σ ks ps).2 ≠ .panic) := by
  induction ks generalizing ps with
  | nil => exact ⟨onlyPrunedRoot_refl ps, fun _ hp => Outcome.noConfusion hp⟩
  | cons k rest ih =>
    obtain ⟨h1, h2⟩ := migratePayment_fst σ ps k
    by_cases hok : (migratePayment σ ps k).2 = .ok ()
    · rw [forEachPayment_cons_ok rest (Prod.ext rfl hok)]
      obtain ⟨i1, i2⟩ := ih (migratePayment σ ps k).1
      exact ⟨onlyPrunedRoot_trans h1 i1, fun hl => i2 (longKeys_of_onlyPrunedRoot h1 hl)⟩
    · rw [forEachPayment_cons_stop rest hok]
      exact ⟨h1, h2⟩

end General

/-! ## Further facts used by the contract -/

section Further

theorem lookup_prune (h : Bucket) (ids : List Bytes) (k : Bytes) :
    (prune h ids).lookup k = if pruned h ids k then none else h.lookup k := by
  unfold prune
  rw [lookup_restrict]
  cases pruned h ids k <;> rfl

theorem mem_prune (h : Bucket) (ids : List Bytes) (e : Bytes × Node) :
    e ∈ prune h ids ↔ e ∈ h ∧ pruned h ids e.1 = false := by
  unfold prune Bucket.restrict
  rw [List.mem_filter]
  simp

theorem settled_iff_si_key (h : Bucket) :
    Settled h ↔ ∃ k v, htlcSettleInfoKey <+: k ∧ h.Get k = some v ∧ 0 < v.length := by
  constructor
  · rintro ⟨id, v, hv, hl⟩
    exact ⟨_, v, ⟨id, (htlcBucketKey_eq _ _).symm⟩, hv, hl⟩
  · rintro ⟨k, v, ⟨id, rfl⟩, hv, hl⟩
    exact ⟨id, v, by rw [htlcBucketKey_eq]; exact hv, hl⟩

theorem not_settled_of_keys {h : Bucket} (hk : ∀ k ∈ h.keys, ¬ htlcSettleInfoKey <+: k) :
    ¬ Settled h := by
  rintro ⟨id, hid⟩
  have hm := nonEmptyAt_mem_keys ((nonEmptyAt_iff h _).mpr hid)
  exact hk _ hm ⟨id, (htlcBucketKey_eq _ _).symm⟩

theorem forEachPayment_fix {σ : Schedule} {ps : Bucket} (ks : List Bytes)
    (h : ∀ k ∈ ks, migratePayment σ ps k = (ps, .ok ())) :
    forEachPayment σ ks ps = (ps, .ok ()) := by
  induction ks with
  | nil => rfl
  | cons k rest ih =>
    rw [forEachPayment_cons_ok rest (h k (List.mem_cons_self _ _))]
    exact ih (fun k' hk' => h k' (List.mem_cons_of_mem _ hk'))

theorem lookup_mem {b : Bucket} {k : Bytes} {n : Node} (h : b.lookup k = some n) :
    (k, n) ∈ b := by
  induction b with
  | nil => simp [Bucket.lookup] at h
  | cons e rest ih =>
    obtain ⟨k', n'⟩ := e
    rw [lookup_cons] at h
    by_cases hk : k' = k
    · simp only [hk, if_true, Option.some.injEq] at h
      subst hk; subst h
      exact List.mem_cons_self _ _
    · simp only [hk, if_false] at h
      exact List.mem_cons_of_mem _ (ih h)

theorem txLongKeys_of_check {tx : Bucket} (h : checkLongKeys tx = true) : TxLongKeys tx := by
  intro hash htlcs hh k hk
  obtain ⟨rec, hrec, hn⟩ := htlcsOf_eq_some.mp hh
  obtain ⟨ps, hps, hh2⟩ := paymentOf_eq_some.mp hrec
  unfold checkLongKeys at h
  rw [hps] at h
  simp only [List.all_eq_true] at h
  have h1 := h _ (lookup_mem (nested_eq_some.mp hh2))
  simp only [List.all_eq_true] at h1
  have h2 := h1 _ (lookup_mem (nested_eq_some.mp hn))
  simp only [ne_eq, not_true_eq_false, decide_False, Bool.false_or, List.all_eq_true,
    decide_eq_true_eq] at h2
  simp only [Bucket.keys, List.mem_map] at hk
  obtain ⟨g, hg, rfl⟩ := hk
  exact h2 g hg

theorem failed_mem_failedIds {h : Bucket} {id : Bytes} (hf : Failed h id) : id ∈ failedIds h := by
  have hne := (nonEmptyAt_iff h _).mpr hf
  unfold failedIds
  rw [List.mem_filter]
  refine ⟨?_, hne⟩
  rw [List.mem_map]
  refine ⟨_, nonEmptyAt_mem_keys hne, ?_⟩
  simp [htlcBucketKey_eq, failKey_val]

theorem longKeys_of_tx {tx ps : Bucket} (hps : tx.NestedReadWriteBucket paymentsRootBucket = some ps)
    (hl : TxLongKeys tx) : LongKeys ps := by
  intro hash rec htlcs hrec hn
  exact hl hash htlcs (htlcsOf_eq_some.mpr ⟨rec, paymentOf_eq_some.mpr ⟨ps, hps, hrec⟩, hn⟩)

/-- On a store whose attempt-collection keys all have at least 2 bytes,
`MigratePayments` does not panic. -/
theorem MigratePayments_no_panic (σ : Schedule) {tx : Bucket} (hl : TxLongKeys tx) :
    (MigratePayments σ tx).2 ≠ .panic := by
  cases hps : tx.NestedReadWriteBucket paymentsRootBucket with
  | none =>
    rw [MigratePayments_of_no_root σ hps]
    exact fun hp => Outcome.noConfusion hp
  | some ps =>
    rw [MigratePayments_of_root σ hps]
    exact (forEachPayment_fst σ ps.keys ps).2 (longKeys_of_tx hps hl)

theorem outcome_error_of {o : Outcome Unit} (h1 : o ≠ .ok ()) (h2 : o ≠ .panic) :
    ∃ e, o = .error e := by
  cases o with
  | ok u => cases u; exact absurd rfl h1
  | error e => exact ⟨e, rfl⟩
  | panic => exact absurd rfl h2

/-- Whatever the outcome of `MigratePayments`, every attempt collection of the
store it leaves is the one before the call up to deleted entries of failed
attempts of a settled payment. -/
theorem MigratePayments_htlcs_fst (σ : Schedule) {tx : Bucket} {hash : Bytes} {htlcs : Bucket}
    (hh : htlcsOf tx hash = some htlcs) :
    ∃ htlcs', htlcsOf (MigratePayments σ tx).1 hash = some htlcs' ∧
      ∀ k, htlcs'.lookup k = htlcs.lookup k ∨
        (htlcs'.lookup k = none ∧ Settled htlcs ∧ ∃ id, Failed htlcs id ∧ inTriple id k = true) := by
  obtain ⟨rec, hrec, hn⟩ := htlcsOf_eq_some.mp hh
  obtain ⟨ps, hps, hh2⟩ := paymentOf_eq_some.mp hrec
  rw [MigratePayments_of_root σ hps]
  obtain ⟨_, _, h3⟩ := (forEachPayment_fst σ ps.keys ps).1
  obtain ⟨rec', hrec', hop⟩ := h3 hash rec hh2
  have hpay : paymentOf (tx.setBucket paymentsRootBucket (forEachPayment σ ps.keys ps).1) hash =
      some rec' :=
    paymentOf_eq_some.mpr ⟨_, nested_setBucket_self _ hps, hrec'⟩
  rcases hop with rfl | ⟨h, P, hn2, hs, rfl, hP⟩
  · exact ⟨htlcs, htlcsOf_eq_some.mpr ⟨_, hpay, hn⟩, fun k => Or.inl rfl⟩
  · rw [hn] at hn2
    simp only [Option.some.injEq] at hn2
    subst hn2
    refine ⟨htlcs.restrict P, htlcsOf_eq_some.mpr ⟨_, hpay, nested_setBucket_self _ hn⟩, ?_⟩
    intro k
    rw [lookup_restrict]
    by_cases hk : P k = true
    · exact Or.inl (by rw [if_pos hk])
    · exact Or.inr ⟨by rw [if_neg hk], hs, hP k (by simpa using hk)⟩

theorem migrateHtlcs_schedule {σ σ' : Schedule} (hσ : σ.Valid) (hσ' : σ'.Valid) {hash : Bytes}
    (hash' : Bytes) {h h' : Bucket} (hrun : migrateHtlcs σ hash h = (h', .ok ())) :
    migrateHtlcs σ' hash' h = (h', .ok ()) := by
  obtain ⟨aids, ha, hcase⟩ := migrateHtlcs_ok hσ hrun
  rcases hcase with ⟨hns, rfl, hnb⟩ | ⟨hs, rfl, hnb⟩
  · exact migrateHtlcs_of_unsettled hσ' hash' ha hnb hns
  · exact migrateHtlcs_of_settled hσ' hash' ha hnb hs

theorem migrateRecord_schedule {σ σ' : Schedule} (hσ : σ.Valid) (hσ' : σ'.Valid) {hash : Bytes}
    (hash' : Bytes) {rec rec' : Bucket} (hrun : migrateRecord σ hash rec = (rec', .ok ())) :
    migrateRecord σ' hash' rec = (rec', .ok ()) := by
  obtain ⟨hg, hcase⟩ := migrateRecord_ok hrun
  rcases hcase with ⟨hn, rfl⟩ | ⟨h, h', hn, hh, rfl⟩
  · unfold migrateRecord
    rw [hg, hn]
    rfl
  · rw [migrateRecord_of_htlcs σ' hash' hn, migrateHtlcs_schedule hσ hσ' hash' hh]

theorem migratePayment_schedule {σ σ' : Schedule} (hσ : σ.Valid) (hσ' : σ'.Valid)
    {ps ps1 : Bucket} {k : Bytes} (hrun : migratePayment σ ps k = (ps1, .ok ())) :
    migratePayment σ' ps k = (ps1, .ok ()) := by
  obtain ⟨rec, rec1, hk, hmr, rfl⟩ := migratePayment_ok_inv hrun
  rw [migratePayment_of_bucket σ' hk, migrateRecord_schedule hσ hσ' k hmr]

theorem forEachPayment_schedule {σ σ' : Schedule} (hσ : σ.Valid) (hσ' : σ'.Valid)
    (ks : List Bytes) {ps ps' : Bucket} (hrun : forEachPayment σ ks ps = (ps', .ok ())) :
    forEachPayment σ' ks ps = (ps', .ok ()) := by
  induction ks generalizing ps with
  | nil => exact hrun
  | cons k rest ih =>
    obtain ⟨ps1, hstep, hrest⟩ := forEachPayment_cons_inv hrun
    rw [forEachPayment_cons_ok rest (migratePayment_schedule hσ hσ' hstep)]
    exact ih hrest

/-- A successful migration gives the same store whatever the range orders. -/
theorem MigratePayments_schedule {σ σ' : Schedule} (hσ : σ.Valid) (hσ' : σ'.Valid)
    {tx tx' : Bucket} (hrun : MigratePayments σ tx = (tx', .ok ())) :
    MigratePayments σ' tx = (tx', .ok ()) := by
  cases hps : tx.NestedReadWriteBucket paymentsRootBucket with
  | none =>
    rw [MigratePayments_of_no_root σ hps] at hrun
    rw [MigratePayments_of_no_root σ' hps]
    exact hrun
  | some ps =>
    rw [MigratePayments_of_root σ hps] at hrun
    simp only [Prod.mk.injEq] at hrun
    have hfe : forEachPayment σ ps.keys ps = ((forEachPayment σ ps.keys ps).1, .ok ()) :=
      Prod.ext rfl hrun.2
    rw [MigratePayments_of_root σ' hps, forEachPayment_schedule hσ hσ' _ hfe]
    simp only [hrun.1]

theorem inOrder_valid : Schedule.inOrder.Valid :=
  fun _ => ⟨fun l => List.Perm.refl l, fun l => List.Perm.refl l⟩

theorem paymentIsSettled_panic_iff (ord : RangeOrder) (h : Bucket) :
    paymentIsSettled ord h = .panic ↔ collectAids h [] = none := by
  unfold paymentIsSettled
  cases ha : collectAids h [] with
  | none => simp
  | some aids =>
    simp only [reduceCtorEq, iff_false]
    rcases settledLoop_spec (ord aids) h with ⟨h1, _⟩ | ⟨h1, _⟩ | ⟨id, _, _, h1⟩ <;>
      rw [h1] <;> exact fun hp => Outcome.noConfusion hp

theorem paymentIsSettled_false_iff {ord : RangeOrder} (hord : ord.Valid) (h : Bucket) :
    paymentIsSettled ord h = .ok false ↔
      ∃ aids, collectAids h [] = some aids ∧
        ∀ id ∈ aids, h.NestedReadBucket (htlcBucketKey htlcSettleInfoKey id) = none ∧
          nonEmptyAt h (htlcBucketKey htlcSettleInfoKey id) = false := by
  unfold paymentIsSettled
  cases ha : collectAids h [] with
  | none => simp
  | some aids =>
    simp only [Option.some.injEq, exists_eq_left']
    have hp := hord aids
    constructor
    · intro hrun
      rcases settledLoop_spec (ord aids) h with ⟨h1, _⟩ | ⟨_, h2⟩ | ⟨id, _, _, h1⟩
      · rw [h1] at hrun; injection hrun with hrun; exact Bool.noConfusion hrun
      · exact fun id hm => h2 id (hp.mem_iff.mpr hm)
      · rw [h1] at hrun; exact Outcome.noConfusion hrun
    · intro hall
      rw [settledLoop_of_noBucket (fun id hm => (hall id (hp.mem_iff.mp hm)).1)]
      congr 1
      rw [List.any_eq_false]
      intro id hm
      rw [(hall id (hp.mem_iff.mp hm)).2]
      exact Bool.noConfusion

theorem paymentIsSettled_true_or_error {ord : RangeOrder} (h : Bucket)
    (h1 : paymentIsSettled ord h ≠ .panic) (h2 : paymentIsSettled ord h ≠ .ok false) :
    paymentIsSettled ord h = .ok true ∨ ∃ e, paymentIsSettled ord h = .error e := by
  cases hr : paymentIsSettled ord h with
  | panic => exact absurd hr h1
  | error e => exact Or.inr ⟨e, rfl⟩
  | ok b =>
    cases b with
    | true => exact Or.inl rfl
    | false => exact absurd hr h2

theorem lookup_eq_none_of_not_mem {b : Bucket} {k : Bytes} (h : k ∉ b.keys) :
    b.lookup k = none := by
  cases hl : b.lookup k with
  | none => rfl
  | some n => exact absurd (lookup_mem_keys hl) h

theorem lookup_map_entry (g : Bytes × Node → Bytes × Node) (hg : ∀ e, (g e).1 = e.1)
    (b : Bucket) (k : Bytes) :
    Bucket.lookup (b.map g) k = (b.lookup k).map (fun n => (g (k, n)).2) := by
  induction b with
  | nil => rfl
  | cons e rest ih =>
    obtain ⟨k', n⟩ := e
    have he : g (k', n) = (k', (g (k', n)).2) := Prod.ext (hg _) rfl
    rw [List.map_cons, he, lookup_cons, lookup_cons, ih]
    by_cases hk : k' = k
    · subst hk; simp
    · simp [hk]

theorem keys_map_entry (g : Bytes × Node → Bytes × Node) (hg : ∀ e, (g e).1 = e.1)
    (b : Bucket) : Bucket.keys (b.map g) = b.keys := by
  simp only [Bucket.keys, List.map_map]
  apply List.map_congr_left
  intro e _
  exact hg e

theorem bucket_ext_of_lookup {l1 l2 : Bucket} (hk : l1.keys = l2.keys) (hnd : l1.keys.Nodup)
    (hl : ∀ k, l1.lookup k = l2.lookup k) : l1 = l2 := by
  induction l1 generalizing l2 with
  | nil =>
    cases l2 with
    | nil => rfl
    | cons e r => simp [Bucket.keys] at hk
  | cons e1 r1 ih =>
    cases l2 with
    | nil => simp [Bucket.keys] at hk
    | cons e2 r2 =>
      obtain ⟨k1, n1⟩ := e1
      obtain ⟨k2, n2⟩ := e2
      simp only [Bucket.keys, List.map_cons, List.cons.injEq] at hk
      obtain ⟨hk12, hkr⟩ := hk
      subst hk12
      simp only [Bucket.keys, List.map_cons, List.nodup_cons] at hnd
      obtain ⟨hnotin, hndr⟩ := hnd
      have hn : n1 = n2 := by
        have := hl k1
        simp only [lookup_cons, if_true, Option.some.injEq] at this
        exact this
      subst hn
      have hrest : r1 = r2 := by
        apply ih hkr hndr
        intro k
        by_cases hkk : k1 = k
        · subst hkk
          have hnotin2 : k1 ∉ Bucket.keys r2 := by
            unfold Bucket.keys; rw [← hkr]; exact hnotin
          rw [lookup_eq_none_of_not_mem hnotin, lookup_eq_none_of_not_mem hnotin2]
        · have := hl k
          simp only [lookup_cons, hkk, if_false] at this
          exact this
      rw [hrest]

theorem lookup_eq_some_iff_mem {b : Bucket} (hnd : b.keys.Nodup) (k : Bytes) (n : Node) :
    b.lookup k = some n ↔ (k, n) ∈ b := by
  induction b with
  | nil => simp [Bucket.lookup]
  | cons e rest ih =>
    obtain ⟨k', n'⟩ := e
    simp only [Bucket.keys, List.map_cons, List.nodup_cons] at hnd
    obtain ⟨hnotin, hndr⟩ := hnd
    rw [lookup_cons]
    by_cases hk : k' = k
    · subst hk
      simp only [if_true, Option.some.injEq, List.mem_cons, Prod.mk.injEq, true_and]
      constructor
      · intro h; exact Or.inl h.symm
      · rintro (h | h)
        · exact h.symm
        · exact absurd (List.mem_map_of_mem (fun e => e.1) h) hnotin
    · simp only [hk, if_false, List.mem_cons, Prod.mk.injEq]
      rw [ih hndr]
      constructor
      · exact Or.inr
      · rintro (⟨h1, _⟩ | h)
        · exact absurd h1.symm hk
        · exact h

theorem perm_lookup {l1 l2 : Bucket} (hp : l1.Perm l2) (hnd : l1.keys.Nodup) (k : Bytes) :
    l1.lookup k = l2.lookup k := by
  have hnd2 : l2.keys.Nodup := by
    unfold Bucket.keys at *
    exact (hp.map (fun e : Bytes × Node => e.1)).nodup_iff.mp hnd
  apply Option.ext
  intro n
  simp only [Option.mem_def]
  rw [lookup_eq_some_iff_mem hnd, lookup_eq_some_iff_mem hnd2]
  exact hp.mem_iff

theorem forEachPayment_succeeds (σ : Schedule) (ks : List Bytes) (ps : Bucket)
    (hnd : ks.Nodup)
    (hall : ∀ h ∈ ks, ∃ rec, ps.NestedReadWriteBucket h = some rec ∧
      (migrateRecord σ h rec).2 = .ok ()) :
    (forEachPayment σ ks ps).2 = .ok () := by
  induction ks generalizing ps with
  | nil => rfl
  | cons k rest ih =>
    obtain ⟨hnotin, hndr⟩ := List.nodup_cons.mp hnd
    obtain ⟨rec, hrec, hok⟩ := hall k (List.mem_cons_self _ _)
    have hstep : migratePayment σ ps k = (ps.setBucket k (migrateRecord σ k rec).1, .ok ()) := by
      rw [migratePayment_of_bucket σ hrec, hok]
    rw [forEachPayment_cons_ok rest hstep]
    apply ih _ hndr
    intro h hm
    obtain ⟨rec2, hrec2, hok2⟩ := hall h (List.mem_cons_of_mem _ hm)
    have hne : h ≠ k := by rintro rfl; exact hnotin hm
    exact ⟨rec2, by rw [nested_setBucket_ne _ _ hne]; exact hrec2, hok2⟩

theorem migrateEntry_fst (σ : Schedule) (e : Bytes × Node) : (migrateEntry σ e).1 = e.1 := by
  unfold migrateEntry
  split <;> rfl

/-- With unique payment hashes, a successful loop over all the payments maps the
callback over the entries of the root bucket. -/
theorem forEachPayment_eq_map {σ : Schedule} (hσ : σ.Valid) {ps ps' : Bucket}
    (hnd : ps.keys.Nodup) (hrun : forEachPayment σ ps.keys ps = (ps', .ok ())) :
    ps' = ps.map (migrateEntry σ) := by
  obtain ⟨h1, _, h3, h4⟩ := forEachPayment_ok hσ _ _ _ hrun
  apply bucket_ext_of_lookup
  · rw [h1, keys_map_entry _ (migrateEntry_fst σ)]
  · rw [h1]; exact hnd
  · intro k
    rw [lookup_map_entry _ (migrateEntry_fst σ)]
    cases hl : ps.lookup k with
    | none =>
      have : ps.NestedReadWriteBucket k = none := by
        unfold Bucket.NestedReadWriteBucket; rw [hl]
      rw [h4 k this, hl]; rfl
    | some n =>
      cases n with
      | value v =>
        have : ps.NestedReadWriteBucket k = none := by
          unfold Bucket.NestedReadWriteBucket; rw [hl]
        rw [h4 k this, hl]; rfl
      | bucket rec =>
        obtain ⟨rec', hrec', hin, _⟩ := h3 k rec (nested_eq_some.mpr hl)
        have hmr := hin (lookup_mem_keys hl)
        rw [nested_eq_some.mp hrec']
        simp only [Option.map_some', migrateEntry, hmr]

theorem MigratePayments_singlePayment (σ : Schedule) (hash : Bytes) (rec : Bucket) :
    MigratePayments σ (singlePayment hash rec) =
      (singlePayment hash (migrateRecord σ hash rec).1, (migrateRecord σ hash rec).2) := by
  have hps : (singlePayment hash rec).NestedReadWriteBucket paymentsRootBucket =
      some [(hash, .bucket rec)] := by
    simp [singlePayment, Bucket.NestedReadWriteBucket, Bucket.lookup]
  have hrec : Bucket.NestedReadWriteBucket [(hash, Node.bucket rec)] hash = some rec := by
    simp [Bucket.NestedReadWriteBucket, Bucket.lookup]
  rw [MigratePayments_of_root σ hps]
  have hstep : forEachPayment σ (Bucket.keys [(hash, Node.bucket rec)]) [(hash, Node.bucket rec)] =
      ([(hash, Node.bucket (migrateRecord σ hash rec).1)], (migrateRecord σ hash rec).2) := by
    simp only [Bucket.keys, List.map_cons, List.map_nil]
    rw [forEachPayment, migratePayment_of_bucket σ hrec]
    simp only [Bucket.setBucket, if_true]
    cases h2 : (migrateRecord σ hash rec).2 with
    | ok u => cases u; rfl
    | error e => rfl
    | panic => rfl
  rw [hstep]
  simp [singlePayment, Bucket.setBucket]

theorem paymentIsSettledT_fst (b : Handle) (ord : RangeOrder) (h : Bucket) :
    (paymentIsSettledT b ord h).1 = paymentIsSettled ord h := by
  unfold paymentIsSettledT paymentIsSettled
  cases collectAids h [] <;> rfl

theorem deleteLoopT_fst (b : Handle) (ids : List Bytes) (h : Bucket) :
    (deleteLoopT b h ids).1 = deleteLoop h ids := by
  induction ids generalizing h with
  | nil => rfl
  | cons id rest ih =>
    rw [deleteLoopT, deleteLoop]
    simp only
    split
    · rfl
    · split
      · rfl
      · split
        · rfl
        · split
          · cases h.Delete (htlcBucketKey htlcFailInfoKey id) with
            | error e => rfl
            | ok h1 =>
              simp only
              cases h1.Delete (htlcBucketKey htlcAttemptInfoKey id) with
              | error e => rfl
              | ok h2 =>
                simp only
                cases h2.Delete (htlcBucketKey htlcSettleInfoKey id) with
                | error e => rfl
                | ok h3 => exact ih h3
          · exact ih h

theorem deleteLoopT_ops (b : Handle) (ids : List Bytes) (h : Bucket) :
    ∀ op ∈ (deleteLoopT b h ids).2, ∃ k, op = StoreOp.delete b k := by
  induction ids generalizing h with
  | nil => intro op hop; simp [deleteLoopT] at hop
  | cons id rest ih =>
    rw [deleteLoopT]
    simp only
    split
    · intro op hop; simp at hop
    · split
      · intro op hop; simp at hop
      · split
        · intro op hop; simp at hop
        · split
          · cases h.Delete (htlcBucketKey htlcFailInfoKey id) with
            | error e =>
              intro op hop
              simp only [List.mem_singleton] at hop
              exact ⟨_, hop⟩
            | ok h1 =>
              simp only
              cases h1.Delete (htlcBucketKey htlcAttemptInfoKey id) with
              | error e =>
                intro op hop
                simp only [List.mem_cons, List.mem_singleton, List.not_mem_nil, or_false] at hop
                rcases hop with hop | hop <;> exact ⟨_, hop⟩
              | ok h2 =>
                simp only
                cases h2.Delete (htlcBucketKey htlcSettleInfoKey id) with
                | error e =>
                  intro op hop
                  simp only [List.mem_cons, List.mem_singleton, List.not_mem_nil,
                    or_false] at hop
                  rcases hop with hop | hop | hop <;> exact ⟨_, hop⟩
                | ok h3 =>
                  intro op hop
                  simp only [List.cons_append, List.nil_append, List.mem_cons] at hop
                  rcases hop with hop | hop | hop | hop
                  · exact ⟨_, hop⟩
                  · exact ⟨_, hop⟩
                  · exact ⟨_, hop⟩
                  · exact ih h3 op hop
          · exact ih h

theorem deleteFailedHtlcsT_fst (b : Handle) (ord : RangeOrder) (h : Bucket) :
    (deleteFailedHtlcsT b ord h).1 = deleteFailedHtlcs ord h := by
  unfold deleteFailedHtlcsT deleteFailedHtlcs
  cases collectAids h [] with
  | none => rfl
  | some aids => exact deleteLoopT_fst b _ h

theorem migratePaymentT_fst (σ : Schedule) (ps : Bucket) (hash : Bytes) :
    (migratePaymentT σ ps hash).1 = migratePayment σ ps hash := by
  unfold migratePaymentT migratePayment
  cases ps.NestedReadWriteBucket hash with
  | none => rfl
  | some payment =>
    simp only
    split
    · rfl
    · cases payment.NestedReadWriteBucket paymentHtlcsBucket with
      | none => rfl
      | some htlcs =>
        simp only [paymentIsSettledT_fst]
        cases paymentIsSettled (σ.settled hash) htlcs with
        | panic => rfl
        | error e => rfl
        | ok v =>
          cases v with
          | false => rfl
          | true => simp only [deleteFailedHtlcsT_fst]

theorem forEachPaymentT_fst (σ : Schedule) (ks : List Bytes) (ps : Bucket) :
    (forEachPaymentT σ ks ps).1 = forEachPayment σ ks ps := by
  induction ks generalizing ps with
  | nil => rfl
  | cons k rest ih =>
    rw [forEachPaymentT]
    by_cases hok : (migratePayment σ ps k).2 = .ok ()
    · have hok' : (migratePaymentT σ ps k).1.2 = .ok () := by
        rw [migratePaymentT_fst]; exact hok
      rw [hok']
      simp only
      rw [ih, migratePaymentT_fst, forEachPayment_cons_ok rest (Prod.ext rfl hok)]
    · rw [forEachPayment_cons_stop rest hok, ← migratePaymentT_fst]
      rw [← migratePaymentT_fst] at hok
      cases h2 : (migratePaymentT σ ps k).1.2 with
      | ok u => cases u; exact absurd h2 hok
      | error e => rfl
      | panic => rfl

/-- The migration with its operations is the migration. -/
theorem MigratePaymentsT_fst (σ : Schedule) (tx : Bucket) :
    (MigratePaymentsT σ tx).1 = MigratePayments σ tx := by
  unfold MigratePaymentsT MigratePayments
  cases tx.NestedReadWriteBucket paymentsRootBucket with
  | none => rfl
  | some ps => simp only [forEachPaymentT_fst]

theorem started_append (b : Handle) (t1 t2 : List StoreOp) :
    started b (t1 ++ t2) = started b t1 + started b t2 := List.count_append _ _ _

theorem completed_append (b : Handle) (t1 t2 : List StoreOp) :
    completed b (t1 ++ t2) = completed b t1 + completed b t2 := List.count_append _ _ _

theorem started_of_deletes {c : Handle} {t : List StoreOp}
    (h : ∀ op ∈ t, ∃ k, op = StoreOp.delete c k) (b : Handle) : started b t = 0 := by
  unfold started
  rw [List.count_eq_zero]
  intro hm
  obtain ⟨k, hk⟩ := h _ hm
  exact StoreOp.noConfusion hk

theorem completed_of_deletes {c : Handle} {t : List StoreOp}
    (h : ∀ op ∈ t, ∃ k, op = StoreOp.delete c k) (b : Handle) : completed b t = 0 := by
  unfold completed
  rw [List.count_eq_zero]
  intro hm
  obtain ⟨k, hk⟩ := h _ hm
  exact StoreOp.noConfusion hk

theorem deletesAfter_of_no_delete {t : List StoreOp}
    (h : ∀ b k, StoreOp.delete b k ∉ t) : DeletesAfterTraversal t := by
  intro pre post b k ht
  exfalso
  apply h b k
  rw [ht]
  exact List.mem_append_right _ (List.mem_cons_self _ _)

theorem deletesAfter_append {t1 t2 : List StoreOp} (h1 : DeletesAfterTraversal t1)
    (hbal : ∀ b, completed b t1 = started b t1) (h2 : DeletesAfterTraversal t2) :
    DeletesAfterTraversal (t1 ++ t2) := by
  intro pre post b k ht
  rcases List.append_eq_append_iff.mp ht with ⟨a', hpre, ht2⟩ | ⟨c', ht1, hc⟩
  · obtain ⟨e1, e2⟩ := h2 a' post b k ht2
    rw [hpre, completed_append, started_append, hbal b, e1]
    exact ⟨rfl, by omega⟩
  · cases c' with
    | nil =>
      simp only [List.nil_append] at hc
      obtain ⟨_, e2⟩ := h2 [] post b k hc.symm
      simp [completed] at e2
    | cons d c'' =>
      simp only [List.cons_append, List.cons.injEq] at hc
      obtain ⟨hd, _⟩ := hc
      subst hd
      exact h1 pre c'' b k ht1

theorem deletesAfter_append_quiet {t1 t2 : List StoreOp} (h1 : DeletesAfterTraversal t1)
    (h2 : ∀ b k, StoreOp.delete b k ∉ t2) : DeletesAfterTraversal (t1 ++ t2) := by
  intro pre post b k ht
  rcases List.append_eq_append_iff.mp ht with ⟨a', _, ht2⟩ | ⟨c', ht1, hc⟩
  · exfalso
    apply h2 b k
    rw [ht2]
    exact List.mem_append_right _ (List.mem_cons_self _ _)
  · cases c' with
    | nil =>
      simp only [List.nil_append] at hc
      exfalso
      apply h2 b k
      rw [← hc]
      exact List.mem_cons_self _ _
    | cons d c'' =>
      simp only [List.cons_append, List.cons.injEq] at hc
      obtain ⟨hd, _⟩ := hc
      subst hd
      exact h1 pre c'' b k ht1

theorem deletesAfter_cons_begin {t : List StoreOp} {b0 : Handle}
    (h : DeletesAfterTraversal t) (hb : ∀ k, StoreOp.delete b0 k ∉ t) :
    DeletesAfterTraversal (StoreOp.forEachBegin b0 :: t) := by
  intro pre post b k ht
  cases pre with
  | nil =>
    simp only [List.nil_append, List.cons.injEq] at ht
    exact StoreOp.noConfusion ht.1
  | cons x pre' =>
    simp only [List.cons_append, List.cons.injEq] at ht
    obtain ⟨hx, ht'⟩ := ht
    subst hx
    obtain ⟨e1, e2⟩ := h pre' post b k ht'
    have hne : b0 ≠ b := by
      rintro rfl
      apply hb k
      rw [ht']
      exact List.mem_append_right _ (List.mem_cons_self _ _)
    have hs : started b (StoreOp.forEachBegin b0 :: pre') = started b pre' := by
      unfold started
      rw [List.count_cons_of_ne]
      intro he
      injection he with he
      exact hne he.symm
    have hc : completed b (StoreOp.forEachBegin b0 :: pre') = completed b pre' := by
      unfold completed
      rw [List.count_cons_of_ne]
      intro he
      exact StoreOp.noConfusion he
    rw [hs, hc]
    exact ⟨e1, e2⟩

theorem deletesAfter_head_deletes {hd dels : List StoreOp} {c : Handle}
    (hhd : ∀ b k, StoreOp.delete b k ∉ hd)
    (hdels : ∀ op ∈ dels, ∃ k, op = StoreOp.delete c k)
    (hbal : completed c hd = started c hd) (hpos : 0 < completed c hd) :
    DeletesAfterTraversal (hd ++ dels) := by
  intro pre post b k ht
  rcases List.append_eq_append_iff.mp ht with ⟨a', hpre, ht2⟩ | ⟨c', ht1, hc⟩
  · have hb : b = c := by
      obtain ⟨k', hk'⟩ := hdels (StoreOp.delete b k)
        (by rw [ht2]; exact List.mem_append_right _ (List.mem_cons_self _ _))
      injection hk' with hb _
    subst hb
    have ha' : ∀ op ∈ a', ∃ k, op = StoreOp.delete b k := by
      intro op hop
      apply hdels
      rw [ht2]
      exact List.mem_append_left _ hop
    rw [hpre, completed_append, started_append, completed_of_deletes ha',
      started_of_deletes ha']
    exact ⟨by omega, by omega⟩
  · cases c' with
    | nil =>
      simp only [List.nil_append] at hc
      simp only [List.append_nil] at ht1
      have hb : b = c := by
        obtain ⟨k', hk'⟩ := hdels (StoreOp.delete b k)
          (by rw [← hc]; exact List.mem_cons_self _ _)
        injection hk' with hb _
      subst hb
      rw [← ht1]
      exact ⟨hbal, hpos⟩
    | cons d c'' =>
      simp only [List.cons_append, List.cons.injEq] at hc
      obtain ⟨hd', _⟩ := hc
      subst hd'
      exfalso
      apply hhd b k
      rw [ht1]
      exact List.mem_append_right _ (List.mem_cons_self _ _)

theorem counts_one (b b' : Handle) :
    completed b' [StoreOp.forEachBegin b, StoreOp.forEachEnd b] =
      started b' [StoreOp.forEachBegin b, StoreOp.forEachEnd b] := by
  by_cases hb : b = b' <;> simp [started, completed, List.count_cons, hb]

theorem counts_two (b b' : Handle) :
    completed b' [StoreOp.forEachBegin b, StoreOp.forEachEnd b, StoreOp.forEachBegin b,
        StoreOp.forEachEnd b] =
      started b' [StoreOp.forEachBegin b, StoreOp.forEachEnd b, StoreOp.forEachBegin b,
        StoreOp.forEachEnd b] := by
  by_cases hb : b = b' <;> simp [started, completed, List.count_cons, hb]

theorem counts_two_pos (b : Handle) :
    0 < completed b [StoreOp.forEachBegin b, StoreOp.forEachEnd b, StoreOp.forEachBegin b,
      StoreOp.forEachEnd b] := by
  simp [completed, List.count_cons]

/-- The operations of one call of the callback: every `Delete` is on the attempt
collection of the payment, after the two `ForEach` over it have returned; a call
that returns `nil` leaves no `ForEach` in progress. -/
theorem migratePaymentT_ops (σ : Schedule) (ps : Bucket) (hash : Bytes) :
    DeletesAfterTraversal (migratePaymentT σ ps hash).2 ∧
      (∀ b k, StoreOp.delete b k ∈ (migratePaymentT σ ps hash).2 → b = Handle.htlcs hash) ∧
      ((migratePaymentT σ ps hash).1.2 = .ok () →
        ∀ b, completed b (migratePaymentT σ ps hash).2 =
          started b (migratePaymentT σ ps hash).2) := by
  have hnil : DeletesAfterTraversal ([] : List StoreOp) ∧
      (∀ b k, StoreOp.delete b k ∈ ([] : List StoreOp) → b = Handle.htlcs hash) ∧
      (∀ b, completed b ([] : List StoreOp) = started b ([] : List StoreOp)) :=
    ⟨deletesAfter_of_no_delete (by simp), by simp, fun _ => rfl⟩
  have hone : DeletesAfterTraversal
        [StoreOp.forEachBegin (Handle.htlcs hash), StoreOp.forEachEnd (Handle.htlcs hash)] ∧
      (∀ b k, StoreOp.delete b k ∈
        [StoreOp.forEachBegin (Handle.htlcs hash), StoreOp.forEachEnd (Handle.htlcs hash)] →
          b = Handle.htlcs hash) :=
    ⟨deletesAfter_of_no_delete (by simp), by simp⟩
  unfold migratePaymentT
  cases ps.NestedReadWriteBucket hash with
  | none => exact ⟨hnil.1, hnil.2.1, fun _ => hnil.2.2⟩
  | some payment =>
    simp only
    split
    · exact ⟨hnil.1, hnil.2.1, fun _ => hnil.2.2⟩
    · cases payment.NestedReadWriteBucket paymentHtlcsBucket with
      | none => exact ⟨hnil.1, hnil.2.1, fun _ => hnil.2.2⟩
      | some htlcs =>
        simp only [paymentIsSettledT, deleteFailedHtlcsT]
        cases ha : collectAids htlcs [] with
        | none =>
          simp only
          exact ⟨deletesAfter_of_no_delete (by simp), by simp,
            fun h => Outcome.noConfusion h⟩
        | some aids =>
          simp only
          cases hs : settledLoop htlcs (σ.settled hash aids) with
          | panic => exact ⟨hone.1, hone.2, fun h => Outcome.noConfusion h⟩
          | error e => exact ⟨hone.1, hone.2, fun h => Outcome.noConfusion h⟩
          | ok v =>
            cases v with
            | false => exact ⟨hone.1, hone.2, fun _ b => counts_one _ b⟩
            | true =>
              simp only
              have hd := deleteLoopT_ops (Handle.htlcs hash) (σ.delete hash aids) htlcs
              have hshape : [StoreOp.forEachBegin (Handle.htlcs hash),
                    StoreOp.forEachEnd (Handle.htlcs hash)] ++
                  ([StoreOp.forEachBegin (Handle.htlcs hash),
                    StoreOp.forEachEnd (Handle.htlcs hash)] ++
                    (deleteLoopT (Handle.htlcs hash) htlcs (σ.delete hash aids)).2) =
                  [StoreOp.forEachBegin (Handle.htlcs hash),
                    StoreOp.forEachEnd (Handle.htlcs hash),
                    StoreOp.forEachBegin (Handle.htlcs hash),
                    StoreOp.forEachEnd (Handle.htlcs hash)] ++
                    (deleteLoopT (Handle.htlcs hash) htlcs (σ.delete hash aids)).2 := rfl
              rw [hshape]
              refine ⟨?_, ?_, ?_⟩
              · exact deletesAfter_head_deletes (by simp) hd (counts_two _ _)
                  (counts_two_pos _)
              · intro b k hm
                rcases List.mem_append.mp hm with hm | hm
                · simp at hm
                · obtain ⟨k', hk'⟩ := hd _ hm
                  injection hk' with hb _
              · intro _ b
                rw [completed_append, started_append, completed_of_deletes hd,
                  started_of_deletes hd, counts_two]

/-- The operations of the loop over the payments: every `Delete` is on an attempt
collection, when a `ForEach` over it has returned and none is in progress. -/
theorem forEachPaymentT_ops (σ : Schedule) (ks : List Bytes) (ps : Bucket) :
    DeletesAfterTraversal (forEachPaymentT σ ks ps).2 ∧
      (∀ b k, StoreOp.delete b k ∈ (forEachPaymentT σ ks ps).2 → ∃ hash, b = Handle.htlcs hash) := by
  induction ks generalizing ps with
  | nil => exact ⟨deletesAfter_of_no_delete (by simp [forEachPaymentT]), by simp [forEachPaymentT]⟩
  | cons k rest ih =>
    obtain ⟨h1, h2, h3⟩ := migratePaymentT_ops σ ps k
    rw [forEachPaymentT]
    cases hk : (migratePaymentT σ ps k).1.2 with
    | ok u =>
      cases u
      simp only
      obtain ⟨i1, i2⟩ := ih (migratePaymentT σ ps k).1.1
      refine ⟨deletesAfter_append h1 (h3 hk) i1, ?_⟩
      intro b key hm
      rcases List.mem_append.mp hm with hm | hm
      · exact ⟨k, h2 b key hm⟩
      · exact i2 b key hm
    | error e => exact ⟨h1, fun b key hm => ⟨k, h2 b key hm⟩⟩
    | panic => exact ⟨h1, fun b key hm => ⟨k, h2 b key hm⟩⟩

theorem MigratePaymentsT_ops (σ : Schedule) (tx : Bucket) :
    DeletesAfterTraversal (MigratePaymentsT σ tx).2 ∧
      (∀ b k, StoreOp.delete b k ∈ (MigratePaymentsT σ tx).2 → ∃ hash, b = Handle.htlcs hash) := by
  unfold MigratePaymentsT
  cases tx.NestedReadWriteBucket paymentsRootBucket with
  | none => exact ⟨deletesAfter_of_no_delete (by simp), by simp⟩
  | some ps =>
    simp only
    obtain ⟨h1, h2⟩ := forEachPaymentT_ops σ ps.keys ps
    have htail : ∀ b k, StoreOp.delete b k ∉
        (if (forEachPaymentT σ ps.keys ps).1.2 = Outcome.panic then []
          else [StoreOp.forEachEnd Handle.payments]) := by
      intro b k
      split <;> simp
    have hall : ∀ b k, StoreOp.delete b k ∈ (forEachPaymentT σ ps.keys ps).2 ++
        (if (forEachPaymentT σ ps.keys ps).1.2 = Outcome.panic then []
          else [StoreOp.forEachEnd Handle.payments]) → ∃ hash, b = Handle.htlcs hash := by
      intro b k hm
      rcases List.mem_append.mp hm with hm | hm
      · exact h2 b k hm
      · exact absurd hm (htail b k)
    refine ⟨?_, ?_⟩
    · apply deletesAfter_cons_begin (deletesAfter_append_quiet h1 htail)
      intro k hm
      obtain ⟨hash, hh⟩ := hall _ _ hm
      exact Handle.noConfusion hh
    · intro b k hm
      rcases List.mem_cons.mp hm with hm | hm
      · exact StoreOp.noConfusion hm
      · exact hall b k hm

theorem prunedEntry_of_onlyPruned {en : Bytes × Node} {rec rec' : Bucket}
    (hen : en.2 = .bucket rec) (hp : OnlyPruned rec rec') :
    PrunedEntry en (en.1, .bucket rec') := by
  rcases hp with rfl | ⟨h, keep, hn, hs, rfl, hk⟩
  · left
    rw [← hen]
  · right
    refine ⟨rec, h, keep, hen, hn, hs, rfl, ?_⟩
    intro k hkf
    obtain ⟨id, hf, ht⟩ := hk k hkf
    refine ⟨id, hf, ?_⟩
    simp only [inTriple, Bool.or_eq_true, decide_eq_true_eq] at ht
    rcases ht with e | e | e
    · exact Or.inr (Or.inr e)
    · exact Or.inl e
    · exact Or.inr (Or.inl e)

theorem onlyPruned_of_prunedEntry {en en' : Bytes × Node} (hp : PrunedEntry en en')
    {rec : Bucket} (hen : en.2 = .bucket rec) :
    ∃ rec', en' = (en.1, .bucket rec') ∧ OnlyPruned rec rec' := by
  rcases hp with rfl | ⟨rec0, h, keep, hen0, hn, hs, rfl, hk⟩
  · exact ⟨rec, by rw [← hen], Or.inl rfl⟩
  · rw [hen] at hen0
    injection hen0 with hen0
    subst hen0
    refine ⟨_, rfl, Or.inr ⟨h, keep, hn, hs, rfl, ?_⟩⟩
    intro k hkf
    obtain ⟨id, hf, ht⟩ := hk k hkf
    refine ⟨id, hf, ?_⟩
    simp only [inTriple, Bool.or_eq_true, decide_eq_true_eq]
    rcases ht with e | e | e
    · exact Or.inr (Or.inl e)
    · exact Or.inr (Or.inr e)
    · exact Or.inl e

theorem prunedEntry_trans {a b c : Bytes × Node} (hab : PrunedEntry a b)
    (hbc : PrunedEntry b c) : PrunedEntry a c := by
  rcases hab with rfl | ⟨rec, h, keep, hen, hn, hs, rfl, hk⟩
  · exact hbc
  · have hab' : PrunedEntry a
        (a.1, .bucket (rec.setBucket paymentHtlcsBucket (h.restrict keep))) :=
      Or.inr ⟨rec, h, keep, hen, hn, hs, rfl, hk⟩
    obtain ⟨rec1, _, hp1⟩ := onlyPruned_of_prunedEntry hab' hen
    obtain ⟨rec2, hc, hp2⟩ :=
      @onlyPruned_of_prunedEntry _ c hbc
        (rec.setBucket paymentHtlcsBucket (h.restrict keep)) rfl
    subst hc
    have hp12 : OnlyPruned rec (rec.setBucket paymentHtlcsBucket (h.restrict keep)) := by
      obtain ⟨rec1', he, hp⟩ := onlyPruned_of_prunedEntry hab' hen
      injection he with _ he
      injection he with he
      rw [he]; exact hp
    exact prunedEntry_of_onlyPruned hen (onlyPruned_trans hp12 hp2)

theorem prunedEntries_refl (ps : Bucket) : List.Forall₂ PrunedEntry ps ps := by
  induction ps with
  | nil => exact List.Forall₂.nil
  | cons e rest ih => exact List.Forall₂.cons (Or.inl rfl) ih

theorem prunedEntries_trans {a b c : Bucket} (hab : List.Forall₂ PrunedEntry a b)
    (hbc : List.Forall₂ PrunedEntry b c) : List.Forall₂ PrunedEntry a c := by
  induction hab generalizing c with
  | nil => cases hbc; exact List.Forall₂.nil
  | cons h1 _ ih =>
    cases hbc with
    | cons h2 hrest => exact List.Forall₂.cons (prunedEntry_trans h1 h2) (ih hrest)

theorem prunedEntries_setBucket {ps : Bucket} {k : Bytes} {rec rec1 : Bucket}
    (hk : ps.NestedReadWriteBucket k = some rec) (hp : OnlyPruned rec rec1) :
    List.Forall₂ PrunedEntry ps (ps.setBucket k rec1) := by
  induction ps with
  | nil => exact List.Forall₂.nil
  | cons e rest ih =>
    obtain ⟨k0, n⟩ := e
    rw [nested_eq_some, lookup_cons] at hk
    by_cases hk0 : k0 = k
    · simp only [hk0, if_true, Option.some.injEq] at hk
      subst hk
      simp only [Bucket.setBucket, hk0, if_true]
      refine List.Forall₂.cons ?_ (prunedEntries_refl rest)
      have := @prunedEntry_of_onlyPruned (k0, Node.bucket rec) rec rec1 rfl hp
      rw [hk0] at this
      exact this
    · simp only [hk0, if_false] at hk
      simp only [Bucket.setBucket, hk0, if_false]
      exact List.Forall₂.cons (Or.inl rfl) (ih (nested_eq_some.mpr hk))

theorem migratePayment_entries (σ : Schedule) (ps : Bucket) (k : Bytes) :
    List.Forall₂ PrunedEntry ps (migratePayment σ ps k).1 := by
  cases hk : ps.NestedReadWriteBucket k with
  | none =>
    rw [migratePayment_of_not_bucket σ hk]
    exact prunedEntries_refl ps
  | some rec =>
    rw [migratePayment_of_bucket σ hk]
    exact prunedEntries_setBucket hk (migrateRecord_fst σ k rec).1

/-- Whatever its outcome, the loop over the payments leaves a root bucket with
the same entries in the same order, except for attempt collections of settled
payments that lost entries of failed attempts. -/
theorem forEachPayment_entries (σ : Schedule) (ks : List Bytes) (ps : Bucket) :
    List.Forall₂ PrunedEntry ps (forEachPayment σ ks ps).1 := by
  induction ks generalizing ps with
  | nil => exact prunedEntries_refl ps
  | cons k rest ih =>
    have h1 := migratePayment_entries σ ps k
    by_cases hok : (migratePayment σ ps k).2 = .ok ()
    · rw [forEachPayment_cons_ok rest (Prod.ext rfl hok)]
      exact prunedEntries_trans h1 (ih _)
    · rw [forEachPayment_cons_stop rest hok]
      exact h1

end Further

/-! ## The contract of `MigratePayments` -/

/-- Claim C1: on every store on which `MigratePayments` succeeds, for every
payment that was settled before the migration and every attempt id whose
fail-info key held a non-empty value, the keys `ai`+id, `si`+id and `fi`+id are
all absent from the attempt collection of that payment after the migration,
whatever `ai`+id and `si`+id held before. -/
theorem failed_attempts_removed (σ : Schedule) (hσ : σ.Valid) (tx tx' : Bucket)
    (hrun : MigratePayments σ tx = (tx', .ok ()))
    (hash : Bytes) (htlcs : Bucket) (hh : htlcsOf tx hash = some htlcs)
    (hs : Settled htlcs) (id : Bytes) (hf : Failed htlcs id) :
    ∃ htlcs', htlcsOf tx' hash = some htlcs' ∧
      htlcs'.lookup (htlcBucketKey htlcAttemptInfoKey id) = none ∧
      htlcs'.lookup (htlcBucketKey htlcSettleInfoKey id) = none ∧
      htlcs'.lookup (htlcBucketKey htlcFailInfoKey id) = none := by
  obtain ⟨htlcs', hh', hmh⟩ := MigratePayments_htlcs hσ hrun hh
  obtain ⟨aids, ha, hcase⟩ := migrateHtlcs_ok hσ hmh
  rcases hcase with ⟨hns, _, _⟩ | ⟨_, rfl, _⟩
  · exact absurd hs hns
  · have hp : ∀ k, inTriple id k = true → (prune htlcs aids).lookup k = none := by
      intro k hk
      rw [lookup_prune, (pruned_aids_iff ha k).mpr ⟨id, hf, hk⟩]
      rfl
    exact ⟨_, hh', hp _ (by simp [inTriple]), hp _ (by simp [inTriple]),
      hp _ (by simp [inTriple])⟩

/-- Claim C2: on every store on which `MigratePayments` succeeds, for every
payment settled before the migration, every entry of its attempt collection
whose key is not `ai`+id, `si`+id or `fi`+id for an id with non-empty fail info
is present after the migration with the same key and the same value. -/
theorem other_entries_kept (σ : Schedule) (hσ : σ.Valid) (tx tx' : Bucket)
    (hrun : MigratePayments σ tx = (tx', .ok ()))
    (hash : Bytes) (htlcs : Bucket) (hh : htlcsOf tx hash = some htlcs)
    (hs : Settled htlcs) (k : Bytes)
    (hk : ∀ id, Failed htlcs id → k ≠ htlcBucketKey htlcAttemptInfoKey id ∧
      k ≠ htlcBucketKey htlcSettleInfoKey id ∧ k ≠ htlcBucketKey htlcFailInfoKey id) :
    ∃ htlcs', htlcsOf tx' hash = some htlcs' ∧ htlcs'.lookup k = htlcs.lookup k ∧
      ∀ n, (k, n) ∈ htlcs → (k, n) ∈ htlcs' := by
  obtain ⟨htlcs', hh', hmh⟩ := MigratePayments_htlcs hσ hrun hh
  obtain ⟨aids, ha, hcase⟩ := migrateHtlcs_ok hσ hmh
  rcases hcase with ⟨hns, _, _⟩ | ⟨_, rfl, _⟩
  · exact absurd hs hns
  · have hp : pruned htlcs aids k = false := by
      rw [Bool.eq_false_iff]
      intro hpk
      obtain ⟨id, hfid, ht⟩ := (pruned_aids_iff ha k).mp hpk
      obtain ⟨h1, h2, h3⟩ := hk id hfid
      simp only [inTriple, Bool.or_eq_true, decide_eq_true_eq] at ht
      rcases ht with e | e | e
      · exact h3 e
      · exact h1 e
      · exact h2 e
    refine ⟨_, hh', ?_, ?_⟩
    · rw [lookup_prune, hp]; rfl
    · intro n hn
      rw [mem_prune]
      exact ⟨hn, hp⟩

/-- Claim C3: on every store on which `MigratePayments` succeeds, the attempt
collection of a payment that contains no id with a non-empty settle-info value
is the same before and after the migration, also when it contains attempts with
non-empty fail info. -/
theorem unsettled_unchanged (σ : Schedule) (hσ : σ.Valid) (tx tx' : Bucket)
    (hrun : MigratePayments σ tx = (tx', .ok ()))
    (hash : Bytes) (htlcs : Bucket) (hh : htlcsOf tx hash = some htlcs)
    (hns : ¬ Settled htlcs) : htlcsOf tx' hash = some htlcs := by
  obtain ⟨htlcs', hh', hmh⟩ := MigratePayments_htlcs hσ hrun hh
  obtain ⟨aids, ha, hcase⟩ := migrateHtlcs_ok hσ hmh
  rcases hcase with ⟨_, rfl, _⟩ | ⟨hs, _, _⟩
  · exact hh'
  · exact absurd hs hns

/-- Claim C4: on an attempt collection whose keys all have at least 2 bytes and
in which no key `si`+id, for a collected id, is a nested bucket,
`paymentIsSettled` returns `(true, nil)` exactly when some key with prefix `si`
holds a value of length greater than 0, and `(false, nil)` otherwise. -/
theorem paymentIsSettled_iff (ord : RangeOrder) (hord : ord.Valid) (htlcs : Bucket)
    (hlong : ∀ k ∈ htlcs.keys, 2 ≤ k.length)
    (hnb : ∀ k ∈ htlcs.keys,
      htlcs.NestedReadBucket (htlcBucketKey htlcSettleInfoKey (k.drop 2)) = none) :
    (paymentIsSettled ord htlcs = .ok true ↔
        ∃ k v, htlcSettleInfoKey <+: k ∧ htlcs.Get k = some v ∧ 0 < v.length) ∧
      (paymentIsSettled ord htlcs = .ok false ↔
        ¬ ∃ k v, htlcSettleInfoKey <+: k ∧ htlcs.Get k = some v ∧ 0 < v.length) := by
  obtain ⟨aids, ha⟩ := collectAids_of_long hlong []
  have hmem := (collectAids_some ha).2.1
  have hnb' : ∀ id ∈ ord aids,
      htlcs.NestedReadBucket (htlcBucketKey htlcSettleInfoKey id) = none := by
    intro id hid
    have hid' := (hmem id).mp ((hord aids).mem_iff.mp hid)
    rcases hid' with hid' | ⟨k, hk, rfl⟩
    · simp at hid'
    · exact hnb k hk
  have hval : paymentIsSettled ord htlcs =
      .ok ((ord aids).any (fun id => nonEmptyAt htlcs (htlcBucketKey htlcSettleInfoKey id))) := by
    unfold paymentIsSettled
    rw [ha]
    exact settledLoop_of_noBucket hnb'
  have hany : ((ord aids).any
      (fun id => nonEmptyAt htlcs (htlcBucketKey htlcSettleInfoKey id)) = true) ↔
      ∃ k v, htlcSettleInfoKey <+: k ∧ htlcs.Get k = some v ∧ 0 < v.length := by
    rw [← settled_iff_si_key, settled_iff_aids ha, List.any_eq_true]
    constructor
    · rintro ⟨id, hm, hid⟩; exact ⟨id, (hord aids).mem_iff.mp hm, hid⟩
    · rintro ⟨id, hm, hid⟩; exact ⟨id, (hord aids).mem_iff.mpr hm, hid⟩
  rw [hval, ← hany]
  constructor
  · constructor
    · intro h; injection h
    · intro h; rw [h]
  · constructor
    · intro h; injection h with h; rw [h]; exact Bool.noConfusion
    · intro h; congr 1; simpa using h

/-- Claim C5: `MigratePayments` is idempotent: on the store left by a first
successful application, a second application succeeds and leaves the store
unchanged. -/
theorem migrate_idempotent (σ σ' : Schedule) (hσ : σ.Valid) (hσ' : σ'.Valid) (tx tx' : Bucket)
    (hrun : MigratePayments σ tx = (tx', .ok ())) :
    MigratePayments σ' tx' = (tx', .ok ()) := by
  cases hps : tx.NestedReadWriteBucket paymentsRootBucket with
  | none =>
    rw [MigratePayments_of_no_root σ hps] at hrun
    simp only [Prod.mk.injEq, and_true] at hrun
    subst hrun
    exact MigratePayments_of_no_root σ' hps
  | some ps =>
    rw [MigratePayments_of_root σ hps] at hrun
    simp only [Prod.mk.injEq] at hrun
    obtain ⟨htx, hout⟩ := hrun
    have hfe : forEachPayment σ ps.keys ps = ((forEachPayment σ ps.keys ps).1, .ok ()) :=
      Prod.ext rfl hout
    obtain ⟨h1, h2, h3, _⟩ := forEachPayment_ok hσ _ _ _ hfe
    have hps' : tx'.NestedReadWriteBucket paymentsRootBucket =
        some (forEachPayment σ ps.keys ps).1 := by
      rw [← htx]; exact nested_setBucket_self _ hps
    have hfix : forEachPayment σ' (forEachPayment σ ps.keys ps).1.keys
        (forEachPayment σ ps.keys ps).1 = ((forEachPayment σ ps.keys ps).1, .ok ()) := by
      apply forEachPayment_fix
      intro k hk
      rw [h1] at hk
      obtain ⟨rec, hrec⟩ := h2 k hk
      obtain ⟨rec', hrec', hin, _⟩ := h3 k rec hrec
      have hidem := migrateRecord_idem hσ hσ' k (hin hk)
      rw [migratePayment_of_bucket σ' hrec', hidem]
      simp only [setBucket_self (nested_eq_some.mp hrec')]
    rw [MigratePayments_of_root σ' hps', hfix]
    simp only [setBucket_self (nested_eq_some.mp hps')]

/-- Claim C6: after every successful `MigratePayments` no payment is both
settled and in possession of a failed attempt: if some key `si`+id of an attempt
collection of the resulting store holds a non-empty value, then no key `fi`+id'
of that collection holds a non-empty value. -/
theorem settled_has_no_failed (σ : Schedule) (hσ : σ.Valid) (tx tx' : Bucket)
    (hrun : MigratePayments σ tx = (tx', .ok ()))
    (hash : Bytes) (htlcs' : Bucket) (hh' : htlcsOf tx' hash = some htlcs')
    (hs : Settled htlcs') (id' : Bytes) : ¬ Failed htlcs' id' := by
  obtain ⟨htlcs, _, hmh⟩ := MigratePayments_htlcs_inv hσ hrun hh'
  obtain ⟨aids, ha, hcase⟩ := migrateHtlcs_ok hσ hmh
  rcases hcase with ⟨hns, rfl, _⟩ | ⟨_, rfl, _⟩
  · exact absurd hs hns
  · intro hf
    have := (nonEmptyAt_iff _ _).mpr hf
    rw [nonEmptyAt_prune_fail ha id'] at this
    exact Bool.noConfusion this

/-- Claim C7 (amended): on every store in which some entry directly under the
root payments bucket is a plain value, or some payment record holds a plain
value under `payment-htlcs-bucket`, `MigratePayments` does not succeed; it
returns an error when every key of every attempt collection has at least 2
bytes (a shorter key met earlier makes the run panic instead). -/
theorem plain_entry_fails (σ : Schedule) (hσ : σ.Valid) (tx : Bucket)
    (hbad : HasPlainPayment tx ∨ HasPlainAttempts tx) :
    (MigratePayments σ tx).2 ≠ .ok () ∧
      (TxLongKeys tx → ∃ e, (MigratePayments σ tx).2 = .error e) := by
  have hnok : (MigratePayments σ tx).2 ≠ .ok () := by
    intro hok
    have hrun : MigratePayments σ tx = ((MigratePayments σ tx).1, .ok ()) := Prod.ext rfl hok
    rcases hbad with ⟨ps, hash, v, hps, hv⟩ | ⟨hash, rec, v, hrec, hv⟩
    · rw [MigratePayments_of_root σ hps] at hok
      have hfe : forEachPayment σ ps.keys ps = ((forEachPayment σ ps.keys ps).1, .ok ()) :=
        Prod.ext rfl hok
      obtain ⟨_, h2, _, _⟩ := forEachPayment_ok hσ _ _ _ hfe
      have hl := get_eq_some.mp hv
      obtain ⟨rec, hrec⟩ := h2 hash (lookup_mem_keys hl)
      rw [nested_eq_some, hl] at hrec
      simp at hrec
    · obtain ⟨rec', _, hmr⟩ := MigratePayments_payment hσ hrun hrec
      have := (migrateRecord_ok hmr).1
      rw [hv] at this
      exact Option.noConfusion this
  exact ⟨hnok, fun hl => outcome_error_of hnok (MigratePayments_no_panic σ hl)⟩

/-- Claim C8 (amended): on every store in which the attempt collection of some
payment has a key `si`+id that resolves to a nested bucket, or belongs to a
settled payment and has a key `ai`+id, `si`+id or `fi`+id that resolves to a
nested bucket, `MigratePayments` does not succeed; it returns an error when
every key of every attempt collection has at least 2 bytes. -/
theorem bucket_key_fails (σ : Schedule) (hσ : σ.Valid) (tx : Bucket)
    (hash : Bytes) (htlcs : Bucket) (hh : htlcsOf tx hash = some htlcs)
    (hbad : (∃ id, (htlcs.NestedReadBucket (htlcBucketKey htlcSettleInfoKey id)).isSome = true) ∨
      (Settled htlcs ∧ HasBucketKey htlcs)) :
    (MigratePayments σ tx).2 ≠ .ok () ∧
      (TxLongKeys tx → ∃ e, (MigratePayments σ tx).2 = .error e) := by
  have hnok : (MigratePayments σ tx).2 ≠ .ok () := by
    intro hok
    have hrun : MigratePayments σ tx = ((MigratePayments σ tx).1, .ok ()) := Prod.ext rfl hok
    obtain ⟨htlcs', _, hmh⟩ := MigratePayments_htlcs hσ hrun hh
    obtain ⟨aids, ha, hcase⟩ := migrateHtlcs_ok hσ hmh
    have hin : ∀ id k, inTriple id k = true → (htlcs.NestedReadBucket k).isSome = true →
        id ∈ aids := fun id k ht hb => key_mem_aids ha (nested_mem_keys hb) ht
    rcases hcase with ⟨hns, _, hnb⟩ | ⟨_, _, hnb⟩
    · rcases hbad with ⟨id, hb⟩ | ⟨hs, _⟩
      · have := hnb id (hin id _ (by simp [inTriple]) hb)
        rw [this] at hb
        exact Bool.noConfusion hb
      · exact hns hs
    · have key : ∀ id k, inTriple id k = true →
          (htlcs.NestedReadBucket k).isSome = true → False := by
        intro id k ht hb
        obtain ⟨h1, h2, h3⟩ := hnb id (hin id k ht hb)
        simp only [inTriple, Bool.or_eq_true, decide_eq_true_eq] at ht
        rcases ht with e | e | e <;> subst e
        · rw [h1] at hb; exact Bool.noConfusion hb
        · rw [h2] at hb; exact Bool.noConfusion hb
        · rw [h3] at hb; exact Bool.noConfusion hb
      rcases hbad with ⟨id, hb⟩ | ⟨_, id, hb | hb | hb⟩
      · exact key id _ (by simp [inTriple]) hb
      · exact key id _ (by simp [inTriple]) hb
      · exact key id _ (by simp [inTriple]) hb
      · exact key id _ (by simp [inTriple]) hb
  exact ⟨hnok, fun hl => outcome_error_of hnok (MigratePayments_no_panic σ hl)⟩

/-- Claim C9 (amended): when `MigratePayments` returns an error, the store it
leaves in the transaction may already lack attempt entries. It is the store
before the call in which the root bucket holds the same entries in the same
order, each of them either unchanged or the record of a settled payment whose
attempt collection lost entries `ai`+id, `si`+id or `fi`+id of attempts id with
non-empty fail info: no entry is created or modified anywhere, and undoing the
deletions is left to the rollback of the transaction by the caller. -/
theorem error_leaves_pruned (σ : Schedule) (tx tx' : Bucket) (e : MigrationError)
    (hrun : MigratePayments σ tx = (tx', .error e)) :
    (∃ ps ps', tx.NestedReadWriteBucket paymentsRootBucket = some ps ∧
      tx' = tx.setBucket paymentsRootBucket ps' ∧ List.Forall₂ PrunedEntry ps ps') ∧
    (∀ hash htlcs, htlcsOf tx hash = some htlcs →
      ∃ htlcs', htlcsOf tx' hash = some htlcs' ∧
        ∀ k, htlcs'.lookup k = htlcs.lookup k ∨
          (htlcs'.lookup k = none ∧ Settled htlcs ∧
            ∃ id, Failed htlcs id ∧ (k = htlcBucketKey htlcAttemptInfoKey id ∨
              k = htlcBucketKey htlcSettleInfoKey id ∨
              k = htlcBucketKey htlcFailInfoKey id))) := by
  constructor
  · cases hps : tx.NestedReadWriteBucket paymentsRootBucket with
    | none =>
      rw [MigratePayments_of_no_root σ hps] at hrun
      simp only [Prod.mk.injEq] at hrun
      exact Outcome.noConfusion hrun.2
    | some ps =>
      rw [MigratePayments_of_root σ hps] at hrun
      simp only [Prod.mk.injEq] at hrun
      exact ⟨ps, (forEachPayment σ ps.keys ps).1, rfl, hrun.1.symm,
        forEachPayment_entries σ ps.keys ps⟩
  · intro hash htlcs hh
    obtain ⟨htlcs', hh', hall⟩ := MigratePayments_htlcs_fst σ hh
    rw [hrun] at hh'
    refine ⟨htlcs', hh', ?_⟩
    intro k
    rcases hall k with h1 | ⟨h1, hs, id, hf, ht⟩
    · exact Or.inl h1
    · refine Or.inr ⟨h1, hs, id, hf, ?_⟩
      simp only [inTriple, Bool.or_eq_true, decide_eq_true_eq] at ht
      rcases ht with e | e | e
      · exact Or.inr (Or.inr e)
      · exact Or.inl e
      · exact Or.inr (Or.inl e)

/-- Claim C10: on every store on which `MigratePayments` succeeds, a payment
record that has no entry under the key `payment-htlcs-bucket` is the same before
and after the migration. -/
theorem record_without_attempts_unchanged (σ : Schedule) (hσ : σ.Valid) (tx tx' : Bucket)
    (hrun : MigratePayments σ tx = (tx', .ok ()))
    (hash : Bytes) (rec : Bucket) (hrec : paymentOf tx hash = some rec)
    (hno : rec.lookup paymentHtlcsBucket = none) : paymentOf tx' hash = some rec := by
  obtain ⟨rec', hrec', hmr⟩ := MigratePayments_payment hσ hrun hrec
  rw [migrateRecord_of_absent σ hash hno] at hmr
  simp only [Prod.mk.injEq, and_true] at hmr
  rw [hmr]; exact hrec'

/-- Claim C11: `MigratePayments` only deletes inside attempt collections and
never creates: on every store on which it succeeds the root bucket is still
there with the same payment hashes, every record keeps its keys and every entry
other than the attempt collection, a record without attempt collection is
unchanged, and an attempt collection still exists afterwards (possibly empty)
with entries that were all entries, with the same value, before. -/
theorem only_deletes_in_attempts (σ : Schedule) (tx tx' : Bucket)
    (hrun : MigratePayments σ tx = (tx', .ok ()))
    (ps : Bucket) (hps : tx.NestedReadWriteBucket paymentsRootBucket = some ps) :
    tx'.keys = tx.keys ∧ (∀ k, k ≠ paymentsRootBucket → tx'.lookup k = tx.lookup k) ∧
    ∃ ps', tx'.NestedReadWriteBucket paymentsRootBucket = some ps' ∧ ps'.keys = ps.keys ∧
      ∀ hash rec, ps.NestedReadWriteBucket hash = some rec →
        ∃ rec', ps'.NestedReadWriteBucket hash = some rec' ∧ rec'.keys = rec.keys ∧
          (∀ k, k ≠ paymentHtlcsBucket → rec'.lookup k = rec.lookup k) ∧
          (rec.NestedReadWriteBucket paymentHtlcsBucket = none → rec' = rec) ∧
          (∀ htlcs, rec.NestedReadWriteBucket paymentHtlcsBucket = some htlcs →
            ∃ htlcs', rec'.NestedReadWriteBucket paymentHtlcsBucket = some htlcs' ∧
              htlcs'.Sublist htlcs ∧ ∀ e ∈ htlcs', e ∈ htlcs) := by
  rw [MigratePayments_of_root σ hps] at hrun
  simp only [Prod.mk.injEq] at hrun
  obtain ⟨htx, _⟩ := hrun
  subst htx
  obtain ⟨hkeys, _, hrec⟩ := (forEachPayment_fst σ ps.keys ps).1
  refine ⟨keys_setBucket _ _ _, fun k hk => lookup_setBucket_ne _ _ hk,
    _, nested_setBucket_self _ hps, hkeys, ?_⟩
  intro hash rec hh
  obtain ⟨rec', hrec', hop⟩ := hrec hash rec hh
  refine ⟨rec', hrec', ?_⟩
  rcases hop with rfl | ⟨h, P, hn, _, rfl, _⟩
  · refine ⟨rfl, fun _ _ => rfl, fun _ => rfl, ?_⟩
    intro htlcs hh2
    exact ⟨htlcs, hh2, List.Sublist.refl _, fun _ he => he⟩
  · refine ⟨keys_setBucket _ _ _, fun k hk => lookup_setBucket_ne _ _ hk, ?_, ?_⟩
    · intro hnone
      rw [hn] at hnone
      exact Option.noConfusion hnone
    · intro htlcs hh2
      rw [hn] at hh2
      simp only [Option.some.injEq] at hh2
      subst hh2
      exact ⟨h.restrict P, nested_setBucket_self _ hn, List.filter_sublist _,
        fun e he => (List.mem_filter.mp he).1⟩

/-- Claim C15: stripping undoes composing: for every prefix `p` of 2 bytes and
every byte string `id`, `htlcBucketKey p id` is the concatenation of `p` and
`id`, of length `len(p)+len(id)`, and `getAttemptIdFromHtlcBucketKey` returns
`id` on it. -/
theorem strip_undoes_compose (p id : Bytes) (hp : p.length = 2) :
    getAttemptIdFromHtlcBucketKey (htlcBucketKey p id) = some id ∧
      htlcBucketKey p id = p ++ id ∧
      (htlcBucketKey p id).length = p.length + id.length := by
  rw [htlcBucketKey_eq]
  refine ⟨?_, rfl, List.length_append _ _⟩
  rw [getAttemptId_eq_some]
  refine ⟨by rw [List.length_append]; omega, ?_⟩
  rw [← hp, List.drop_left]

/-- Claim C16: on an attempt collection whose keys all have at least 2 bytes,
the id set collected by `paymentIsSettled` and by `deleteFailedHtlcs` is the set
of the suffixes left by removing the first 2 bytes of every key, each of them
once, and nothing else; both functions range over the same set. -/
theorem attempt_ids_collected (ord ord' : RangeOrder) (htlcs : Bucket)
    (hlong : ∀ k ∈ htlcs.keys, 2 ≤ k.length) :
    ∃ aids, collectAids htlcs [] = some aids ∧ aids.Nodup ∧
      (∀ id, id ∈ aids ↔ ∃ k ∈ htlcs.keys, k.drop 2 = id) ∧
      paymentIsSettled ord htlcs = settledLoop htlcs (ord aids) ∧
      deleteFailedHtlcs ord' htlcs = deleteLoop htlcs (ord' aids) := by
  obtain ⟨aids, ha⟩ := collectAids_of_long hlong []
  obtain ⟨_, hmem, hnd⟩ := collectAids_some ha
  refine ⟨aids, ha, hnd List.nodup_nil, ?_, ?_, ?_⟩
  · intro id
    rw [hmem]
    simp
  · unfold paymentIsSettled; rw [ha]
  · unfold deleteFailedHtlcs; rw [ha]

/-- Claim C19: when the transaction has no root bucket `payments-root-bucket`,
`MigratePayments` returns success and changes nothing in the store. -/
theorem no_root_is_noop (σ : Schedule) (tx : Bucket)
    (hno : tx.NestedReadWriteBucket paymentsRootBucket = none) :
    MigratePayments σ tx = (tx, .ok ()) :=
  MigratePayments_of_no_root σ hno

/-- Claim C20: `getAttemptIdFromHtlcBucketKey` is defined exactly on the keys of
at least 2 bytes, and on every store in which every key of every attempt
collection has at least 2 bytes `MigratePayments` does not reach the
out-of-range slice: it ends with success or with a returned error. -/
theorem long_keys_no_panic (σ : Schedule) (tx : Bucket) (hl : TxLongKeys tx) :
    (∀ k, (getAttemptIdFromHtlcBucketKey k = none ↔ k.length < 2) ∧
      (2 ≤ k.length → getAttemptIdFromHtlcBucketKey k = some (k.drop 2))) ∧
    (MigratePayments σ tx).2 ≠ .panic ∧
    ((MigratePayments σ tx).2 = .ok () ∨ ∃ e, (MigratePayments σ tx).2 = .error e) := by
  have hnp := MigratePayments_no_panic σ hl
  refine ⟨fun k => ⟨getAttemptId_eq_none, fun hk => getAttemptId_eq_some.mpr ⟨hk, rfl⟩⟩, hnp, ?_⟩
  by_cases hok : (MigratePayments σ tx).2 = .ok ()
  · exact Or.inl hok
  · exact Or.inr (outcome_error_of hok hnp)

/-- Claim C13: the end-to-end scenario of the test: applied to the store `pre`,
`MigratePayments` succeeds and yields exactly the store `post`, whatever the
range orders: `hash1` and `hash3` unchanged, `hash2` left with the attempt info
and settle info of attempt 3, `hash4` left with an empty attempt collection. -/
theorem pre_migrates_to_post (σ : Schedule) (hσ : σ.Valid) :
    MigratePayments σ pre = (post, .ok ()) :=
  MigratePayments_schedule inOrder_valid hσ
    (rfl : MigratePayments Schedule.inOrder pre = (post, .ok ()))

/-- Claim C12 (amended): for every attempt collection and every two enumeration
orders of its id set, `paymentIsSettled` panics in both runs or in none, returns
`false` in both runs or in none, and in the remaining case each run returns
`true` or an error (one run may return `true` where the other returns an error);
when no key `si`+id of a collected id is a nested bucket the two runs return the
same outcome. -/
theorem settled_order (ord ord' : RangeOrder) (hord : ord.Valid) (hord' : ord'.Valid)
    (htlcs : Bucket) :
    (paymentIsSettled ord htlcs = .panic ↔ paymentIsSettled ord' htlcs = .panic) ∧
    (paymentIsSettled ord htlcs = .ok false ↔ paymentIsSettled ord' htlcs = .ok false) ∧
    ((paymentIsSettled ord htlcs = .ok true ∨ ∃ e, paymentIsSettled ord htlcs = .error e) ↔
      (paymentIsSettled ord' htlcs = .ok true ∨ ∃ e, paymentIsSettled ord' htlcs = .error e)) ∧
    ((∀ k ∈ htlcs.keys,
        htlcs.NestedReadBucket (htlcBucketKey htlcSettleInfoKey (k.drop 2)) = none) →
      paymentIsSettled ord htlcs = paymentIsSettled ord' htlcs) := by
  have hpanic : paymentIsSettled ord htlcs = .panic ↔ paymentIsSettled ord' htlcs = .panic := by
    rw [paymentIsSettled_panic_iff, paymentIsSettled_panic_iff]
  have hfalse : paymentIsSettled ord htlcs = .ok false ↔
      paymentIsSettled ord' htlcs = .ok false := by
    rw [paymentIsSettled_false_iff hord, paymentIsSettled_false_iff hord']
  refine ⟨hpanic, hfalse, ?_, ?_⟩
  · constructor
    · intro h
      apply paymentIsSettled_true_or_error
      · intro hp
        rw [← hpanic] at hp
        rcases h with h | ⟨e, h⟩ <;> rw [h] at hp <;> exact Outcome.noConfusion hp
      · intro hf
        rw [← hfalse] at hf
        rcases h with h | ⟨e, h⟩ <;> rw [h] at hf
        · injection hf with hf; exact Bool.noConfusion hf
        · exact Outcome.noConfusion hf
    · intro h
      apply paymentIsSettled_true_or_error
      · intro hp
        rw [hpanic] at hp
        rcases h with h | ⟨e, h⟩ <;> rw [h] at hp <;> exact Outcome.noConfusion hp
      · intro hf
        rw [hfalse] at hf
        rcases h with h | ⟨e, h⟩ <;> rw [h] at hf
        · injection hf with hf; exact Bool.noConfusion hf
        · exact Outcome.noConfusion hf
  · intro hnb
    cases ha : collectAids htlcs [] with
    | none =>
      rw [(paymentIsSettled_panic_iff ord htlcs).mpr ha,
        (paymentIsSettled_panic_iff ord' htlcs).mpr ha]
    | some aids =>
      have hmem := (collectAids_some ha).2.1
      have hnb' : ∀ id ∈ aids,
          htlcs.NestedReadBucket (htlcBucketKey htlcSettleInfoKey id) = none := by
        intro id hid
        rcases (hmem id).mp hid with hid' | ⟨k, hk, rfl⟩
        · simp at hid'
        · exact hnb k hk
      unfold paymentIsSettled
      rw [ha]
      simp only
      rw [settledLoop_of_noBucket (fun id hm => hnb' id ((hord aids).mem_iff.mp hm)),
        settledLoop_of_noBucket (fun id hm => hnb' id ((hord' aids).mem_iff.mp hm))]
      congr 1
      rw [Bool.eq_iff_iff, List.any_eq_true, List.any_eq_true]
      constructor
      · rintro ⟨id, hm, hid⟩
        exact ⟨id, (hord' aids).mem_iff.mpr ((hord aids).mem_iff.mp hm), hid⟩
      · rintro ⟨id, hm, hid⟩
        exact ⟨id, (hord aids).mem_iff.mpr ((hord' aids).mem_iff.mp hm), hid⟩

/-- Claim C14: payments are migrated independently of each other: on every
store on which `MigratePayments` succeeds, the record of each payment after the
migration is the record that migrating a store with that payment alone leaves,
and, the payment hashes being unique, enumerating the root bucket in another
order succeeds too and leaves the same records. -/
theorem payments_independent (σ : Schedule) (hσ : σ.Valid) (tx tx' : Bucket)
    (hrun : MigratePayments σ tx = (tx', .ok ()))
    (ps : Bucket) (hps : tx.NestedReadWriteBucket paymentsRootBucket = some ps) :
    (∀ hash rec, ps.NestedReadWriteBucket hash = some rec →
      ∃ rec', paymentOf tx' hash = some rec' ∧
        MigratePayments σ (singlePayment hash rec) = (singlePayment hash rec', .ok ())) ∧
    (∀ ps2 : Bucket, ps.keys.Nodup → ps2.Perm ps →
      ∃ ps' ps2', tx' = tx.setBucket paymentsRootBucket ps' ∧
        MigratePayments σ (tx.setBucket paymentsRootBucket ps2) =
          (tx.setBucket paymentsRootBucket ps2', .ok ()) ∧
        ps2'.Perm ps' ∧ ∀ hash, ps2'.lookup hash = ps'.lookup hash) := by
  constructor
  · intro hash rec hrec
    obtain ⟨rec', hrec', hmr⟩ :=
      MigratePayments_payment hσ hrun (paymentOf_eq_some.mpr ⟨ps, hps, hrec⟩)
    refine ⟨rec', hrec', ?_⟩
    rw [MigratePayments_singlePayment, hmr]
  · intro ps2 hnd hperm
    rw [MigratePayments_of_root σ hps] at hrun
    simp only [Prod.mk.injEq] at hrun
    obtain ⟨htx, hout⟩ := hrun
    have hfe : forEachPayment σ ps.keys ps = ((forEachPayment σ ps.keys ps).1, .ok ()) :=
      Prod.ext rfl hout
    obtain ⟨_, h2, h3, _⟩ := forEachPayment_ok hσ _ _ _ hfe
    have hmap := forEachPayment_eq_map hσ hnd hfe
    have hkeys2 : ps2.keys.Perm ps.keys := by
      unfold Bucket.keys
      exact hperm.map (fun e : Bytes × Node => e.1)
    have hnd2 : ps2.keys.Nodup := hkeys2.nodup_iff.mpr hnd
    have hps2 : (tx.setBucket paymentsRootBucket ps2).NestedReadWriteBucket paymentsRootBucket =
        some ps2 := nested_setBucket_self _ hps
    have hok2 : (forEachPayment σ ps2.keys ps2).2 = .ok () := by
      apply forEachPayment_succeeds σ _ _ hnd2
      intro h hm
      obtain ⟨rec, hrec⟩ := h2 h (hkeys2.mem_iff.mp hm)
      obtain ⟨rec', _, hin, _⟩ := h3 h rec hrec
      have hmr := hin (hkeys2.mem_iff.mp hm)
      refine ⟨rec, ?_, by rw [hmr]⟩
      unfold Bucket.NestedReadWriteBucket at hrec ⊢
      rw [perm_lookup hperm hnd2 h]
      exact hrec
    have hfe2 : forEachPayment σ ps2.keys ps2 = ((forEachPayment σ ps2.keys ps2).1, .ok ()) :=
      Prod.ext rfl hok2
    have hmap2 := forEachPayment_eq_map hσ hnd2 hfe2
    have hpermr : ((forEachPayment σ ps2.keys ps2).1).Perm (forEachPayment σ ps.keys ps).1 := by
      rw [hmap, hmap2]
      exact hperm.map _
    refine ⟨_, (forEachPayment σ ps2.keys ps2).1, htx.symm, ?_, hpermr, ?_⟩
    · rw [MigratePayments_of_root σ hps2, setBucket_setBucket, hok2]
    · intro hash
      apply perm_lookup hpermr
      rw [hmap2, keys_map_entry _ (migrateEntry_fst σ)]
      exact hnd2

/-- Claim C18: `MigratePayments` never deletes from a collection while a traversal
of that same collection is in progress: in the sequence of store operations it
issues, every `Delete` is on an attempt collection and comes when a `ForEach`
over that attempt collection has returned and none is in progress (the id set is
collected first). -/
theorem deletes_after_traversal (σ : Schedule) (tx : Bucket) :
    (MigratePaymentsT σ tx).1 = MigratePayments σ tx ∧
      ∀ pre post b k, (MigratePaymentsT σ tx).2 = pre ++ StoreOp.delete b k :: post →
        (∃ hash, b = Handle.htlcs hash) ∧
          completed b pre = started b pre ∧ 0 < completed b pre := by
  refine ⟨MigratePaymentsT_fst σ tx, ?_⟩
  intro pre post b k ht
  obtain ⟨h1, h2⟩ := MigratePaymentsT_ops σ tx
  refine ⟨h2 b k ?_, h1 pre post b k ht⟩
  rw [ht]
  exact List.mem_append_right _ (List.mem_cons_self _ _)

/-! ## The contract on the stores of the test -/

/-- Claim C1 on the store `pre`: the failed attempt 2 of the settled payment
`hash2` is gone after the migration. -/
theorem failed_attempts_removed_witness :
    ∃ htlcs', htlcsOf post hash2 = some htlcs' ∧
      htlcs'.lookup (htlcBucketKey htlcAttemptInfoKey attemptID2) = none ∧
      htlcs'.lookup (htlcBucketKey htlcSettleInfoKey attemptID2) = none ∧
      htlcs'.lookup (htlcBucketKey htlcFailInfoKey attemptID2) = none :=
  failed_attempts_removed Schedule.inOrder inOrder_valid pre post rfl hash2 preHtlcs2 rfl
    ⟨attemptID3, ascii "iiii", by decide, by decide⟩ attemptID2
    ⟨ascii "gggg", by decide, by decide⟩

/-- Claim C2 on the store `pre`: the attempt info of attempt 3 of the settled
payment `hash2` is kept. -/
theorem other_entries_kept_witness :
    ∃ htlcs', htlcsOf post hash2 = some htlcs' ∧
      htlcs'.lookup (htlcBucketKey htlcAttemptInfoKey attemptID3) =
        preHtlcs2.lookup (htlcBucketKey htlcAttemptInfoKey attemptID3) ∧
      ∀ n, (htlcBucketKey htlcAttemptInfoKey attemptID3, n) ∈ preHtlcs2 →
        (htlcBucketKey htlcAttemptInfoKey attemptID3, n) ∈ htlcs' :=
  other_entries_kept Schedule.inOrder inOrder_valid pre post rfl hash2 preHtlcs2 rfl
    ⟨attemptID3, ascii "iiii", by decide, by decide⟩ (htlcBucketKey htlcAttemptInfoKey attemptID3)
    (fun id hf =>
      (by decide : ∀ id ∈ failedIds preHtlcs2,
        htlcBucketKey htlcAttemptInfoKey attemptID3 ≠ htlcBucketKey htlcAttemptInfoKey id ∧
        htlcBucketKey htlcAttemptInfoKey attemptID3 ≠ htlcBucketKey htlcSettleInfoKey id ∧
        htlcBucketKey htlcAttemptInfoKey attemptID3 ≠ htlcBucketKey htlcFailInfoKey id)
        id (failed_mem_failedIds hf))

/-- Claim C3 on the store `pre`: the unsettled payment `hash1` keeps its attempt
collection, failed attempt included. -/
theorem unsettled_unchanged_witness : htlcsOf post hash1 = some preHtlcs1 :=
  unsettled_unchanged Schedule.inOrder inOrder_valid pre post rfl hash1 preHtlcs1 rfl
    (not_settled_of_keys (by decide))

/-- Claim C4 on the attempt collection of `hash2` in `pre`. -/
theorem paymentIsSettled_iff_witness :
    (paymentIsSettled (fun l => l) preHtlcs2 = .ok true ↔
        ∃ k v, htlcSettleInfoKey <+: k ∧ preHtlcs2.Get k = some v ∧ 0 < v.length) ∧
      (paymentIsSettled (fun l => l) preHtlcs2 = .ok false ↔
        ¬ ∃ k v, htlcSettleInfoKey <+: k ∧ preHtlcs2.Get k = some v ∧ 0 < v.length) :=
  paymentIsSettled_iff (fun l => l) (fun l => List.Perm.refl l) preHtlcs2 (by decide)
    (fun k hk => Option.isNone_iff_eq_none.mp
      ((by decide : ∀ k ∈ preHtlcs2.keys,
        (preHtlcs2.NestedReadBucket
          (htlcBucketKey htlcSettleInfoKey (k.drop 2))).isNone = true) k hk))

/-- Claim C5 on the store `pre`: migrating `post` again gives `post`. -/
theorem migrate_idempotent_witness : MigratePayments Schedule.inOrder post = (post, .ok ()) :=
  migrate_idempotent Schedule.inOrder Schedule.inOrder inOrder_valid inOrder_valid pre post rfl

/-- Claim C6 on the store `pre`: in `post` the settled payment `hash2` has no
failed attempt 2. -/
theorem settled_has_no_failed_witness : ¬ Failed postHtlcs2 attemptID2 :=
  settled_has_no_failed Schedule.inOrder inOrder_valid pre post rfl hash2 postHtlcs2 rfl
    ⟨attemptID3, ascii "iiii", by decide, by decide⟩ attemptID2

/-- The claim C7 as stated fails: in `shortKeyThenPlain` an entry of the root
bucket is a plain value, and `MigratePayments` panics on the 1-byte attempt key
of the payment enumerated before it instead of returning an error. -/
theorem plain_entry_panics :
    HasPlainPayment shortKeyThenPlain ∧
      (MigratePayments Schedule.inOrder shortKeyThenPlain).2 = .panic ∧
      ¬ ∃ e, (MigratePayments Schedule.inOrder shortKeyThenPlain).2 = .error e :=
  ⟨⟨_, hash2, ascii "bogus", rfl, rfl⟩, rfl, by
    rw [show (MigratePayments Schedule.inOrder shortKeyThenPlain).2 = .panic from rfl]
    rintro ⟨e, he⟩
    exact Outcome.noConfusion he⟩

/-- Claim C7 (amended) on the store `failing1`. -/
theorem plain_entry_fails_witness :
    (MigratePayments Schedule.inOrder failing1).2 ≠ .ok () ∧
      ∃ e, (MigratePayments Schedule.inOrder failing1).2 = .error e :=
  have h := plain_entry_fails Schedule.inOrder inOrder_valid failing1
    (Or.inl ⟨_, hash1, ascii "bogus", rfl, rfl⟩)
  ⟨h.1, h.2 (txLongKeys_of_check (by decide))⟩

/-- The claim C8 as stated fails: in `unsettledBucketKey` the attempt info of an
attempt of an unsettled payment is a bucket and `MigratePayments` succeeds; in
`shortKeyThenBucket` the settle info of an attempt is a bucket and
`MigratePayments` panics on the 1-byte attempt key of the payment enumerated
before it. -/
theorem bucket_key_unnoticed :
    ((∃ htlcs, htlcsOf unsettledBucketKey hash1 = some htlcs ∧ HasBucketKey htlcs) ∧
      (MigratePayments Schedule.inOrder unsettledBucketKey).2 = .ok ()) ∧
    ((∃ htlcs, htlcsOf shortKeyThenBucket hash2 = some htlcs ∧ HasBucketKey htlcs) ∧
      (MigratePayments Schedule.inOrder shortKeyThenBucket).2 = .panic) :=
  ⟨⟨⟨_, rfl, attemptID2, Or.inl (by decide)⟩, rfl⟩,
    ⟨⟨_, rfl, attemptID1, Or.inr (Or.inl (by decide))⟩, rfl⟩⟩

/-- Claim C8 (amended) on the store `failing5`. -/
theorem bucket_key_fails_witness :
    (MigratePayments Schedule.inOrder failing5).2 ≠ .ok () ∧
      ∃ e, (MigratePayments Schedule.inOrder failing5).2 = .error e :=
  have h := bucket_key_fails Schedule.inOrder inOrder_valid failing5 hash1 failing5Htlcs rfl
    (Or.inr ⟨⟨attemptID1, ascii "dddd", by decide, by decide⟩,
      ⟨attemptID2, Or.inr (Or.inr (by decide))⟩⟩)
  ⟨h.1, h.2 (txLongKeys_of_check (by decide))⟩

/-- The claim C9 as stated fails: on `settledThenPlain` the call returns an
error after it has deleted the two attempt entries of the payment `hash1`. -/
theorem error_after_delete :
    (MigratePayments Schedule.inOrder settledThenPlain).2 =
        .error (.keyMustBeBucket paymentsRootBucket) ∧
      htlcsOf settledThenPlain hash1 = some settledHtlcs ∧
      htlcsOf (MigratePayments Schedule.inOrder settledThenPlain).1 hash1 = some [] ∧
      (MigratePayments Schedule.inOrder settledThenPlain).1 ≠ settledThenPlain :=
  ⟨rfl, rfl, rfl, fun h => by
    have h2 : htlcsOf (MigratePayments Schedule.inOrder settledThenPlain).1 hash1 = some [] := rfl
    rw [h] at h2
    have h3 : htlcsOf settledThenPlain hash1 = some settledHtlcs := rfl
    rw [h3] at h2
    simp [settledHtlcs] at h2⟩

/-- Claim C9 (amended) on the store `settledThenPlain`. -/
theorem error_leaves_pruned_witness :
    (∃ ps ps', settledThenPlain.NestedReadWriteBucket paymentsRootBucket = some ps ∧
      settledThenPlainAfter = settledThenPlain.setBucket paymentsRootBucket ps' ∧
      List.Forall₂ PrunedEntry ps ps') ∧
    (∃ htlcs', htlcsOf settledThenPlainAfter hash1 = some htlcs' ∧
      ∀ k, htlcs'.lookup k = settledHtlcs.lookup k ∨
        (htlcs'.lookup k = none ∧ Settled settledHtlcs ∧
          ∃ id, Failed settledHtlcs id ∧ (k = htlcBucketKey htlcAttemptInfoKey id ∨
            k = htlcBucketKey htlcSettleInfoKey id ∨
            k = htlcBucketKey htlcFailInfoKey id))) :=
  have h := error_leaves_pruned Schedule.inOrder settledThenPlain settledThenPlainAfter
    (.keyMustBeBucket paymentsRootBucket) rfl
  ⟨h.1, h.2 hash1 settledHtlcs rfl⟩

/-- Claim C10 on the store `pre`: the record of `hash3`, which has no attempt
collection, is the same in `post`. -/
theorem record_without_attempts_unchanged_witness : paymentOf post hash3 = some preRecord3 :=
  record_without_attempts_unchanged Schedule.inOrder inOrder_valid pre post rfl hash3 preRecord3
    rfl rfl

/-- Claim C11 on the store `pre`. -/
theorem only_deletes_in_attempts_witness :
    post.keys = pre.keys ∧ (∀ k, k ≠ paymentsRootBucket → post.lookup k = pre.lookup k) ∧
    ∃ ps', post.NestedReadWriteBucket paymentsRootBucket = some ps' ∧
      ps'.keys = prePayments.keys ∧
      ∀ hash rec, prePayments.NestedReadWriteBucket hash = some rec →
        ∃ rec', ps'.NestedReadWriteBucket hash = some rec' ∧ rec'.keys = rec.keys ∧
          (∀ k, k ≠ paymentHtlcsBucket → rec'.lookup k = rec.lookup k) ∧
          (rec.NestedReadWriteBucket paymentHtlcsBucket = none → rec' = rec) ∧
          (∀ htlcs, rec.NestedReadWriteBucket paymentHtlcsBucket = some htlcs →
            ∃ htlcs', rec'.NestedReadWriteBucket paymentHtlcsBucket = some htlcs' ∧
              htlcs'.Sublist htlcs ∧ ∀ e ∈ htlcs', e ∈ htlcs) :=
  only_deletes_in_attempts Schedule.inOrder pre post rfl prePayments rfl

/-- Claim C15 on the settle-info key of attempt 3. -/
theorem strip_undoes_compose_witness :
    getAttemptIdFromHtlcBucketKey (htlcBucketKey htlcSettleInfoKey attemptID3) = some attemptID3 ∧
      htlcBucketKey htlcSettleInfoKey attemptID3 = htlcSettleInfoKey ++ attemptID3 ∧
      (htlcBucketKey htlcSettleInfoKey attemptID3).length =
        htlcSettleInfoKey.length + attemptID3.length :=
  strip_undoes_compose htlcSettleInfoKey attemptID3 (by decide)

/-- Claim C16 on the attempt collection of `failing5`, which holds a bucket. -/
theorem attempt_ids_collected_witness :
    ∃ aids, collectAids failing5Htlcs [] = some aids ∧ aids.Nodup ∧
      (∀ id, id ∈ aids ↔ ∃ k ∈ failing5Htlcs.keys, k.drop 2 = id) ∧
      paymentIsSettled (fun l => l) failing5Htlcs = settledLoop failing5Htlcs aids ∧
      deleteFailedHtlcs List.reverse failing5Htlcs =
        deleteLoop failing5Htlcs aids.reverse :=
  attempt_ids_collected (fun l => l) List.reverse failing5Htlcs (by decide)

/-- Claim C19 on the empty transaction. -/
theorem no_root_is_noop_witness : MigratePayments Schedule.inOrder [] = ([], .ok ()) :=
  no_root_is_noop Schedule.inOrder [] rfl

/-- Claim C20 on the store `pre`. -/
theorem long_keys_no_panic_witness :
    (∀ k, (getAttemptIdFromHtlcBucketKey k = none ↔ k.length < 2) ∧
      (2 ≤ k.length → getAttemptIdFromHtlcBucketKey k = some (k.drop 2))) ∧
    (MigratePayments Schedule.inOrder pre).2 ≠ .panic ∧
    ((MigratePayments Schedule.inOrder pre).2 = .ok () ∨
      ∃ e, (MigratePayments Schedule.inOrder pre).2 = .error e) :=
  long_keys_no_panic Schedule.inOrder pre (txLongKeys_of_check (by decide))

/-- Claim C13 with the ids visited in the order of their first key. -/
theorem pre_migrates_to_post_witness : MigratePayments Schedule.inOrder pre = (post, .ok ()) :=
  pre_migrates_to_post Schedule.inOrder inOrder_valid

/-- The claim C12 as stated fails: on `bucketAndSettled` the run that visits
attempt 1 first returns an error and the run that visits attempt 2 first returns
`true`. -/
theorem settled_depends_on_order :
    RangeOrder.Valid (fun l => l) ∧ RangeOrder.Valid List.reverse ∧
      paymentIsSettled (fun l => l) bucketAndSettled =
        .error (.keyMustNotBeBucket (htlcBucketKey htlcSettleInfoKey attemptID1)) ∧
      paymentIsSettled List.reverse bucketAndSettled = .ok true :=
  ⟨fun l => List.Perm.refl l, fun l => List.reverse_perm l, by decide, by decide⟩

/-- Claim C12 (amended) on the attempt collection of `hash2` in `pre`, in which no
settle info is a bucket. -/
theorem settled_order_witness :
    (paymentIsSettled (fun l => l) preHtlcs2 = .panic ↔
      paymentIsSettled List.reverse preHtlcs2 = .panic) ∧
    (paymentIsSettled (fun l => l) preHtlcs2 = .ok false ↔
      paymentIsSettled List.reverse preHtlcs2 = .ok false) ∧
    paymentIsSettled (fun l => l) preHtlcs2 = paymentIsSettled List.reverse preHtlcs2 :=
  have h := settled_order (fun l => l) List.reverse (fun l => List.Perm.refl l)
    (fun l => List.reverse_perm l) preHtlcs2
  ⟨h.1, h.2.1, h.2.2.2 (fun k hk => Option.isNone_iff_eq_none.mp
    ((by decide : ∀ k ∈ preHtlcs2.keys,
      (preHtlcs2.NestedReadBucket
        (htlcBucketKey htlcSettleInfoKey (k.drop 2))).isNone = true) k hk))⟩

/-- Claim C14 on the store `pre`: the payment `hash2` migrated alone, and the root
bucket enumerated in the reverse order. -/
theorem payments_independent_witness :
    (∃ rec', paymentOf post hash2 = some rec' ∧
      MigratePayments Schedule.inOrder (singlePayment hash2 preRecord2) =
        (singlePayment hash2 rec', .ok ())) ∧
    (∃ ps' ps2', post = pre.setBucket paymentsRootBucket ps' ∧
      MigratePayments Schedule.inOrder (pre.setBucket paymentsRootBucket prePayments.reverse) =
        (pre.setBucket paymentsRootBucket ps2', .ok ()) ∧
      ps2'.Perm ps' ∧ ∀ hash, ps2'.lookup hash = ps'.lookup hash) :=
  have h := payments_independent Schedule.inOrder inOrder_valid pre post rfl prePayments rfl
  ⟨h.1 hash2 preRecord2 rfl, h.2 prePayments.reverse (by decide) (List.reverse_perm _)⟩

/-- The claim C17 fails on the code for an entry of the root bucket that is a
plain value: on `failing1` the error names `payments-root-bucket`, not the key
`hash1` of the entry, whereas on `failing2` and `failing5` the error names the
key at fault. -/
theorem root_entry_error_names_root :
    failing1.NestedReadWriteBucket paymentsRootBucket = some [(hash1, .value (ascii "bogus"))] ∧
      (MigratePayments Schedule.inOrder failing1).2 =
        .error (.keyMustBeBucket paymentsRootBucket) ∧
      paymentsRootBucket ≠ hash1 ∧
      (MigratePayments Schedule.inOrder failing2).2 =
        .error (.keyMustBeBucket paymentHtlcsBucket) ∧
      (MigratePayments Schedule.inOrder failing5).2 =
        .error (.keyMustNotBeBucket (htlcBucketKey htlcFailInfoKey attemptID2)) :=
  ⟨rfl, by decide, by decide, by decide, by decide⟩

/-- The operations that `MigratePayments` issues on the store `settledThenPlain`:
the three deletes on the attempt collection of `hash1` come after the two
`ForEach` over it have returned. -/
theorem settledThenPlain_operations :
    (MigratePaymentsT Schedule.inOrder settledThenPlain).2 =
      [.forEachBegin .payments,
       .forEachBegin (.htlcs hash1), .forEachEnd (.htlcs hash1),
       .forEachBegin (.htlcs hash1), .forEachEnd (.htlcs hash1),
       .delete (.htlcs hash1) (htlcBucketKey htlcFailInfoKey attemptID1),
       .delete (.htlcs hash1) (htlcBucketKey htlcAttemptInfoKey attemptID1),
       .delete (.htlcs hash1) (htlcBucketKey htlcSettleInfoKey attemptID1),
       .forEachEnd .payments] := by
  decide

end Migration28
